import Mathlib

/-!
# A shallow embedding of `SerializedGraph` (ts-serialize-closures)

This file embeds the graph serialization/deserialization engine of the
repository — the class `SerializedGraph` with its methods `serialize`,
`add`, `serializeFunction`, `serializeObject`, `serializeProperties`,
`get`, `deserializeProperties`, `toJSON`, `fromJSON` and the `root`
getter — and proves theorems about the embedded code.

Modelling conventions, chosen once and used throughout:

* JavaScript values are `Value`: either a primitive (`Prim`, with numbers
  modelled as `Int`) or a reference into a heap (`List HObj`).  Reference
  identity (`===`) is equality of heap addresses; primitive `===` is
  structural equality of `Prim`.
* There is a single heap: the encoder reads it (and allocates closure
  snapshot objects into it, as `closure()` does); the decoder allocates
  reconstructed values into it.
* A model function cell `HObj.func` carries the captured environment its
  `__closure` accessor would return (`env`); an absent accessor is the
  empty environment — both produce the same snapshot `({})` after the
  source's `if (!closure) closure = () => ({})` substitution.  The
  function's `prototype` own property is the dedicated `proto` field;
  `props` are its remaining own properties.
* `eval` of the synthesized fragment is modelled from the spec by
  `evalApplyFragment` (see its doc comment); regex re-parsing by a cell
  carrying the literal text; `JSON.stringify`/`new Date(JSON.parse _)`
  by `dateToJson`/`parseDateJson`.
* The builtin registry (`./builtins`, not part of the serialization
  module) is modelled from the spec as a finite list of name/value pairs
  with first-match lookup in both directions.
* All recursive walks take explicit fuel; `none` means the fuel ran out
  (or, in the decoder, that a content slot was missing altogether, which
  in JavaScript is a host `TypeError` rather than one of the engine's own
  errors).  Thrown engine errors are `Except.error : DErr`.
-/

set_option maxHeartbeats 1000000

namespace TsSC

/-- JavaScript primitive values (`util.isPrimitive`): numbers (modelled as
`Int`), strings, booleans, `null` and `undefined`. -/
inductive Prim where
  | num (n : Int)
  | str (s : String)
  | bool (b : Bool)
  | null
  | undef
deriving DecidableEq, Repr

/-- A JavaScript value: a primitive, or a reference to a heap object.
`===` on values is `=` here. -/
inductive Value where
  | prim (p : Prim)
  | ref (a : Nat)
deriving DecidableEq, Repr

/-- An own-property descriptor as `Object.getOwnPropertyDescriptor`
returns it: either a data property (`value`/`writable`) or an accessor
property (`get`/`set`); both carry `enumerable` and `configurable`. -/
inductive PropDesc where
  | data (value : Value) (writable enumerable configurable : Bool)
  | accessor (get? set? : Option Value) (enumerable configurable : Bool)
deriving DecidableEq, Repr

/-- The implementation produced by evaluating the synthesized code
fragment and applying it to the captured values (source line 254):
`code` is the exact text handed to `eval`, `source` the original function
source inside it, and `env` the parameter/argument bindings the
application established. -/
structure Impl where
  code : String
  source : String
  env : List (String × Value)
deriving DecidableEq, Repr

/-- A heap object.  `arr`, `obj`, `func`, `date`, `regex` are the value
kinds the encoder classifies; `thunk` and `implFn` exist only on the
decoder side (the placeholder of source lines 238-241 and the `eval`
result of line 254).  For `obj`, `proto` is `Object.getPrototypeOf`; for
`func` and `thunk` it is the value of the `prototype` own property. -/
inductive HObj where
  | arr (elems : List Value)
  | obj (proto : Value) (props : List (String × PropDesc))
  | func (source : String) (env : List (String × Value)) (proto : Value)
      (props : List (String × PropDesc))
  | date (time : Int)
  | regex (text : String)
  | thunk (impl? : Option Value) (proto : Value) (props : List (String × PropDesc))
  | implFn (impl : Impl) (proto : Value)
deriving DecidableEq, Repr

/-- A serialized property description, as built by source lines 131-146:
optional indices for `get`/`set`/`value`, the recorded flags.  The
`writable?` field is `Option Bool` because the source emits it only
behind the `serializedDesc.writable !== undefined` guard. -/
structure SDesc where
  get? : Option Nat := none
  set? : Option Nat := none
  value? : Option Nat := none
  configurable : Bool := false
  writable? : Option Bool := none
  enumerable : Bool := false
deriving DecidableEq, Repr

/-- A content record of the serialized graph: the seven recognized kinds,
plus `unrecognized` for a wire record whose `kind` string is none of the
seven (the final `else` of source line 282). -/
inductive Record where
  | primitive (value : Prim)
  | array (refs : List Nat)
  | object (proto : Nat) (refs : List (String × Nat))
      (descriptions : List (String × SDesc))
  | function (source : String) (closure : Nat) (proto : Nat)
      (refs : List (String × Nat)) (descriptions : List (String × SDesc))
  | builtin (name : String)
  | date (value : String)
  | regex (value : String)
  | unrecognized (kind : String)
deriving DecidableEq, Repr

/-- Modelled from the spec: the builtin registry (`./builtins`, outside
the serialization module) is a stable bidirectional name/value mapping;
`getNameOfBuiltin` is its reverse lookup (`name_of(value)`), first match
wins. -/
def getNameOfBuiltin (reg : List (String × Value)) (v : Value) : Option String :=
  match reg with
  | [] => none
  | e :: rest => if e.2 = v then some e.1 else getNameOfBuiltin rest v

/-- Modelled from the spec: forward lookup (`value_of(name)`) in the
builtin registry, first match wins. -/
def getBuiltinByName (reg : List (String × Value)) (n : String) : Option Value :=
  match reg with
  | [] => none
  | e :: rest => if e.1 = n then some e.2 else getBuiltinByName rest n

/-- The state a `SerializedGraph` instance and the runtime heap are in
while `serialize` runs: the `indexMap` and `contentArray` fields (a
reserved-but-unfilled slot is `none`, the pushed `undefined` of source
line 68) plus the heap. -/
structure GState where
  indexMap : List (Value × Nat)
  contentArray : List (Option Record)
  heap : List HObj
deriving DecidableEq, Repr

/-- The `for (let \x7b element, index \x7d of this.indexMap)` search of
source lines 61-65: first entry whose `element` is `===` the value. -/
def findIdx : List (Value × Nat) → Value → Option Nat
  | [], _ => none
  | e :: rest, v => if e.1 = v then some e.2 else findIdx rest v

/-- The type of the recursive `add` passed to the value-classification
helpers (it is `addRec` at one less fuel). -/
abbrev AddC := GState → Value → Option (Nat × GState)

/-- `value.map(v => this.add(v))` of source line 178, threading state. -/
def addElems (addC : AddC) : GState → List Value → Option (List Nat × GState)
  | st, [] => some ([], st)
  | st, v :: rest =>
    (addC st v).bind fun p =>
      (addElems addC p.2 rest).bind fun q => some (p.1 :: q.1, q.2)

/-- `desc.configurable`. -/
def configurableOf : PropDesc → Bool
  | .data _ _ _ c => c
  | .accessor _ _ _ c => c

/-- `desc.enumerable`. -/
def enumerableOf : PropDesc → Bool
  | .data _ _ e _ => e
  | .accessor _ _ e _ => e

/-- `desc.writable`: `undefined` on an accessor descriptor. -/
def writableOf : PropDesc → Option Bool
  | .data _ w _ _ => some w
  | .accessor _ _ _ _ => none

/-- `desc.get` / `desc.set` / the value behind `'value' in desc`. -/
def getOf : PropDesc → Option Value
  | .data _ _ _ _ => none
  | .accessor g _ _ _ => g

def setOf : PropDesc → Option Value
  | .data _ _ _ _ => none
  | .accessor _ s _ _ => s

def valueOf : PropDesc → Option Value
  | .data v _ _ _ => some v
  | .accessor _ _ _ _ => none

/-- Serialize one optional descriptor field (the `if (desc.get) \x7b
serializedDesc.get = this.add(desc.get); \x7d` pattern of source lines
132-140). -/
def addOpt (addC : AddC) (st : GState) : Option Value → Option (Option Nat × GState)
  | none => some (none, st)
  | some v => (addC st v).bind fun p => some (some p.1, p.2)

/-- The fancy-property branch of `serializeProperties` (source lines
131-146).  The `writable` handling mirrors lines 142-144 exactly: the
freshly created `serializedDesc` has no `writable` yet, so the guard
`serializedDesc.writable !== undefined` is evaluated against `none`. -/
def serializeDesc (addC : AddC) (st : GState) (desc : PropDesc) :
    Option (SDesc × GState) :=
  (addOpt addC st (getOf desc)).bind fun g =>
    (addOpt addC g.2 (setOf desc)).bind fun s =>
      (addOpt addC s.2 (valueOf desc)).bind fun v =>
        let w0 : Option Bool := none
        let w1 : Option Bool := if w0.isSome then writableOf desc else w0
        some ({ get? := g.1, set? := s.1, value? := v.1,
                configurable := configurableOf desc,
                writable? := w1,
                enumerable := enumerableOf desc }, v.2)

/-- Whether the first branch of source line 126 fires:
`'value' in desc && desc.configurable && desc.writable && desc.enumerable`. -/
def isTypical : PropDesc → Bool
  | .data _ w e c => c && w && e
  | .accessor _ _ _ _ => false

/-- The value a typical data property contributes (`value[key]`, which
for a plain data property is `desc.value`). -/
def dataValueOf : PropDesc → Value
  | .data v _ _ _ => v
  | .accessor _ _ _ _ => Value.prim Prim.undef

/-- `serializeProperties` (source lines 117-152): walk the own
properties in order, skip `__closure`, route each through the typical
(`refs`) or fancy (`descriptions`) bucket. -/
def serializeProps (addC : AddC) : GState → List (String × PropDesc) →
    Option ((List (String × Nat) × List (String × SDesc)) × GState)
  | st, [] => some (([], []), st)
  | st, (key, desc) :: rest =>
    if key = "__closure" then
      serializeProps addC st rest
    else if isTypical desc then
      (addC st (dataValueOf desc)).bind fun p =>
        (serializeProps addC p.2 rest).bind fun q =>
          some (((key, p.1) :: q.1.1, q.1.2), q.2)
    else
      (serializeDesc addC st desc).bind fun p =>
        (serializeProps addC p.2 rest).bind fun q =>
          some ((q.1.1, (key, p.1) :: q.1.2), q.2)

/-- How the snapshot object materializes a captured environment
(`closure()` returns `\x7b ...captured \x7d`: plain, all-true data
properties in capture order). -/
def envProps (env : List (String × Value)) : List (String × PropDesc) :=
  env.map (fun kv => (kv.1, .data kv.2 true true true))

/-- `serializeFunction` (source lines 78-93).  `closure()` — either the
function's own `__closure` accessor or the substituted `() => (\x7b\x7d)`
— returns a fresh plain object whose own properties are the captured
mapping; the model allocates that object with prototype `objProto`
(`Object.prototype`) and all-true data properties, then adds it, then
the `prototype` own property, then the remaining own properties. -/
def serializeFunction (addC : AddC) (objProto : Value) (st : GState)
    (source : String) (env : List (String × Value)) (proto : Value)
    (props : List (String × PropDesc)) : Option (Record × GState) :=
  (addC { st with heap := st.heap ++ [.obj objProto (envProps env)] }
      (.ref st.heap.length)).bind fun c =>
    (addC c.2 proto).bind fun p =>
      (serializeProps addC p.2 props).bind fun q =>
        some (.function source c.1 p.1 q.1.1 q.1.2, q.2)

/-- `serializeObject` (source lines 99-108). -/
def serializeObject (addC : AddC) (st : GState) (proto : Value)
    (props : List (String × PropDesc)) : Option (Record × GState) :=
  (addC st proto).bind fun p =>
    (serializeProps addC p.2 props).bind fun q =>
      some (.object p.1 q.1.1 q.1.2, q.2)

/-- `JSON.stringify` of a `Date` (source line 185): a quoted timestamp. -/
def dateToJson (t : Int) : String := "\"" ++ toString t ++ "\""

/-- `new Date(JSON.parse(s))` (source line 272): unquote and parse;
an unparseable payload yields the model's invalid-date time `0`. -/
def parseDateJson (s : String) : Int :=
  ((((s.drop 1).dropRight 1)).toInt?).getD 0

/-- `serialize` (source lines 159-195): builtin check first, then the
kind-classification chain `isPrimitive` / `isArray` / `isFunction` /
`isDate` / `isRegExp` / object.  Re-serializing a decoder-built `thunk`
or `implFn` cell is outside the modelled fragment (`none`). -/
def serializeVal (reg : List (String × Value)) (objProto : Value) (addC : AddC)
    (st : GState) (value : Value) : Option (Record × GState) :=
  match getNameOfBuiltin reg value with
  | some n => some (.builtin n, st)
  | none =>
    match value with
    | .prim p => some (.primitive p, st)
    | .ref a =>
      match st.heap.get? a with
      | none => none
      | some (.arr elems) =>
        (addElems addC st elems).bind fun p => some (.array p.1, p.2)
      | some (.func source env proto props) =>
        serializeFunction addC objProto st source env proto props
      | some (.date t) => some (.date (dateToJson t), st)
      | some (.regex s) => some (.regex s, st)
      | some (.obj proto props) => serializeObject addC st proto props
      | some (.thunk _ _ _) => none
      | some (.implFn _ _) => none

/-- `add` (source lines 58-72): memo lookup, else reserve the next index
(push `undefined`, register the identity), serialize, fill the slot. -/
def addRec (reg : List (String × Value)) (objProto : Value) :
    Nat → GState → Value → Option (Nat × GState)
  | 0, _, _ => none
  | fuel+1, st, value =>
    match findIdx st.indexMap value with
    | some i => some (i, st)
    | none =>
      (serializeVal reg objProto (addRec reg objProto fuel)
          { st with contentArray := st.contentArray ++ [none],
                    indexMap := st.indexMap ++ [(value, st.contentArray.length)] }
          value).bind fun p =>
        some (st.contentArray.length,
          { p.2 with contentArray := p.2.contentArray.set st.contentArray.length (some p.1) })

/-- A `SerializedGraph` as it exists between calls: `rootIndex`,
`contentArray` and the instance's `indexMap` field. -/
structure Graph where
  rootIndex : Nat
  data : List (Option Record)
  indexMap : List (Value × Nat)
deriving DecidableEq, Repr

/-- `SerializedGraph.serialize` (source lines 25-29): fresh instance,
`rootIndex = add(value)`. -/
def serializeTop (reg : List (String × Value)) (objProto : Value) (fuel : Nat)
    (h : List HObj) (v : Value) : Option (Graph × List HObj) :=
  match addRec reg objProto fuel ⟨[], [], h⟩ v with
  | none => none
  | some (i, st) =>
    some ({ rootIndex := i, data := st.contentArray, indexMap := st.indexMap }, st.heap)

/-- `toJSON` (source lines 45-50): only `root` and `data` cross the wire. -/
def Graph.toJSON (g : Graph) : Nat × List (Option Record) :=
  (g.rootIndex, g.data)

/-- `fromJSON` (source lines 35-40): fresh instance — in particular a
fresh, empty `indexMap` — with the given root and data. -/
def fromJSON (j : Nat × List (Option Record)) : Graph :=
  { rootIndex := j.1, data := j.2, indexMap := [] }

/-! ## The decoder -/

/-- Decoder-side mutable state: the instance's `indexMap` and the heap. -/
structure DSt where
  indexMap : List (Value × Nat)
  heap : List HObj
deriving DecidableEq, Repr

/-- The two errors `get` throws (source lines 266 and 282). -/
inductive DErr where
  | unknownBuiltin (name : String)
  | unrecognizedKind (kind : String)
deriving DecidableEq, Repr

/-- The memo search of source lines 205-209: first entry whose `index`
matches. -/
def findElem : List (Value × Nat) → Nat → Option Value
  | [], _ => none
  | e :: rest, i => if e.2 = i then some e.1 else findElem rest i

abbrev GetC := DSt → Nat → Option (Except DErr (Value × DSt))

/-- Sequencing in the decoder: `none` (exhausted fuel / host failure)
and thrown errors both cut the rest of the computation short, exactly as
a JavaScript `throw` unwinds `get`'s callers. -/
def dbind {α β : Type} (x : Option (Except DErr α))
    (f : α → Option (Except DErr β)) : Option (Except DErr β) :=
  match x with
  | none => none
  | some (.error e) => some (.error e)
  | some (.ok a) => f a

def pushD (st : DSt) (v : Value) (i : Nat) : DSt :=
  { st with indexMap := st.indexMap ++ [(v, i)] }

def allocD (st : DSt) (o : HObj) : DSt := { st with heap := st.heap ++ [o] }

/-- Ordered-association update: JavaScript property assignment keeps an
existing key's position and appends a new key. -/
def assocSet : List (String × PropDesc) → String → PropDesc → List (String × PropDesc)
  | [], k, d => [(k, d)]
  | (k', d') :: rest, k, d =>
    if k' = k then (k, d) :: rest else (k', d') :: assocSet rest k d

/-- Install a property on the object-like heap cell at `a`. -/
def setPropH (h : List HObj) (a : Nat) (k : String) (d : PropDesc) : List HObj :=
  match h.get? a with
  | some (.obj proto props) => h.set a (.obj proto (assocSet props k d))
  | some (.func src env proto props) => h.set a (.func src env proto (assocSet props k d))
  | some (.thunk i proto props) => h.set a (.thunk i proto (assocSet props k d))
  | _ => h

/-- `results.push(...)` on the array cell at `a` (source line 222). -/
def appendElemH (h : List HObj) (a : Nat) (v : Value) : List HObj :=
  match h.get? a with
  | some (.arr elems) => h.set a (.arr (elems ++ [v]))
  | _ => h

/-- `impl.prototype = ...` (source line 255). -/
def setImplProtoH (h : List HObj) (a : Nat) (p : Value) : List HObj :=
  match h.get? a with
  | some (.implFn impl _) => h.set a (.implFn impl p)
  | _ => h

/-- `thunk.__impl = impl; thunk.prototype = impl.prototype`
(source lines 258-259), modelled as the thunk cell's dedicated fields. -/
def setThunkH (h : List HObj) (a : Nat) (impl? : Option Value) (proto : Value) :
    List HObj :=
  match h.get? a with
  | some (.thunk _ _ props) => h.set a (.thunk impl? proto props)
  | _ => h

/-- Enumerable own data properties in insertion order — the pairs the
`for (let key in deserializedClosure)` loop of source lines 247-250
collects.  Accessor properties are not modelled here (closure snapshot
objects only ever carry plain data properties); an array enumerates its
indices as strings. -/
def enumProps : List (String × PropDesc) → List (String × Value)
  | [] => []
  | (k, .data v _ e _) :: rest => if e then (k, v) :: enumProps rest else enumProps rest
  | (_, .accessor _ _ _ _) :: rest => enumProps rest

def enumOwnDataProps (h : List HObj) (v : Value) : List (String × Value) :=
  match v with
  | .prim _ => []
  | .ref a =>
    match h.get? a with
    | some (.obj _ props) => enumProps props
    | some (.func _ _ _ props) => enumProps props
    | some (.thunk _ _ props) => enumProps props
    | some (.arr elems) =>
      (List.range elems.length).map (fun i => (toString i, elems.getD i (.prim .undef)))
    | _ => []

/-- The code fragment of source line 251:
`(function(k1, ..., kn) \x7b return (source); \x7d)`. -/
def closureFragment (keys : List String) (source : String) : String :=
  "(function(" ++ String.intercalate (", ") keys ++ ") \x7b return (" ++
    source ++ "); \x7d)"

/-- Modelled from the spec: the host evaluator (JavaScript `eval`, not
repository code).  Evaluating `code` — always the `closureFragment` over
`keys` and `source` — and immediately applying the resulting function to
`vals` (source line 254) yields the real implementation: a callable with
the original body `source`, evaluated under an environment binding each
parameter name to the corresponding argument, in order. -/
def evalApplyFragment (code : String) (keys : List String) (source : String)
    (vals : List Value) : Impl :=
  { code := code, source := source, env := keys.zip vals }

/-- One optional field of `deserializeProperties`'s `parsedDesc` (source
lines 299-307): the `if (desc.get)` guard is JavaScript truthiness on the
stored index, so index `0` is left as the raw number `0` that the
`\x7b ...desc \x7d` spread copied. -/
def resolveField (getC : GetC) (st : DSt) : Option Nat →
    Option (Except DErr (Option Value × DSt))
  | none => some (.ok (none, st))
  | some i =>
    if i = 0 then some (.ok (some (.prim (.num 0)), st))
    else dbind (getC st i) fun p => some (.ok (some p.1, p.2))

/-- `Object.defineProperty`'s reading of `parsedDesc` on a fresh key:
accessor semantics when a `get` or `set` field is present, data semantics
otherwise, with JavaScript's defaults (`value` ↦ `undefined`,
`writable` ↦ `false`) for absent fields. -/
def parsedToDesc (g s v : Option Value) (c : Bool) (w : Option Bool) (e : Bool) :
    PropDesc :=
  if g.isSome || s.isSome then .accessor g s e c
  else .data (v.getD (.prim .undef)) (w.getD false) e c

/-- The `descriptions` loop of `deserializeProperties` (source lines
295-309). -/
def defineProps (getC : GetC) : List (String × SDesc) → Nat → DSt →
    Option (Except DErr DSt)
  | [], _, st => some (.ok st)
  | (k, sd) :: rest, a, st =>
    dbind (resolveField getC st sd.get?) fun g =>
      dbind (resolveField getC g.2 sd.set?) fun s =>
        dbind (resolveField getC s.2 sd.value?) fun v =>
          let d := parsedToDesc g.1 s.1 v.1 sd.configurable sd.writable? sd.enumerable
          defineProps getC rest a { v.2 with heap := setPropH v.2.heap a k d }

/-- The `refs` loop of `deserializeProperties` (source lines 292-294):
plain assignment installs a configurable, writable, enumerable data
property. -/
def assignProps (getC : GetC) : List (String × Nat) → Nat → DSt →
    Option (Except DErr DSt)
  | [], _, st => some (.ok st)
  | (k, r) :: rest, a, st =>
    dbind (getC st r) fun p =>
      assignProps getC rest a { p.2 with heap := setPropH p.2.heap a k (.data p.1 true true true) }

/-- The element loop of the array branch (source lines 221-223). -/
def getElems (getC : GetC) : List Nat → Nat → DSt → Option (Except DErr DSt)
  | [], _, st => some (.ok st)
  | r :: rest, a, st =>
    dbind (getC st r) fun p =>
      getElems getC rest a { p.2 with heap := appendElemH p.2.heap a p.1 }

/-- `get` (source lines 202-284).  Memo first; then branch on the
record's kind, publishing the partially built value into the memo before
recursing where the source does.  `none` is exhausted fuel or a missing
content slot (a host `TypeError` in JavaScript, not an engine error). -/
def getRec (reg : List (String × Value)) (data : List (Option Record)) :
    Nat → DSt → Nat → Option (Except DErr (Value × DSt))
  | 0, _, _ => none
  | fuel+1, st, i =>
    match findElem st.indexMap i with
    | some v => some (.ok (v, st))
    | none =>
      match data.get? i with
      | none => none
      | some none => none
      | some (some r) =>
        match r with
        | .primitive p => some (.ok (.prim p, pushD st (.prim p) i))
        | .array refs =>
          let a := st.heap.length
          let st1 := pushD (allocD st (.arr [])) (.ref a) i
          dbind (getElems (getRec reg data fuel) refs a st1) fun st2 =>
            some (.ok (.ref a, st2))
        | .object pIdx refs descs =>
          dbind (getRec reg data fuel st pIdx) fun p =>
            let a := p.2.heap.length
            let st2 := pushD (allocD p.2 (.obj p.1 [])) (.ref a) i
            dbind (assignProps (getRec reg data fuel) refs a st2) fun st3 =>
              dbind (defineProps (getRec reg data fuel) descs a st3) fun st4 =>
                some (.ok (.ref a, st4))
        | .function src cIdx pIdx refs descs =>
          let t := st.heap.length
          let st1 := pushD (allocD st (.thunk none (.prim .undef) [])) (.ref t) i
          dbind (getRec reg data fuel st1 cIdx) fun c =>
            let kvs := enumOwnDataProps c.2.heap c.1
            let code := closureFragment (kvs.map Prod.fst) src
            let impl := evalApplyFragment code (kvs.map Prod.fst) src (kvs.map Prod.snd)
            let ia := c.2.heap.length
            let st3 := allocD c.2 (.implFn impl (.prim .undef))
            dbind (getRec reg data fuel st3 pIdx) fun q =>
              let st5 : DSt := { q.2 with heap := setImplProtoH q.2.heap ia q.1 }
              let st6 : DSt := { st5 with heap := setThunkH st5.heap t (some (.ref ia)) q.1 }
              dbind (assignProps (getRec reg data fuel) refs t st6) fun st7 =>
                dbind (defineProps (getRec reg data fuel) descs t st7) fun st8 =>
                  some (.ok (.ref t, st8))
        | .builtin n =>
          match getBuiltinByName reg n with
          | none => some (.error (.unknownBuiltin n))
          | some b => some (.ok (b, pushD st b i))
        | .date s =>
          let a := st.heap.length
          some (.ok (.ref a, pushD (allocD st (.date (parseDateJson s))) (.ref a) i))
        | .regex s =>
          let a := st.heap.length
          some (.ok (.ref a, pushD (allocD st (.regex s)) (.ref a) i))
        | .unrecognized k => some (.error (.unrecognizedKind k))

/-- The `root` getter (source lines 315-317): walk from the stored root
index, starting from the instance's current `indexMap`. -/
def rootGet (reg : List (String × Value)) (fuel : Nat) (g : Graph)
    (h : List HObj) : Option (Except DErr (Value × DSt)) :=
  getRec reg g.data fuel ⟨g.indexMap, h⟩ g.rootIndex

/-- The implementation a callable forwards its invocations to: a thunk
defers to its patched `__impl`; the `eval` product is its own
implementation.  `none` means not invocable (an unpatched placeholder or
a non-callable). -/
def implOf (h : List HObj) (v : Value) : Option Impl :=
  match v with
  | .prim _ => none
  | .ref a =>
    match h.get? a with
    | some (.thunk (some (.ref ia)) _ _) =>
      match h.get? ia with
      | some (.implFn impl _) => some impl
      | _ => none
    | some (.implFn impl _) => some impl
    | _ => none

/-- Decode a graph through the wire boundary: what a consumer of the
JSON payload does (`SerializedGraph.fromJSON(json).root`). -/
def wireDecode (reg : List (String × Value)) (fuel : Nat) (g : Graph)
    (h : List HObj) : Option (Except DErr (Value × DSt)) :=
  rootGet reg fuel (fromJSON g.toJSON) h

/-! ## Observers used to state theorems -/

/-- The own properties of an object-like heap cell. -/
def ownPropsOf : HObj → List (String × PropDesc)
  | .obj _ props => props
  | .func _ _ _ props => props
  | .thunk _ _ props => props
  | _ => []

def lookupProp : List (String × PropDesc) → String → Option PropDesc
  | [], _ => none
  | (k, d) :: rest, key => if k = key then some d else lookupProp rest key

/-- The own property named `k` of the heap cell at `a`. -/
def ownProp (h : List HObj) (a : Nat) (k : String) : Option PropDesc :=
  match h.get? a with
  | some cell => lookupProp (ownPropsOf cell) k
  | none => none

/-- The root value of a finished decode, if it ended in `ok`. -/
def decodedRoot (o : Option (Except DErr (Value × DSt))) : Option Value :=
  match o with
  | some (.ok (v, _)) => some v
  | _ => none

/-- The final decoder state of a finished decode. -/
def decodedSt (o : Option (Except DErr (Value × DSt))) : Option DSt :=
  match o with
  | some (.ok (_, st)) => some st
  | _ => none

/-- Property `k` of the decoded cell at `a` after a finished decode. -/
def decodedProp (o : Option (Except DErr (Value × DSt))) (a : Nat) (k : String) :
    Option PropDesc :=
  match o with
  | some (.ok (_, st)) => ownProp st.heap a k
  | _ => none

/-- The heap cell at `a` after a finished decode. -/
def decodedCell (o : Option (Except DErr (Value × DSt))) (a : Nat) : Option HObj :=
  match o with
  | some (.ok (_, st)) => st.heap.get? a
  | _ => none

/-- The implementation behind the decoded root, if it is invocable. -/
def decodedImpl (o : Option (Except DErr (Value × DSt))) : Option Impl :=
  match o with
  | some (.ok (v, st)) => implOf st.heap v
  | _ => none

/-! ## Concrete scenarios -/

/-- A callable capturing `x = 5` (source text `() => x`, arrow function,
so its `prototype` own property is `undefined`). -/
def heapC2 : List HObj :=
  [.func ("() => x") [("x", .prim (.num 5))] (.prim .undef) []]

def encC2 : Option (Graph × List HObj) :=
  serializeTop [] (.prim .null) 10 heapC2 (.ref 0)

def decC2 : Option (Except DErr (Value × DSt)) :=
  match encC2 with
  | some (g, h1) => wireDecode [] 20 g h1
  | none => none

/-- Two live references to one identity through a prototype that leads
back: `arr = [obj]` and `obj = Object.create(arr)`. -/
def heapC4 : List HObj := [.obj (.ref 1) [], .arr [.ref 0]]

def decC4 : Option (Except DErr (Value × DSt)) :=
  match serializeTop [] (.prim .null) 10 heapC4 (.ref 0) with
  | some (g, h1) => wireDecode [] 20 g h1
  | none => none

/-- An object with one own attribute `x = 7` that is writable and
configurable but not enumerable (so it takes the `descriptions` path). -/
def heapC5 : List HObj :=
  [.obj (.prim .null) [("x", .data (.prim (.num 7)) true false true)]]

def decC5 : Option (Except DErr (Value × DSt)) :=
  match serializeTop [] (.prim .null) 10 heapC5 (.ref 0) with
  | some (g, h1) => wireDecode [] 20 g h1
  | none => none

/-- An object whose non-enumerable own attribute `x` points back to the
object itself, so the attribute's serialized `value` index is `0`. -/
def heapC6 : List HObj :=
  [.obj (.prim .null) [("x", .data (.ref 0) true false true)]]

def decC6 : Option (Except DErr (Value × DSt)) :=
  match serializeTop [] (.prim .null) 10 heapC6 (.ref 0) with
  | some (g, h1) => wireDecode [] 20 g h1
  | none => none

/-- A plain object `\x7b__closure: 1\x7d`: JSON-representable data whose
single own attribute happens to carry the transform's reserved name. -/
def heapC1 : List HObj :=
  [.obj (.prim .null) [("__closure", .data (.prim (.num 1)) true true true)]]

def decC1 : Option (Except DErr (Value × DSt)) :=
  match serializeTop [] (.prim .null) 10 heapC1 (.ref 0) with
  | some (g, h1) => wireDecode [] 20 g h1
  | none => none

/-- A plain object `\x7ba: 1\x7d` (null prototype, to keep the scenario
registry-free). -/
def heapC9 : List HObj :=
  [.obj (.prim .null) [("a", .data (.prim (.num 1)) true true true)]]

def encC9 : Option (Graph × List HObj) :=
  serializeTop [] (.prim .null) 10 heapC9 (.ref 0)

/-- The `writable` flag behind an optional descriptor. -/
def wrOf (o : Option PropDesc) : Option Bool := o.bind writableOf

def encC4 : Option (Graph × List HObj) :=
  serializeTop [] (.prim .null) 10 heapC4 (.ref 0)

/-- Accessing `root` directly on the instance `serialize` returned. -/
def rootOnEncC9 : Option (Except DErr (Value × DSt)) :=
  match encC9 with
  | some (g, h1) => rootGet [] 20 g h1
  | none => none

/-- Accessing `root` on the instance `fromJSON` built from the wire. -/
def wireC9 : Option (Except DErr (Value × DSt)) :=
  match encC9 with
  | some (g, h1) => wireDecode [] 20 g h1
  | none => none

/-- Accessing `root` a second time on that same `fromJSON` instance
(the instance's `indexMap` now holds what the first access memoized). -/
def secondRootC9 : Option (Except DErr (Value × DSt)) :=
  match encC9, wireC9 with
  | some (g, _), some (.ok (_, st1)) => getRec [] g.data 20 st1 g.rootIndex
  | _, _ => none

deriving instance DecidableEq for Except

/-! ## The encoder's pool of identities and the invariants of `add`

The termination and correctness proofs for the encoder below quantify
over a base heap `h0` (the heap as it is when `serialize` is entered), a
prototype value `op` for closure snapshots, and the root value `v0`.
Everything the encoder can ever pass to `add` is either a reference into
the current heap or a primitive drawn from the finite stock below, which
is what bounds the recursion. -/

/-- The values serializing one property descriptor recurses into. -/
def descKids : PropDesc → List Value
  | .data v _ _ _ => [v]
  | .accessor g s _ _ => g.toList ++ s.toList

/-- The values serializing a heap cell recurses into (for a function:
its captured values, through the snapshot object, and its `prototype`). -/
def cellKids : HObj → List Value
  | .arr elems => elems
  | .obj proto props => proto :: props.bind (fun kv => descKids kv.2)
  | .func _ env proto props =>
      proto :: (env.map Prod.snd ++ props.bind (fun kv => descKids kv.2))
  | .date _ => []
  | .regex _ => []
  | .thunk _ proto props => proto :: props.bind (fun kv => descKids kv.2)
  | .implFn _ proto => [proto]

def isFuncCell : HObj → Bool
  | .func _ _ _ _ => true
  | _ => false

/-- The value kinds the encoder classifies (everything except the
decoder-built `thunk`/`implFn` cells). -/
def cellSrcKind : HObj → Bool
  | .thunk _ _ _ => false
  | .implFn _ _ => false
  | _ => true

/-- Whether `v` is a reference to a function cell of `h`. -/
def funcRefB (h : List HObj) (v : Value) : Bool :=
  match v with
  | .ref a =>
    match h.get? a with
    | some (.func _ _ _ _) => true
    | _ => false
  | .prim _ => false

def funcAddrs (h : List HObj) : List Nat :=
  (List.range h.length).filter (fun a => funcRefB h (.ref a))

/-- How many function cells `h` holds — the number of snapshot objects
one encode call can allocate. -/
def funcCount (h : List HObj) : Nat := (funcAddrs h).length

/-- How many memo entries reference function cells of `h`. -/
def countFR (h : List HObj) (m : List (Value × Nat)) : Nat :=
  (m.filter (fun e => funcRefB h e.1)).length

/-- Every primitive value occurring in some cell of `h`. -/
def heapPrims (h : List HObj) : List Value :=
  (h.bind cellKids).filter (fun v => match v with | .prim _ => true | .ref _ => false)

/-- A well-formed runtime heap: every reference stored in a cell is in
range. -/
def WFHeap (h : List HObj) : Prop :=
  ∀ a cell, h.get? a = some cell → ∀ v ∈ cellKids cell, ∀ b, v = .ref b → b < h.length

/-- A source-world heap: no decoder-built placeholder cells. -/
def SrcHeap (h : List HObj) : Prop :=
  ∀ a cell, h.get? a = some cell → cellSrcKind cell = true

/-- The pool of identities available to one encode call over base heap
`h0` with snapshot prototype `op` and root `v0`: any in-range reference,
and any primitive stocked in the heap or equal to `op` or `v0`. -/
def PoolV (h0 : List HObj) (op v0 : Value) (st : GState) : Value → Prop
  | .ref a => a < st.heap.length
  | .prim p => Value.prim p ∈ heapPrims h0 ∨ Value.prim p = op ∨ Value.prim p = v0

/-- The size of the pool: the fuel bound for `add` is one more than
this. -/
def encB (h0 : List HObj) : Nat :=
  h0.length + funcCount h0 + (heapPrims h0).length + 2

/-- The fuel that provably suffices for `serialize` over base heap `h0`:
one unit per identity the store can supply (heap cells, one snapshot per
function cell, the stocked primitives, the prototype and root values)
plus one. -/
def encodeFuel (h0 : List HObj) : Nat := encB h0 + 1

/-- An optional descriptor field is mapped to the memoized index of its
value. -/
def OptMapped (m : List (Value × Nat)) (ov : Option Value) (oi : Option Nat) : Prop :=
  match ov with
  | none => oi = none
  | some v => ∃ j, findIdx m v = some j ∧ oi = some j

/-- A serialized description reflects the original descriptor: fields
mapped through the memo, recorded flags, and no `writable`. -/
def DescMapped (m : List (Value × Nat)) (desc : PropDesc) (sd : SDesc) : Prop :=
  OptMapped m (getOf desc) sd.get? ∧
  OptMapped m (setOf desc) sd.set? ∧
  OptMapped m (valueOf desc) sd.value? ∧
  sd.configurable = configurableOf desc ∧
  sd.writable? = none ∧
  sd.enumerable = enumerableOf desc

/-- The `refs`/`descriptions` buckets reflect the own-property list:
`__closure` skipped, typical properties in `refs` by memo index, fancy
ones in `descriptions`, in order. -/
def PropsMapped (m : List (Value × Nat)) :
    List (String × PropDesc) → List (String × Nat) → List (String × SDesc) → Prop
  | [], refs, descs => refs = [] ∧ descs = []
  | (key, desc) :: rest, refs, descs =>
    if key = "__closure" then PropsMapped m rest refs descs
    else if isTypical desc then
      ∃ j refs', findIdx m (dataValueOf desc) = some j ∧ refs = (key, j) :: refs' ∧
        PropsMapped m rest refs' descs
    else
      ∃ sd descs', DescMapped m desc sd ∧ descs = (key, sd) :: descs' ∧
        PropsMapped m rest refs descs'

/-- A record reflects a heap cell, one level deep, relative to the memo:
children are recorded by their memoized indices; a function records its
source, a snapshot object holding its captured environment, its
`prototype`, and its remaining properties. -/
def CellRec (op : Value) (st : GState) : HObj → Record → Prop
  | .arr elems, r => ∃ is, r = .array is ∧ is.length = elems.length ∧
      ∀ k v', elems.get? k = some v' →
        ∃ j, is.get? k = some j ∧ findIdx st.indexMap v' = some j
  | .obj proto props, r => ∃ pj refs descs, r = .object pj refs descs ∧
      findIdx st.indexMap proto = some pj ∧ PropsMapped st.indexMap props refs descs
  | .func src env proto props, r => ∃ cj pj refs descs snapA,
      r = .function src cj pj refs descs ∧
      st.heap.get? snapA = some (.obj op (envProps env)) ∧
      findIdx st.indexMap (.ref snapA) = some cj ∧
      findIdx st.indexMap proto = some pj ∧
      PropsMapped st.indexMap props refs descs
  | .date t, r => r = .date (dateToJson t)
  | .regex s, r => r = .regex s
  | .thunk _ _ _, _ => False
  | .implFn _ _, _ => False

/-- A filled slot is faithful to the value it serializes: builtins by
registered name first, then primitives by value, then by the cell the
reference designates. -/
def SlotOK (reg : List (String × Value)) (op : Value) (st : GState)
    (v : Value) (r : Record) : Prop :=
  match getNameOfBuiltin reg v with
  | some n => r = .builtin n
  | none =>
    match v with
    | .prim p => r = .primitive p
    | .ref a => ∃ cell, st.heap.get? a = some cell ∧ CellRec op st cell r

/-- How one encoder step may change the state: memo and heap only grow,
the content array only grows and never clears or rewrites a filled
slot. -/
def GExt (st st' : GState) : Prop :=
  (∃ ext, st'.indexMap = st.indexMap ++ ext) ∧
  (∃ hext, st'.heap = st.heap ++ hext) ∧
  st.contentArray.length ≤ st'.contentArray.length ∧
  (∀ j r, st.contentArray.get? j = some (some r) → st'.contentArray.get? j = some (some r))

/-- A step that reserves no new slot of its own: every slot unfilled
afterwards was already reserved and unfilled before.  (`add` satisfies
this because the one slot it reserves, it also fills.) -/
def UPres (st st' : GState) : Prop :=
  ∀ j, st'.contentArray.get? j = some none → st.contentArray.get? j = some none

/-- The encoder's running invariant. -/
structure EInv (reg : List (String × Value)) (h0 : List HObj) (op v0 : Value)
    (st : GState) : Prop where
  valsNodup : (st.indexMap.map Prod.fst).Nodup
  valsPool : ∀ e ∈ st.indexMap, PoolV h0 op v0 st e.1
  heapBound : st.heap.length ≤ h0.length + countFR h0 st.indexMap
  heapLen : h0.length ≤ st.heap.length
  heapExt : ∀ a, a < h0.length → st.heap.get? a = h0.get? a
  snapCells : ∀ a cell, h0.length ≤ a → st.heap.get? a = some cell →
    (∃ env', cell = .obj op (envProps env')) ∧ ∀ v ∈ cellKids cell, PoolV h0 op v0 st v
  idxSeq : st.indexMap.map Prod.snd = List.range st.contentArray.length
  slotsOK : ∀ e ∈ st.indexMap, st.contentArray.get? e.2 = some none ∨
    ∃ r, st.contentArray.get? e.2 = some (some r) ∧ SlotOK reg op st e.1 r

/-- What the recursive `add` guarantees at a given fuel: on any
invariant-respecting state and pool value, with enough fuel left, it
succeeds, preserves the invariant, extends the state, and leaves the
value memoized at the returned (in-range) index. -/
def ASpec (reg : List (String × Value)) (h0 : List HObj) (op v0 : Value)
    (addC : AddC) (fuel : Nat) : Prop :=
  ∀ st v, EInv reg h0 op v0 st → PoolV h0 op v0 st v →
    encB h0 + 1 ≤ fuel + st.indexMap.length →
    ∃ p : Nat × GState, addC st v = some p ∧ EInv reg h0 op v0 p.2 ∧ GExt st p.2 ∧
      UPres st p.2 ∧ findIdx p.2.indexMap v = some p.1 ∧ p.1 < p.2.contentArray.length

/-- Executable check for `WFHeap` (used to discharge hypotheses on
concrete heaps). -/
def valInRangeB (n : Nat) : Value → Bool
  | .ref b => decide (b < n)
  | .prim _ => true

def wfHeapB (h : List HObj) : Bool :=
  h.all (fun cell => (cellKids cell).all (valInRangeB h.length))

def srcHeapB (h : List HObj) : Bool := h.all cellSrcKind

/-- The `descriptions` bucket of a record (empty for kinds that have
none). -/
def recDescs : Record → List (String × SDesc)
  | .object _ _ d => d
  | .function _ _ _ _ d => d
  | _ => []

/-- The C10 invariant: no description in any filled content slot carries
a `writable` field. -/
def noWritableState (st : GState) : Prop :=
  ∀ i r, st.contentArray.get? i = some (some r) →
    ∀ kd ∈ recDescs r, kd.2.writable? = none

/-- What every classification helper preserves, for a given child-add
function: the C10 invariant, and monotonicity of the content array. -/
def AddPres (addC : AddC) : Prop :=
  ∀ st v r, addC st v = some r →
    (noWritableState st → noWritableState r.2) ∧
      st.contentArray.length ≤ r.2.contentArray.length

/-! ## Decoder-side well-formedness and invariants

The decode-termination proof below mirrors the encoder's: `get`'s
recursion is bounded because every branch except the object branch's
prototype recursion registers the index being decoded before recursing,
so each level of recursion either consumes one unmemoized index or
follows a prototype edge, and prototype chains are ranked. -/

/-- An object-like cell the decoder can install a property on (the
targets `deserializeProperties` is ever handed: objects and thunks; a
`func` cell only to keep `setPropH` total). -/
def settableCell : Option HObj → Bool
  | some (.obj _ _) => true
  | some (.func _ _ _ _) => true
  | some (.thunk _ _ _) => true
  | _ => false

/-- The same cell with its property list replaced (identity on cells
that carry no property list). -/
def withProps : HObj → List (String × PropDesc) → HObj
  | .obj pr _, ps => .obj pr ps
  | .func s e pr _, ps => .func s e pr ps
  | .thunk io pr _, ps => .thunk io pr ps
  | c, _ => c

/-- Every index a serialized description mentions is below `n`. -/
def sdIdxOK (n : Nat) (sd : SDesc) : Prop :=
  (∀ j, sd.get? = some j → j < n) ∧ (∀ j, sd.set? = some j → j < n) ∧
    (∀ j, sd.value? = some j → j < n)

/-- Every index a record mentions is below `n`. -/
def RecIdxOK (n : Nat) : Record → Prop
  | .primitive _ => True
  | .array refs => ∀ j ∈ refs, j < n
  | .object p refs descs =>
      p < n ∧ (∀ kj ∈ refs, kj.2 < n) ∧ (∀ kd ∈ descs, sdIdxOK n kd.2)
  | .function _ c p refs descs =>
      c < n ∧ p < n ∧ (∀ kj ∈ refs, kj.2 < n) ∧ (∀ kd ∈ descs, sdIdxOK n kd.2)
  | .builtin _ => True
  | .date _ => True
  | .regex _ => True
  | .unrecognized _ => True

/-- Well-formed serialized data over registry `reg`: every slot filled,
every mentioned index in range, every kind recognized, every builtin
name resolvable, and a prototype rank `rnk` bounded by `R` under which
an object record's prototype index ranks strictly below the record
itself (JavaScript prototype chains are acyclic, so encoded object
graphs admit such a rank). -/
structure DataWF (reg : List (String × Value)) (data : List (Option Record))
    (rnk : Nat → Nat) (R : Nat) : Prop where
  slotsFilled : ∀ i, i < data.length → ∃ r, data.get? i = some (some r)
  idxOK : ∀ i r, data.get? i = some (some r) → RecIdxOK data.length r
  kindsOK : ∀ i k, data.get? i = some (some (.unrecognized k)) → False
  builtinsOK : ∀ i n, data.get? i = some (some (.builtin n)) →
    ∃ b, getBuiltinByName reg n = some b
  rankOK : ∀ i p refs descs, data.get? i = some (some (.object p refs descs)) →
    rnk p < rnk i
  rankBound : ∀ i, rnk i ≤ R

/-- The decoder's running invariant: memoized indices are in range, and
an index whose slot is a primitive record is only ever memoized at that
primitive. -/
structure DInv (data : List (Option Record)) (st : DSt) : Prop where
  idxRange : ∀ e ∈ st.indexMap, e.2 < data.length
  memoPrim : ∀ e ∈ st.indexMap, ∀ p, data.get? e.2 = some (some (.primitive p)) →
    e.1 = .prim p

/-- How a decoder loop working on the cell at `X` may change the state:
the memo is append-only, the heap only grows, and no cell other than `X`
among those already present is touched. -/
def DExtAt (X : Nat) (st st' : DSt) : Prop :=
  (∃ ext, st'.indexMap = st.indexMap ++ ext) ∧
  st.heap.length ≤ st'.heap.length ∧
  (∀ b, b < st.heap.length → b ≠ X → st'.heap.get? b = st.heap.get? b)

/-- Full locality of `get`: it mutates only cells it allocates. -/
def DExt (st st' : DSt) : Prop :=
  (∃ ext, st'.indexMap = st.indexMap ++ ext) ∧
  st.heap.length ≤ st'.heap.length ∧
  (∀ b, b < st.heap.length → st'.heap.get? b = st.heap.get? b)

/-- How many indices of the data are not yet memoized — the component of
the decode measure that registering an index shrinks. -/
def unmemoCount (data : List (Option Record)) (st : DSt) : Nat :=
  ((List.range data.length).filter (fun i => (findElem st.indexMap i).isNone)).length

/-- What the recursive `get` at a fixed fuel provides to the loop
helpers: a memo hit returns the memoized value with the state untouched;
on any invariant state with at most `U0` unmemoized indices it succeeds,
preserves the invariant and extends the state; and a primitive slot only
ever decodes to its primitive. -/
def GSpecD (data : List (Option Record)) (getC : GetC) (U0 : Nat) : Prop :=
  (∀ st j w, findElem st.indexMap j = some w → getC st j = some (.ok (w, st))) ∧
  (∀ st j, j < data.length → DInv data st → unmemoCount data st ≤ U0 →
    ∃ v st', getC st j = some (.ok (v, st')) ∧ DInv data st' ∧ DExt st st' ∧
      unmemoCount data st' ≤ U0) ∧
  (∀ st j v st', DInv data st → getC st j = some (.ok (v, st')) →
    ∀ p, data.get? j = some (some (.primitive p)) → v = .prim p)

/-- A captured environment of primitive values, as heap values. -/
def vEnvOf (env : List (String × Prim)) : List (String × Value) :=
  env.map (fun kv => (kv.1, Value.prim kv.2))

/-- A one-cell heap holding a callable with source text `src` whose
closure snapshot reports the primitive captures `env` (an arrow-style
callable: its `prototype` own property is `undefined`, no other own
properties). -/
def funcHeap (src : String) (env : List (String × Prim)) : List HObj :=
  [.func src (vEnvOf env) (.prim .undef) []]

/-- A prototype rank for decode termination read off the slots
themselves: object records rank above everything else, which suffices
whenever every object record's prototype slot is a non-object record. -/
def slotRank (data : List (Option Record)) (i : Nat) : Nat :=
  match data.get? i with
  | some (some (.object _ _ _)) => 1
  | _ => 0

/-- What the decode of one optional descriptor field is pinned to:
nothing when the field is absent, the raw-zero artefact when the stored
index is `0`, the memoized value on a memo hit, and the primitive on a
primitive slot. -/
def FieldPin (data : List (Option Record)) (st : DSt) (oi : Option Nat)
    (o : Option Value) : Prop :=
  (oi = none → o = none) ∧
  (oi = some 0 → o = some (.prim (.num 0))) ∧
  (∀ j, oi = some j → j ≠ 0 →
    (∀ x, findElem st.indexMap j = some x → o = some x) ∧
    (∀ p, data.get? j = some (some (.primitive p)) → o = some (.prim p)))

/-! ### Plain data: the JSON-representable values of the round-trip
claim, their representation in a heap, and what the decoder's memo and
cells satisfy while such data is reconstructed -/

/-- A JSON-representable value: a primitive, or an acyclic nesting of
arrays and plain objects (no callables). -/
inductive PlainData where
  | prim (p : Prim)
  | arr (elems : List PlainData)
  | obj (props : List (String × PlainData))

/-- `v` in heap `h` represents the plain value `d`, deeply: deep
equality of two heap values against the same `d` is the round-trip
notion of the claim.  A plain object holds exactly the listed keys in
order, each a configurable, writable, enumerable data property; the
keys are distinct and none is the transform's reserved `__closure`. -/
def ReprVal (h : List HObj) : Value → PlainData → Prop
  | v, .prim p => v = Value.prim p
  | v, .arr ds => ∃ a elems, v = Value.ref a ∧
      h.get? a = some (HObj.arr elems) ∧ elems.length = ds.length ∧
      ∀ n w d, elems.get? n = some w → ds.get? n = some d → ReprVal h w d
  | v, .obj kds => ∃ a pv props, v = Value.ref a ∧
      h.get? a = some (HObj.obj pv props) ∧ props.length = kds.length ∧
      (kds.map Prod.fst).Nodup ∧ "__closure" ∉ kds.map Prod.fst ∧
      ∀ n kd, kds.get? n = some kd →
        ∃ w, props.get? n = some (kd.1, PropDesc.data w true true true) ∧
          ReprVal h w kd.2
termination_by v d => sizeOf d
decreasing_by
  · have hm := List.get?_mem (by assumption : ds.get? n = some d)
    have h2 := List.sizeOf_lt_of_mem hm
    simp only [PlainData.arr.sizeOf_spec]
    omega
  · have hm := List.get?_mem (by assumption : kds.get? n = some kd)
    have h2 := List.sizeOf_lt_of_mem hm
    obtain ⟨k1, d1⟩ := kd
    simp only [PlainData.obj.sizeOf_spec, Prod.mk.sizeOf_spec] at h2 ⊢
    omega

/-- Slot `i` of the serialized data represents the plain value `d`:
the record mirrors `d` one level deep, recursing through indices. -/
def RecRepr (data : List (Option Record)) : PlainData → Nat → Prop
  | .prim p, i => data.get? i = some (some (Record.primitive p))
  | .arr ds, i => ∃ is, data.get? i = some (some (Record.array is)) ∧
      is.length = ds.length ∧
      ∀ n d j, ds.get? n = some d → is.get? n = some j → RecRepr data d j
  | .obj kds, i => ∃ pj refs,
      data.get? i = some (some (Record.object pj refs [])) ∧
      refs.length = kds.length ∧ (kds.map Prod.fst).Nodup ∧
      "__closure" ∉ kds.map Prod.fst ∧
      ∀ n kd, kds.get? n = some kd →
        ∃ j, refs.get? n = some (kd.1, j) ∧ RecRepr data kd.2 j
termination_by d i => sizeOf d
decreasing_by
  · have hm := List.get?_mem (by assumption : ds.get? n = some d)
    have h2 := List.sizeOf_lt_of_mem hm
    simp only [PlainData.arr.sizeOf_spec]
    omega
  · have hm := List.get?_mem (by assumption : kds.get? n = some kd)
    have h2 := List.sizeOf_lt_of_mem hm
    obtain ⟨k1, d1⟩ := kd
    simp only [PlainData.obj.sizeOf_spec, Prod.mk.sizeOf_spec] at h2 ⊢
    omega

/-- A heap cell as plain data stocks them: an array, or an object with a
primitive prototype whose own properties are all-true data properties
under distinct keys, none named `__closure`. -/
def PlainCellP (c : HObj) : Prop :=
  (∃ elems, c = .arr elems) ∨
  (∃ pp props, c = .obj (.prim pp) props ∧ (props.map Prod.fst).Nodup ∧
    "__closure" ∉ props.map Prod.fst ∧
    ∀ kv ∈ props, ∃ w, kv.2 = PropDesc.data w true true true)

/-- A heap stocked only with plain-data cells. -/
def PlainHeap (h : List HObj) : Prop := ∀ a c, h.get? a = some c → PlainCellP c

/-- What the slots of a graph encoded from a plain heap look like:
primitives, in-range arrays, and description-free object records with a
primitive prototype slot and distinct keys. -/
def PlainSlots (data : List (Option Record)) : Prop :=
  ∀ i r, data.get? i = some (some r) →
    (∃ p, r = Record.primitive p) ∨
    (∃ is, r = Record.array is ∧ ∀ j ∈ is, j < data.length) ∨
    (∃ pj refs, r = Record.object pj refs [] ∧ pj < data.length ∧
      (∀ kj ∈ refs, kj.2 < data.length) ∧ (refs.map Prod.fst).Nodup ∧
      ∃ pp, data.get? pj = some (some (Record.primitive pp)))

/-- Every reference value the decoder's memo reports points below the
heap's end. -/
def MemoRefBound (st : DSt) : Prop :=
  ∀ i a, findElem st.indexMap i = some (.ref a) → a < st.heap.length

/-- No two memoized indices report the same reference: each decoded cell
belongs to one index. -/
def MemoRefInj (st : DSt) : Prop :=
  ∀ i1 i2 a, findElem st.indexMap i1 = some (.ref a) →
    findElem st.indexMap i2 = some (.ref a) → i1 = i2

/-- The value memoized for index `i` is coherent with slot `i`, one
level deep: for an array slot, it is a reference to an array cell
listing, per position, exactly the value memoized for the element's
index; for a description-free object slot, a reference to an object cell
listing, per position, the key and the value memoized for the property's
index as an all-true data property.  Other slot kinds are
unconstrained (a primitive slot's value is already pinned by `DInv`). -/
def CellCoh (data : List (Option Record)) (st : DSt) (i : Nat) (w : Value) :
    Prop :=
  (∀ is, data.get? i = some (some (Record.array is)) →
    ∃ a vs, w = .ref a ∧ st.heap.get? a = some (HObj.arr vs) ∧
      vs.length = is.length ∧
      ∀ n j, is.get? n = some j →
        ∃ u, vs.get? n = some u ∧ findElem st.indexMap j = some u) ∧
  (∀ pj refs, data.get? i = some (some (Record.object pj refs [])) →
    ∃ a pv props, w = .ref a ∧ st.heap.get? a = some (HObj.obj pv props) ∧
      props.length = refs.length ∧
      ∀ n k j, refs.get? n = some (k, j) →
        ∃ u, props.get? n = some (k, PropDesc.data u true true true) ∧
          findElem st.indexMap j = some u)

/-- The coherence invariant over the whole memo, with the indices in `X`
(cells under construction) excluded. -/
def MemoCoh (X : List Nat) (data : List (Option Record)) (st : DSt) : Prop :=
  ∀ i w, findElem st.indexMap i = some w → i ∉ X → CellCoh data st i w

/-- What the recursive `get` at a fixed fuel provides to the loops while
plain data is reconstructed with the indices in `X` under construction:
a memo hit returns the memoized value untouched, and any in-range index
decodes to a registered value, preserving the coherence invariant. -/
def CSpecD (data : List (Option Record)) (getC : GetC) (U0 : Nat)
    (X : List Nat) : Prop :=
  (∀ st j w, findElem st.indexMap j = some w → getC st j = some (.ok (w, st))) ∧
  (∀ st j, j < data.length → DInv data st → MemoRefBound st → MemoRefInj st →
    MemoCoh X data st → (∀ x ∈ X, ∃ w, findElem st.indexMap x = some w) →
    unmemoCount data st ≤ U0 →
    ∃ v st', getC st j = some (.ok (v, st')) ∧ DInv data st' ∧ DExt st st' ∧
      MemoRefBound st' ∧ MemoRefInj st' ∧ MemoCoh X data st' ∧
      unmemoCount data st' ≤ U0 ∧ findElem st'.indexMap j = some v)

/-! ## Theorems -/

/-- C4 (counterexample).  The claim fails as stated: in the value graph
`arr = [obj]`, `obj = Object.create(arr)`, the live references to `obj`
(as root and as `arr[0]`) are assigned one index (`0`: the root is record
`0` and the array record is `array [0]`), yet decoding builds two
distinct identities — the decoded array holds `ref 3` while the decoded
root is `ref 4` — because the object branch recurses into the prototype
before memoizing the object. -/
theorem c4_identity_not_preserved :
    encC4 = some ({ rootIndex := 0,
                    data := [some (.object 1 [] []), some (.array [0])],
                    indexMap := [(.ref 0, 0), (.ref 1, 1)] }, heapC4) ∧
    decodedRoot decC4 = some (.ref 4) ∧
    decodedCell decC4 2 = some (.arr [.ref 3]) ∧
    Value.ref 3 ≠ Value.ref 4 := by
  refine ⟨by decide, by decide, by decide, by decide⟩

/-- C4 (amended).  What does hold: the encoder's memo assigns a repeated
live reference the very index already reserved for that identity, and
the decoder's memo returns the already-reconstructed identity for every
later request of an index — identity can only split when an object
record's prototype recursion re-enters the record before it is memoized,
as in the counterexample. -/
theorem c4_identity_sharing_amended :
    (∀ (reg : List (String × Value)) (op : Value) (fuel : Nat) (st : GState)
       (v : Value) (i : Nat), findIdx st.indexMap v = some i →
         addRec reg op (fuel + 1) st v = some (i, st)) ∧
    (∀ (reg : List (String × Value)) (data : List (Option Record)) (fuel : Nat)
       (st : DSt) (i : Nat) (v : Value), findElem st.indexMap i = some v →
         getRec reg data (fuel + 1) st i = some (.ok (v, st))) := by
  constructor
  · intro reg op fuel st v i h
    simp [addRec, h]
  · intro reg data fuel st i v h
    simp [getRec, h]

/-- C4 (amended, witness). -/
theorem c4_identity_sharing_amended_witness :
    addRec [] (.prim .null) 1 ⟨[(.ref 7, 0)], [none], []⟩ (.ref 7) = some (0, ⟨[(.ref 7, 0)], [none], []⟩) ∧
    getRec [] [] 1 ⟨[(.ref 9, 0)], []⟩ 0 = some (.ok (.ref 9, ⟨[(.ref 9, 0)], []⟩)) :=
  ⟨c4_identity_sharing_amended.1 [] (.prim .null) 0 ⟨[(.ref 7, 0)], [none], []⟩ (.ref 7) 0 (by decide),
   c4_identity_sharing_amended.2 [] [] 0 ⟨[(.ref 9, 0)], []⟩ 0 (.ref 9) (by decide)⟩

/-- C5 (counterexample).  The claim fails as stated: the object
`heapC5` has one own attribute `x = 7` with `writable: true`,
`enumerable: false`, `configurable: true`; after a round trip through
the wire the reconstructed attribute has `writable: false` — the encoder
never emits `writable` (its guard tests the fresh output descriptor) and
`Object.defineProperty` then defaults it to `false`. -/
theorem c5_writable_not_preserved :
    ownProp heapC5 0 ("x") = some (.data (.prim (.num 7)) true false true) ∧
    decodedRoot decC5 = some (.ref 1) ∧
    decodedProp decC5 1 ("x") = some (.data (.prim (.num 7)) false false true) ∧
    wrOf (ownProp heapC5 0 ("x")) = some true ∧
    wrOf (decodedProp decC5 1 ("x")) = some false := by
  refine ⟨by decide, by decide, by decide, by decide, by decide⟩

/-- C6.  The decoder does not reconstruct a stored `value` index of `0`:
for the object whose non-enumerable attribute `x` points back to the
object itself (serialized `value` index `0`), the decoded attribute's
value is the raw number `0` left behind by the `\x7b ...desc \x7d`
spread — not the reconstruction of record `0`, which is the decoded root
`ref 1`. -/
theorem c6_raw_index_zero_installed :
    decodedRoot decC6 = some (.ref 1) ∧
    decodedProp decC6 1 ("x") = some (.data (.prim (.num 0)) false false true) ∧
    Value.prim (.num 0) ≠ Value.ref 1 := by
  refine ⟨by decide, by decide, by decide⟩

/-- C1 (counterexample).  The claim fails as stated: the plain object
`\x7b__closure: 1\x7d` is JSON-representable (one number-valued own
attribute, no callables), yet the encoder's property walk silently skips
any key named `__closure` (source line 121), so the emitted root record
lists no properties at all and the decoded object is empty — not
deep-equal to the original. -/
theorem c1_closure_key_dropped :
    ownProp heapC1 0 ("__closure") =
      some (.data (.prim (.num 1)) true true true) ∧
    serializeTop [] (.prim .null) 10 heapC1 (.ref 0) =
      some ({ rootIndex := 0,
              data := [some (.object 1 [] []), some (.primitive .null)],
              indexMap := [(.ref 0, 0), (.prim .null, 1)] }, heapC1) ∧
    decodedRoot decC1 = some (.ref 1) ∧
    decodedCell decC1 1 = some (.obj (.prim .null) []) ∧
    decodedProp decC1 1 ("__closure") = none := by
  refine ⟨by decide, by decide, by decide, by decide, by decide⟩

/-- C9 (counterexample).  The claim fails as stated: the identity/index
table is an instance field, so accessing `root` on the very instance
`serialize` produced walks the encode-time table — it returns the
original value `ref 0` with nothing reconstructed — while the same
access through the `toJSON`/`fromJSON` wire boundary (fresh table)
reconstructs a new object.  The two accesses of the same stored graph
disagree, so the decode table is not private to a decode call. -/
theorem c9_table_shared_with_encode :
    decodedRoot rootOnEncC9 = some (.ref 0) ∧
    decodedRoot wireC9 = some (.ref 1) ∧
    rootOnEncC9 ≠ wireC9 := by
  refine ⟨by decide, by decide, by decide⟩

/-- C9 (amended).  What does hold: only `fromJSON` starts a fresh,
private table (its `indexMap` is empty whatever the wire says), the
table then lives on the instance: `root` on a `serialize`-produced
instance reuses the encode table and yields the original identity with
the state untouched, and a second `root` access on a `fromJSON` instance
reuses the first access's table, returning the same identity with the
state unchanged. -/
theorem c9_table_amended :
    (∀ j : Nat × List (Option Record), (fromJSON j).indexMap = []) ∧
    rootOnEncC9 = some (.ok (.ref 0,
      ⟨[(.ref 0, 0), (.prim .null, 1), (.prim (.num 1), 2)], heapC9⟩)) ∧
    secondRootC9 = wireC9 := by
  refine ⟨fun j => rfl, by decide, by decide⟩

/-! ### Inversion helpers for the bind-threaded definitions -/

theorem dbind_eq_some_ok {α β : Type} {x : Option (Except DErr α)}
    {f : α → Option (Except DErr β)} {b : β}
    (h : dbind x f = some (.ok b)) : ∃ a, x = some (.ok a) ∧ f a = some (.ok b) := by
  cases x with
  | none => exact absurd h (by simp [dbind])
  | some ex =>
    cases ex with
    | error e => exact absurd h (by simp [dbind])
    | ok a => exact ⟨a, rfl, by simpa [dbind] using h⟩

theorem dbind_ok {α β : Type} (a : α) (f : α → Option (Except DErr β)) :
    dbind (some (.ok a)) f = f a := rfl

theorem dbind_err {α β : Type} (e : DErr) (f : α → Option (Except DErr β)) :
    dbind (some (.error e)) f = some (.error e) := rfl

theorem dbind_none {α β : Type} (f : α → Option (Except DErr β)) :
    dbind (none : Option (Except DErr α)) f = none := rfl

/-! ### Small facts about lookups, pools and extension -/

theorem get?_lt_length {α : Type} {l : List α} {a : Nat} {c : α}
    (h : l.get? a = some c) : a < l.length := by
  by_contra hc
  rw [List.get?_eq_none.2 (by omega)] at h
  cases h

theorem exists_get? {α : Type} {l : List α} {a : Nat} (h : a < l.length) :
    ∃ c, l.get? a = some c := by
  rw [List.get?_eq_get h]; exact ⟨_, rfl⟩

theorem get?_append_stable {α : Type} {l ext : List α} {a : Nat} {c : α}
    (h : l.get? a = some c) : (l ++ ext).get? a = some c := by
  rw [List.get?_append (get?_lt_length h)]; exact h

theorem findIdx_eq_none {m : List (Value × Nat)} {v : Value} :
    findIdx m v = none ↔ v ∉ m.map Prod.fst := by
  induction m with
  | nil => simp [findIdx]
  | cons e rest ih =>
    rw [findIdx]
    by_cases he : e.1 = v
    · simp [he]
    · rw [if_neg he]
      simp only [List.map_cons, List.mem_cons]
      rw [ih]
      constructor
      · intro h hc
        rcases hc with hc | hc
        · exact he hc.symm
        · exact h hc
      · intro h hc
        exact h (Or.inr hc)

theorem findIdx_append_some {m ext : List (Value × Nat)} {v : Value} {j : Nat}
    (h : findIdx m v = some j) : findIdx (m ++ ext) v = some j := by
  induction m with
  | nil => simp [findIdx] at h
  | cons e rest ih =>
    by_cases he : e.1 = v
    · simpa [findIdx, he] using by simpa [findIdx, he] using h
    · rw [List.cons_append, findIdx, if_neg he]
      rw [findIdx, if_neg he] at h
      exact ih h

theorem findIdx_append_self {m : List (Value × Nat)} {v : Value} {i : Nat}
    (h : v ∉ m.map Prod.fst) : findIdx (m ++ [(v, i)]) v = some i := by
  induction m with
  | nil => simp [findIdx]
  | cons e rest ih =>
    simp only [List.map_cons, List.mem_cons] at h
    push_neg at h
    rw [List.cons_append, findIdx, if_neg (fun q => h.1 q.symm)]
    exact ih h.2

theorem findIdx_mem_snd {m : List (Value × Nat)} {v : Value} {j : Nat}
    (h : findIdx m v = some j) : j ∈ m.map Prod.snd := by
  induction m with
  | nil => simp [findIdx] at h
  | cons e rest ih =>
    by_cases he : e.1 = v
    · rw [findIdx, if_pos he] at h
      simp only [Option.some.injEq] at h
      simp [← h]
    · rw [findIdx, if_neg he] at h
      simp [ih h]

theorem findIdx_mem_entry {m : List (Value × Nat)} {v : Value} {j : Nat}
    (h : findIdx m v = some j) : (v, j) ∈ m := by
  induction m with
  | nil => simp [findIdx] at h
  | cons e rest ih =>
    by_cases he : e.1 = v
    · rw [findIdx, if_pos he] at h
      simp only [Option.some.injEq] at h
      rw [← he, ← h]
      exact List.mem_cons_self _ _
    · rw [findIdx, if_neg he] at h
      exact List.mem_cons_of_mem _ (ih h)

theorem GExt_refl (st : GState) : GExt st st :=
  ⟨⟨[], by simp⟩, ⟨[], by simp⟩, le_refl _, fun _ _ h => h⟩

theorem GExt_trans {st1 st2 st3 : GState} (h1 : GExt st1 st2) (h2 : GExt st2 st3) :
    GExt st1 st3 := by
  obtain ⟨⟨e1, he1⟩, ⟨x1, hx1⟩, l1, f1⟩ := h1
  obtain ⟨⟨e2, he2⟩, ⟨x2, hx2⟩, l2, f2⟩ := h2
  exact ⟨⟨e1 ++ e2, by rw [he2, he1, List.append_assoc]⟩,
    ⟨x1 ++ x2, by rw [hx2, hx1, List.append_assoc]⟩,
    le_trans l1 l2, fun j r h => f2 j r (f1 j r h)⟩

theorem UPres_refl (st : GState) : UPres st st := fun _ h => h

theorem UPres_trans {st1 st2 st3 : GState} (h1 : UPres st1 st2) (h2 : UPres st2 st3) :
    UPres st1 st3 := fun j h => h1 j (h2 j h)

theorem GExt_findIdx {st st' : GState} (h : GExt st st') {v : Value} {j : Nat}
    (hf : findIdx st.indexMap v = some j) : findIdx st'.indexMap v = some j := by
  obtain ⟨⟨ext, hext⟩, _, _, _⟩ := h
  rw [hext]
  exact findIdx_append_some hf

theorem GExt_heap {st st' : GState} (h : GExt st st') {a : Nat} {cell : HObj}
    (hc : st.heap.get? a = some cell) : st'.heap.get? a = some cell := by
  obtain ⟨_, ⟨hext, hx⟩, _, _⟩ := h
  rw [hx]
  exact get?_append_stable hc

theorem GExt_heapLen {st st' : GState} (h : GExt st st') :
    st.heap.length ≤ st'.heap.length := by
  obtain ⟨_, ⟨hext, hx⟩, _, _⟩ := h
  rw [hx]; simp

theorem GExt_mapLen {st st' : GState} (h : GExt st st') :
    st.indexMap.length ≤ st'.indexMap.length := by
  obtain ⟨⟨ext, hext⟩, _, _, _⟩ := h
  rw [hext]; simp

theorem PoolV_mono {h0 : List HObj} {op v0 : Value} {st st' : GState}
    (h : GExt st st') {v : Value} (hp : PoolV h0 op v0 st v) :
    PoolV h0 op v0 st' v := by
  cases v with
  | ref a => exact lt_of_lt_of_le hp (GExt_heapLen h)
  | prim p => exact hp

theorem OptMapped_mono {st st' : GState} (h : GExt st st') {ov : Option Value}
    {oi : Option Nat} (hm : OptMapped st.indexMap ov oi) :
    OptMapped st'.indexMap ov oi := by
  cases ov with
  | none => exact hm
  | some v =>
    obtain ⟨j, hj, hoi⟩ := hm
    exact ⟨j, GExt_findIdx h hj, hoi⟩

theorem DescMapped_mono {st st' : GState} (h : GExt st st') {desc : PropDesc}
    {sd : SDesc} (hm : DescMapped st.indexMap desc sd) :
    DescMapped st'.indexMap desc sd :=
  ⟨OptMapped_mono h hm.1, OptMapped_mono h hm.2.1, OptMapped_mono h hm.2.2.1,
    hm.2.2.2.1, hm.2.2.2.2.1, hm.2.2.2.2.2⟩

theorem PropsMapped_mono {st st' : GState} (h : GExt st st') :
    ∀ {props : List (String × PropDesc)} {refs : List (String × Nat)}
      {descs : List (String × SDesc)},
      PropsMapped st.indexMap props refs descs →
      PropsMapped st'.indexMap props refs descs := by
  intro props
  induction props with
  | nil => intro refs descs hm; exact hm
  | cons p rest ih =>
    obtain ⟨key, desc⟩ := p
    intro refs descs hm
    rw [PropsMapped] at hm ⊢
    split_ifs at hm ⊢ with hk ht
    · exact ih hm
    · obtain ⟨j, refs', hj, hr, hrest⟩ := hm
      exact ⟨j, refs', GExt_findIdx h hj, hr, ih hrest⟩
    · obtain ⟨sd, descs', hd, hds, hrest⟩ := hm
      exact ⟨sd, descs', DescMapped_mono h hd, hds, ih hrest⟩

theorem CellRec_mono {op : Value} {st st' : GState} (h : GExt st st')
    {cell : HObj} {r : Record} (hc : CellRec op st cell r) :
    CellRec op st' cell r := by
  cases cell with
  | arr elems =>
    obtain ⟨is, hr, hl, hk⟩ := hc
    refine ⟨is, hr, hl, fun k v' hv => ?_⟩
    obtain ⟨j, hj, hf⟩ := hk k v' hv
    exact ⟨j, hj, GExt_findIdx h hf⟩
  | obj proto props =>
    obtain ⟨pj, refs, descs, hr, hp, hm⟩ := hc
    exact ⟨pj, refs, descs, hr, GExt_findIdx h hp, PropsMapped_mono h hm⟩
  | func src env proto props =>
    obtain ⟨cj, pj, refs, descs, snapA, hr, hsnap, hcj, hpj, hm⟩ := hc
    exact ⟨cj, pj, refs, descs, snapA, hr, GExt_heap h hsnap, GExt_findIdx h hcj,
      GExt_findIdx h hpj, PropsMapped_mono h hm⟩
  | date t => exact hc
  | regex s => exact hc
  | thunk i p ps => exact hc.elim
  | implFn i p => exact hc.elim

theorem SlotOK_mono {reg : List (String × Value)} {op : Value} {st st' : GState}
    (h : GExt st st') {v : Value} {r : Record} (hs : SlotOK reg op st v r) :
    SlotOK reg op st' v r := by
  unfold SlotOK at hs ⊢
  cases hn : getNameOfBuiltin reg v with
  | some n => rw [hn] at hs; exact hs
  | none =>
    rw [hn] at hs
    cases v with
    | prim p => exact hs
    | ref a =>
      obtain ⟨cell, hcell, hc⟩ := hs
      exact ⟨cell, GExt_heap h hcell, CellRec_mono h hc⟩

theorem countFR_append (h0 : List HObj) (m : List (Value × Nat)) (e : Value × Nat) :
    countFR h0 (m ++ [e]) = countFR h0 m + (if funcRefB h0 e.1 then 1 else 0) := by
  unfold countFR
  rw [List.filter_append]
  by_cases hf : funcRefB h0 e.1 <;> simp [hf]

theorem countFR_mono (h0 : List HObj) (m ext : List (Value × Nat)) :
    countFR h0 m ≤ countFR h0 (m ++ ext) := by
  unfold countFR
  rw [List.filter_append]
  simp

/-- Primitive kids of a heap cell are stocked in `heapPrims`. -/
theorem mem_heapPrims {h0 : List HObj} {a : Nat} {cell : HObj} {p : Prim}
    (hc : h0.get? a = some cell) (hk : Value.prim p ∈ cellKids cell) :
    Value.prim p ∈ heapPrims h0 := by
  unfold heapPrims
  rw [List.mem_filter]
  refine ⟨List.mem_bind.2 ⟨cell, List.get?_mem hc, hk⟩, rfl⟩

/-- Any kid of a base-heap cell is in the pool, in any state whose heap
is at least as long as the base heap. -/
theorem kids_pool {h0 : List HObj} {op v0 : Value} {st : GState}
    (hwf : WFHeap h0) (hlen : h0.length ≤ st.heap.length) {a : Nat} {cell : HObj}
    (hc : h0.get? a = some cell) : ∀ v ∈ cellKids cell, PoolV h0 op v0 st v := by
  intro v hv
  cases v with
  | ref b => exact lt_of_lt_of_le (hwf a cell hc (.ref b) hv b rfl) hlen
  | prim p => exact Or.inl (mem_heapPrims hc hv)

/-! ### Bounding the memo: distinct pool values -/

/-- The addresses of the references in a value list. -/
def refAddrs : List Value → List Nat
  | [] => []
  | .ref a :: rest => a :: refAddrs rest
  | .prim _ :: rest => refAddrs rest

theorem refAddrs_length {h0 : List HObj} {l : List Value}
    (h : ∀ v ∈ l, funcRefB h0 v = true) :
    (refAddrs l).length = l.length := by
  induction l with
  | nil => rfl
  | cons v rest ih =>
    cases v with
    | ref a => simpa [refAddrs] using ih (fun w hw => h w (List.mem_cons_of_mem _ hw))
    | prim p => exact absurd (h _ (List.mem_cons_self _ _)) (by simp [funcRefB])

theorem mem_refAddrs {l : List Value} {a : Nat} (h : a ∈ refAddrs l) :
    Value.ref a ∈ l := by
  induction l with
  | nil => simp [refAddrs] at h
  | cons v rest ih =>
    cases v with
    | ref b =>
      rcases by simpa [refAddrs] using h with hb | hb
      · simp [hb]
      · exact List.mem_cons_of_mem _ (ih hb)
    | prim p => exact List.mem_cons_of_mem _ (ih (by simpa [refAddrs] using h))

theorem refAddrs_nodup {l : List Value} (h : l.Nodup) : (refAddrs l).Nodup := by
  induction l with
  | nil => exact List.nodup_nil
  | cons v rest ih =>
    rw [List.nodup_cons] at h
    cases v with
    | ref a =>
      rw [refAddrs, List.nodup_cons]
      exact ⟨fun ha => h.1 (mem_refAddrs ha), ih h.2⟩
    | prim p => exact ih h.2

/-- Distinct function-cell references cannot outnumber the function
cells. -/
theorem funcRef_bound {h0 : List HObj} {l : List Value} (hn : l.Nodup)
    (hf : ∀ v ∈ l, funcRefB h0 v = true) : l.length ≤ funcCount h0 := by
  have hsub : refAddrs l ⊆ funcAddrs h0 := by
    intro a ha
    have hv := hf _ (mem_refAddrs ha)
    have halt : a < h0.length := by
      simp only [funcRefB] at hv
      cases hg : h0.get? a with
      | none => rw [hg] at hv; simp at hv
      | some c => exact get?_lt_length hg
    unfold funcAddrs
    rw [List.mem_filter]
    exact ⟨List.mem_range.2 halt, hv⟩
  have := (List.subperm_of_subset (refAddrs_nodup hn) hsub).length_le
  rw [refAddrs_length hf] at this
  exact this

theorem countFR_eq_filter (h0 : List HObj) (m : List (Value × Nat)) :
    countFR h0 m = ((m.map Prod.fst).filter (funcRefB h0)).length := by
  unfold countFR
  induction m with
  | nil => rfl
  | cons e rest ih =>
    simp only [List.map_cons, List.filter_cons]
    by_cases hf : funcRefB h0 e.1
    · simp [hf, ih]
    · simp [hf, ih]

theorem countFR_le_funcCount {h0 : List HObj} {m : List (Value × Nat)}
    (hn : (m.map Prod.fst).Nodup) : countFR h0 m ≤ funcCount h0 := by
  rw [countFR_eq_filter]
  exact funcRef_bound (hn.filter _) (fun v hv => (List.mem_filter.1 hv).2)

/-- The memo never holds more entries than the pool has identities. -/
theorem einv_maplen {reg : List (String × Value)} {h0 : List HObj} {op v0 : Value}
    {st : GState} (hinv : EInv reg h0 op v0 st) :
    st.indexMap.length ≤ encB h0 := by
  have hsub : st.indexMap.map Prod.fst ⊆
      ((List.range (h0.length + funcCount h0)).map Value.ref ++
        (heapPrims h0 ++ [op, v0])) := by
    intro v hv
    obtain ⟨e, he, rfl⟩ := List.mem_map.1 hv
    have hp := hinv.valsPool e he
    cases hve : e.1 with
    | ref a =>
      rw [hve] at hp
      have : a < h0.length + funcCount h0 :=
        lt_of_lt_of_le hp (le_trans hinv.heapBound
          (by have := @countFR_le_funcCount h0 _ hinv.valsNodup; omega))
      rw [List.mem_append]
      exact Or.inl (List.mem_map.2 ⟨a, List.mem_range.2 this, rfl⟩)
    | prim p =>
      rw [hve] at hp
      rw [List.mem_append]
      rcases hp with hp | hp | hp
      · exact Or.inr (List.mem_append.2 (Or.inl hp))
      · exact Or.inr (List.mem_append.2 (Or.inr (by simp [hp])))
      · exact Or.inr (List.mem_append.2 (Or.inr (by simp [hp])))
  have hlen := (List.subperm_of_subset hinv.valsNodup hsub).length_le
  have hmap : (st.indexMap.map Prod.fst).length = st.indexMap.length := by simp
  rw [hmap] at hlen
  unfold encB
  simp only [List.length_append, List.length_map, List.length_range, List.length_cons,
    List.length_nil] at hlen
  omega

/-! ### Totality of the encoder -/

theorem op_pool {h0 : List HObj} {op v0 : Value} {st : GState}
    (hop : ∀ a, op = .ref a → a < h0.length) (hlen : h0.length ≤ st.heap.length) :
    PoolV h0 op v0 st op := by
  cases hv : op with
  | ref a => exact lt_of_lt_of_le (hop a hv) hlen
  | prim p => exact Or.inr (Or.inl rfl)

theorem getOf_mem_descKids {desc : PropDesc} {v : Value} (h : getOf desc = some v) :
    v ∈ descKids desc := by
  cases desc with
  | data _ _ _ _ => simp [getOf] at h
  | accessor g s e c => simp only [getOf] at h; simp [descKids, h]

theorem setOf_mem_descKids {desc : PropDesc} {v : Value} (h : setOf desc = some v) :
    v ∈ descKids desc := by
  cases desc with
  | data _ _ _ _ => simp [setOf] at h
  | accessor g s e c => simp only [setOf] at h; simp [descKids, h]

theorem valueOf_mem_descKids {desc : PropDesc} {v : Value} (h : valueOf desc = some v) :
    v ∈ descKids desc := by
  cases desc with
  | data w _ _ _ => simp only [valueOf, Option.some.injEq] at h; simp [descKids, h]
  | accessor g s e c => simp [valueOf] at h

theorem envProps_kids (env : List (String × Value)) :
    (envProps env).bind (fun kv => descKids kv.2) = env.map Prod.snd := by
  induction env with
  | nil => rfl
  | cons kv rest ih => simp [envProps, descKids] at ih ⊢; exact ih

/-- Pushing an unregistered value preserves the invariant (the push of
source lines 68-69). -/
theorem einv_push {reg : List (String × Value)} {h0 : List HObj} {op v0 : Value}
    {st : GState} {v : Value} (hinv : EInv reg h0 op v0 st)
    (hpool : PoolV h0 op v0 st v) (hmiss : findIdx st.indexMap v = none) :
    EInv reg h0 op v0
      ⟨st.indexMap ++ [(v, st.contentArray.length)], st.contentArray ++ [none], st.heap⟩ := by
  have hnotmem : v ∉ st.indexMap.map Prod.fst := findIdx_eq_none.1 hmiss
  have hgext : GExt st
      ⟨st.indexMap ++ [(v, st.contentArray.length)], st.contentArray ++ [none], st.heap⟩ :=
    ⟨⟨[(v, st.contentArray.length)], rfl⟩, ⟨[], by simp⟩, by simp,
      fun j r h => get?_append_stable h⟩
  refine ⟨?_, ?_, ?_, hinv.heapLen, hinv.heapExt, ?_, ?_, ?_⟩
  · simp only [List.map_append]
    rw [List.nodup_append]
    refine ⟨hinv.valsNodup, List.nodup_singleton _, ?_⟩
    intro x hx hy
    simp only [List.map_cons, List.map_nil, List.mem_singleton] at hy
    have hxv : x = v := hy
    rw [hxv] at hx
    exact hnotmem hx
  · intro e he
    rcases List.mem_append.1 he with he | he
    · exact hinv.valsPool e he
    · rw [List.mem_singleton] at he
      rw [he]
      exact hpool
  · show st.heap.length ≤
      h0.length + countFR h0 (st.indexMap ++ [(v, st.contentArray.length)])
    have hcm := countFR_mono h0 st.indexMap [(v, st.contentArray.length)]
    have hb := hinv.heapBound
    omega
  · intro a cell ha hc
    obtain ⟨hshape, hkids⟩ := hinv.snapCells a cell ha hc
    exact ⟨hshape, fun w hw => hkids w hw⟩
  · simp only [List.map_append, List.map_cons, List.map_nil, List.length_append,
      List.length_cons, List.length_nil]
    rw [hinv.idxSeq]
    simpa using (List.range_succ (n := st.contentArray.length)).symm
  · intro e he
    rcases List.mem_append.1 he with he | he
    · have hlt : e.2 < st.contentArray.length := by
        have : e.2 ∈ st.indexMap.map Prod.snd := List.mem_map.2 ⟨e, he, rfl⟩
        rw [hinv.idxSeq] at this
        exact List.mem_range.1 this
      rcases hinv.slotsOK e he with hs | ⟨r, hs, hok⟩
      · exact Or.inl (by rw [List.get?_append hlt]; exact hs)
      · exact Or.inr ⟨r, by rw [List.get?_append hlt]; exact hs, SlotOK_mono hgext hok⟩
    · rw [List.mem_singleton] at he
      rw [he]
      exact Or.inl (by simpa using List.get?_concat_length st.contentArray none)

theorem addOpt_total {reg : List (String × Value)} {h0 : List HObj} {op v0 : Value}
    {addC : AddC} {fuel : Nat} (ha : ASpec reg h0 op v0 addC fuel) {st : GState}
    {ov : Option Value} (hinv : EInv reg h0 op v0 st)
    (hpool : ∀ w, ov = some w → PoolV h0 op v0 st w)
    (hfuel : encB h0 + 1 ≤ fuel + st.indexMap.length) :
    ∃ q : Option Nat × GState, addOpt addC st ov = some q ∧ EInv reg h0 op v0 q.2 ∧
      GExt st q.2 ∧ UPres st q.2 ∧ OptMapped q.2.indexMap ov q.1 := by
  cases ov with
  | none => exact ⟨(none, st), rfl, hinv, GExt_refl st, UPres_refl st, rfl⟩
  | some w =>
    obtain ⟨p, hadd, hinv1, he1, hu1, hfind, _⟩ := ha st w hinv (hpool w rfl) hfuel
    refine ⟨(some p.1, p.2), ?_, hinv1, he1, hu1, ⟨p.1, hfind, rfl⟩⟩
    simp only [addOpt]
    rw [hadd, Option.some_bind]

theorem serializeDesc_total {reg : List (String × Value)} {h0 : List HObj}
    {op v0 : Value} {addC : AddC} {fuel : Nat} (ha : ASpec reg h0 op v0 addC fuel)
    {st : GState} {desc : PropDesc} (hinv : EInv reg h0 op v0 st)
    (hkids : ∀ v ∈ descKids desc, PoolV h0 op v0 st v)
    (hfuel : encB h0 + 1 ≤ fuel + st.indexMap.length) :
    ∃ q : SDesc × GState, serializeDesc addC st desc = some q ∧ EInv reg h0 op v0 q.2 ∧
      GExt st q.2 ∧ UPres st q.2 ∧ DescMapped q.2.indexMap desc q.1 := by
  obtain ⟨g, hg, hinv1, he1, hu1, hm1⟩ := addOpt_total ha hinv
    (fun w hw => hkids w (getOf_mem_descKids hw)) hfuel
  obtain ⟨s, hs, hinv2, he2, hu2, hm2⟩ := addOpt_total ha hinv1
    (fun w hw => PoolV_mono he1 (hkids w (setOf_mem_descKids hw)))
    (le_trans hfuel (by have := GExt_mapLen he1; omega))
  obtain ⟨vq, hv, hinv3, he3, hu3, hm3⟩ := addOpt_total ha hinv2
    (fun w hw => PoolV_mono (GExt_trans he1 he2) (hkids w (valueOf_mem_descKids hw)))
    (le_trans hfuel (by have l1 := GExt_mapLen he1; have l2 := GExt_mapLen he2; omega))
  refine ⟨({ get? := g.1, set? := s.1, value? := vq.1, configurable := configurableOf desc,
             writable? := none, enumerable := enumerableOf desc }, vq.2), ?_, hinv3,
    GExt_trans he1 (GExt_trans he2 he3), UPres_trans hu1 (UPres_trans hu2 hu3), ?_⟩
  · unfold serializeDesc
    rw [hg, Option.some_bind, hs, Option.some_bind, hv, Option.some_bind]
    simp
  · exact ⟨OptMapped_mono (GExt_trans he2 he3) hm1, OptMapped_mono he3 hm2, hm3,
      rfl, rfl, rfl⟩

theorem serializeProps_total {reg : List (String × Value)} {h0 : List HObj}
    {op v0 : Value} {addC : AddC} {fuel : Nat} (ha : ASpec reg h0 op v0 addC fuel) :
    ∀ {props : List (String × PropDesc)} {st : GState}, EInv reg h0 op v0 st →
      (∀ kv ∈ props, ∀ v ∈ descKids kv.2, PoolV h0 op v0 st v) →
      encB h0 + 1 ≤ fuel + st.indexMap.length →
      ∃ q : (List (String × Nat) × List (String × SDesc)) × GState,
        serializeProps addC st props = some q ∧ EInv reg h0 op v0 q.2 ∧
        GExt st q.2 ∧ UPres st q.2 ∧ PropsMapped q.2.indexMap props q.1.1 q.1.2 := by
  intro props
  induction props with
  | nil =>
    intro st hinv hpool hfuel
    exact ⟨(([], []), st), rfl, hinv, GExt_refl st, UPres_refl st, rfl, rfl⟩
  | cons p rest ih =>
    obtain ⟨key, desc⟩ := p
    intro st hinv hpool hfuel
    by_cases hk : key = "__closure"
    · obtain ⟨q, hq, hinv1, he1, hu1, hm⟩ := ih hinv
        (fun kv hkv => hpool kv (List.mem_cons_of_mem _ hkv)) hfuel
      refine ⟨q, ?_, hinv1, he1, hu1, ?_⟩
      · rw [serializeProps, if_pos hk]; exact hq
      · rw [PropsMapped, if_pos hk]; exact hm
    · by_cases ht : isTypical desc
      · have hdv : PoolV h0 op v0 st (dataValueOf desc) := by
          cases desc with
          | data w wr e c =>
            exact hpool (key, .data w wr e c) (List.mem_cons_self _ _) w
              (by simp [descKids, dataValueOf])
          | accessor g sv e c => simp [isTypical] at ht
        obtain ⟨p1, hadd, hinv1, he1, hu1, hfind, _⟩ := ha st _ hinv hdv hfuel
        obtain ⟨q, hq, hinv2, he2, hu2, hm⟩ := ih hinv1
          (fun kv hkv v hv => PoolV_mono he1 (hpool kv (List.mem_cons_of_mem _ hkv) v hv))
          (le_trans hfuel (by have := GExt_mapLen he1; omega))
        refine ⟨(((key, p1.1) :: q.1.1, q.1.2), q.2), ?_, hinv2, GExt_trans he1 he2,
          UPres_trans hu1 hu2, ?_⟩
        · rw [serializeProps, if_neg hk, if_pos ht, hadd, Option.some_bind, hq,
            Option.some_bind]
        · rw [PropsMapped, if_neg hk, if_pos ht]
          exact ⟨p1.1, q.1.1, GExt_findIdx he2 hfind, rfl, hm⟩
      · obtain ⟨p1, hp1, hinv1, he1, hu1, hdm⟩ := serializeDesc_total ha hinv
          (fun v hv => hpool (key, desc) (List.mem_cons_self _ _) v hv) hfuel
        obtain ⟨q, hq, hinv2, he2, hu2, hm⟩ := ih hinv1
          (fun kv hkv v hv => PoolV_mono he1 (hpool kv (List.mem_cons_of_mem _ hkv) v hv))
          (le_trans hfuel (by have := GExt_mapLen he1; omega))
        refine ⟨((q.1.1, (key, p1.1) :: q.1.2), q.2), ?_, hinv2, GExt_trans he1 he2,
          UPres_trans hu1 hu2, ?_⟩
        · rw [serializeProps, if_neg hk, if_neg ht, hp1, Option.some_bind, hq,
            Option.some_bind]
        · rw [PropsMapped, if_neg hk, if_neg ht]
          exact ⟨p1.1, q.1.2, DescMapped_mono he2 hdm, rfl, hm⟩

theorem addElems_total {reg : List (String × Value)} {h0 : List HObj}
    {op v0 : Value} {addC : AddC} {fuel : Nat} (ha : ASpec reg h0 op v0 addC fuel) :
    ∀ {vs : List Value} {st : GState}, EInv reg h0 op v0 st →
      (∀ v ∈ vs, PoolV h0 op v0 st v) →
      encB h0 + 1 ≤ fuel + st.indexMap.length →
      ∃ q : List Nat × GState, addElems addC st vs = some q ∧ EInv reg h0 op v0 q.2 ∧
        GExt st q.2 ∧ UPres st q.2 ∧ q.1.length = vs.length ∧
        ∀ k w, vs.get? k = some w →
          ∃ j, q.1.get? k = some j ∧ findIdx q.2.indexMap w = some j := by
  intro vs
  induction vs with
  | nil =>
    intro st hinv hpool hfuel
    refine ⟨([], st), rfl, hinv, GExt_refl st, UPres_refl st, rfl, ?_⟩
    intro k w hw
    simp at hw
  | cons v rest ih =>
    intro st hinv hpool hfuel
    obtain ⟨p1, hadd, hinv1, he1, hu1, hfind, _⟩ :=
      ha st v hinv (hpool v (List.mem_cons_self _ _)) hfuel
    obtain ⟨q, hq, hinv2, he2, hu2, hlen, hpt⟩ := ih hinv1
      (fun w hw => PoolV_mono he1 (hpool w (List.mem_cons_of_mem _ hw)))
      (le_trans hfuel (by have := GExt_mapLen he1; omega))
    refine ⟨(p1.1 :: q.1, q.2), ?_, hinv2, GExt_trans he1 he2, UPres_trans hu1 hu2,
      by simpa using hlen, ?_⟩
    · rw [addElems, hadd, Option.some_bind, hq, Option.some_bind]
    · intro k w hw
      cases k with
      | zero =>
        simp only [List.get?] at hw
        obtain rfl : v = w := by simpa using hw
        exact ⟨p1.1, rfl, GExt_findIdx he2 hfind⟩
      | succ k' => exact hpt k' w (by simpa using hw)

theorem serializeObject_total {reg : List (String × Value)} {h0 : List HObj}
    {op v0 : Value} {addC : AddC} {fuel : Nat} (ha : ASpec reg h0 op v0 addC fuel)
    {st : GState} {proto : Value} {props : List (String × PropDesc)}
    (hinv : EInv reg h0 op v0 st) (hproto : PoolV h0 op v0 st proto)
    (hpool : ∀ kv ∈ props, ∀ v ∈ descKids kv.2, PoolV h0 op v0 st v)
    (hfuel : encB h0 + 1 ≤ fuel + st.indexMap.length) :
    ∃ q : Record × GState, serializeObject addC st proto props = some q ∧
      EInv reg h0 op v0 q.2 ∧ GExt st q.2 ∧ UPres st q.2 ∧
      CellRec op q.2 (.obj proto props) q.1 := by
  obtain ⟨p1, hadd, hinv1, he1, hu1, hfind, _⟩ := ha st proto hinv hproto hfuel
  obtain ⟨q, hq, hinv2, he2, hu2, hm⟩ := serializeProps_total ha hinv1
    (fun kv hkv v hv => PoolV_mono he1 (hpool kv hkv v hv))
    (le_trans hfuel (by have := GExt_mapLen he1; omega))
  refine ⟨(.object p1.1 q.1.1 q.1.2, q.2), ?_, hinv2, GExt_trans he1 he2,
    UPres_trans hu1 hu2, ?_⟩
  · unfold serializeObject
    rw [hadd, Option.some_bind, hq, Option.some_bind]
  · exact ⟨p1.1, q.1.1, q.1.2, rfl, GExt_findIdx he2 hfind, hm⟩

theorem serializeFunction_total {reg : List (String × Value)} {h0 : List HObj}
    {op v0 : Value} {addC : AddC} {fuel : Nat} (ha : ASpec reg h0 op v0 addC fuel)
    {st : GState} {src : String} {env : List (String × Value)} {proto : Value}
    {props : List (String × PropDesc)} (hinv : EInv reg h0 op v0 st)
    (hstrict : st.heap.length < h0.length + countFR h0 st.indexMap)
    (henv : ∀ v ∈ env.map Prod.snd, PoolV h0 op v0 st v)
    (hproto : PoolV h0 op v0 st proto)
    (hpool : ∀ kv ∈ props, ∀ v ∈ descKids kv.2, PoolV h0 op v0 st v)
    (hop : ∀ a, op = .ref a → a < h0.length)
    (hfuel : encB h0 + 1 ≤ fuel + st.indexMap.length) :
    ∃ q : Record × GState, serializeFunction addC op st src env proto props = some q ∧
      EInv reg h0 op v0 q.2 ∧ GExt st q.2 ∧ UPres st q.2 ∧
      CellRec op q.2 (.func src env proto props) q.1 := by
  have hext0 : GExt st { st with heap := st.heap ++ [.obj op (envProps env)] } :=
    ⟨⟨[], by simp⟩, ⟨[HObj.obj op (envProps env)], rfl⟩, le_refl _, fun _ _ h => h⟩
  have hsnapget : (st.heap ++ [HObj.obj op (envProps env)]).get? st.heap.length =
      some (HObj.obj op (envProps env)) := by
    simpa using List.get?_concat_length st.heap (HObj.obj op (envProps env))
  have hinv0 : EInv reg h0 op v0 { st with heap := st.heap ++ [.obj op (envProps env)] } := by
    refine ⟨hinv.valsNodup, fun e he => PoolV_mono hext0 (hinv.valsPool e he), ?_,
      le_trans hinv.heapLen (by simp), ?_, ?_, hinv.idxSeq, ?_⟩
    · simpa using hstrict
    · intro a ha
      rw [List.get?_append (lt_of_lt_of_le ha hinv.heapLen)]
      exact hinv.heapExt a ha
    · intro a cell ha hc
      rcases lt_trichotomy a st.heap.length with hlt | heq | hgt
      · rw [List.get?_append hlt] at hc
        obtain ⟨hshape, hkids⟩ := hinv.snapCells a cell ha hc
        exact ⟨hshape, fun w hw => PoolV_mono hext0 (hkids w hw)⟩
      · subst heq
        rw [hsnapget] at hc
        obtain rfl : HObj.obj op (envProps env) = cell := by simpa using hc
        refine ⟨⟨env, rfl⟩, ?_⟩
        intro w hw
        simp only [cellKids, envProps_kids] at hw
        rcases List.mem_cons.1 hw with hw | hw
        · rw [hw]
          exact op_pool hop (le_trans hinv.heapLen (by simp))
        · exact PoolV_mono hext0 (henv w hw)
      · exfalso
        have := get?_lt_length hc
        simp at this
        omega
    · intro e he
      rcases hinv.slotsOK e he with hs | ⟨r, hs, hok⟩
      · exact Or.inl hs
      · exact Or.inr ⟨r, hs, SlotOK_mono hext0 hok⟩
  have hm0 : ({ st with heap := st.heap ++ [.obj op (envProps env)] } :
      GState).indexMap.length = st.indexMap.length := rfl
  obtain ⟨c, hc, hinv1, he1, hu1, hfindc, _⟩ := ha _ (Value.ref st.heap.length) hinv0
    (by simp [PoolV]) hfuel
  obtain ⟨p1, hp1, hinv2, he2, hu2, hfindp, _⟩ := ha c.2 proto hinv1
    (PoolV_mono (GExt_trans hext0 he1) hproto)
    (le_trans hfuel (by have := GExt_mapLen he1; rw [hm0] at this; omega))
  obtain ⟨q, hq, hinv3, he3, hu3, hm⟩ := serializeProps_total ha hinv2
    (fun kv hkv v hv => PoolV_mono (GExt_trans hext0 (GExt_trans he1 he2))
      (hpool kv hkv v hv))
    (le_trans hfuel (by have l1 := GExt_mapLen he1; rw [hm0] at l1
                        have l2 := GExt_mapLen he2; omega))
  refine ⟨(.function src c.1 p1.1 q.1.1 q.1.2, q.2), ?_, hinv3,
    GExt_trans hext0 (GExt_trans he1 (GExt_trans he2 he3)),
    UPres_trans hu1 (UPres_trans hu2 hu3), ?_⟩
  · unfold serializeFunction
    rw [hc, Option.some_bind, hp1, Option.some_bind, hq, Option.some_bind]
  · refine ⟨c.1, p1.1, q.1.1, q.1.2, st.heap.length, rfl, ?_, ?_, ?_, hm⟩
    · exact GExt_heap (GExt_trans he1 (GExt_trans he2 he3)) hsnapget
    · exact GExt_findIdx (GExt_trans he2 he3) hfindc
    · exact GExt_findIdx he3 hfindp

theorem serializeVal_total {reg : List (String × Value)} {h0 : List HObj}
    {op v0 : Value} {addC : AddC} {fuel : Nat} (ha : ASpec reg h0 op v0 addC fuel)
    (hwf : WFHeap h0) (hsrc : SrcHeap h0) (hop : ∀ a, op = .ref a → a < h0.length)
    {st : GState} {v : Value} (hinv : EInv reg h0 op v0 st)
    (hpool : PoolV h0 op v0 st v)
    (hstrict : funcRefB h0 v = true →
      st.heap.length < h0.length + countFR h0 st.indexMap)
    (hfuel : encB h0 + 1 ≤ fuel + st.indexMap.length) :
    ∃ q : Record × GState, serializeVal reg op addC st v = some q ∧
      EInv reg h0 op v0 q.2 ∧ GExt st q.2 ∧ UPres st q.2 ∧ SlotOK reg op q.2 v q.1 := by
  cases hn : getNameOfBuiltin reg v with
  | some n =>
    refine ⟨(.builtin n, st), ?_, hinv, GExt_refl st, UPres_refl st, ?_⟩
    · simp only [serializeVal, hn]
    · unfold SlotOK
      rw [hn]
  | none =>
    cases v with
    | prim p =>
      refine ⟨(.primitive p, st), ?_, hinv, GExt_refl st, UPres_refl st, ?_⟩
      · simp only [serializeVal, hn]
      · unfold SlotOK
        rw [hn]
    | ref a =>
      obtain ⟨cell, hcell⟩ := exists_get? (l := st.heap) hpool
      have hkidspool : ∀ w ∈ cellKids cell, PoolV h0 op v0 st w := by
        rcases Nat.lt_or_ge a h0.length with hlt | hge
        · exact kids_pool hwf hinv.heapLen (by rw [← hinv.heapExt a hlt]; exact hcell)
        · exact (hinv.snapCells a cell hge hcell).2
      have hslot : ∀ {st' : GState} {r : Record}, GExt st st' → CellRec op st' cell r →
          SlotOK reg op st' (.ref a) r := by
        intro st' r hext hcr
        unfold SlotOK
        rw [hn]
        exact ⟨cell, GExt_heap hext hcell, hcr⟩
      cases cell with
      | arr elems =>
        obtain ⟨q, hq, hinv1, he1, hu1, hlen, hpt⟩ :=
          addElems_total ha hinv (fun w hw => hkidspool w (by simpa [cellKids] using hw))
            hfuel
        refine ⟨(.array q.1, q.2), ?_, hinv1, he1, hu1, ?_⟩
        · simp only [serializeVal, hn, hcell, hq, Option.some_bind]
        · exact hslot he1 ⟨q.1, rfl, hlen, hpt⟩
      | func src env proto props =>
        have hlt : a < h0.length := by
          rcases Nat.lt_or_ge a h0.length with hlt | hge
          · exact hlt
          · obtain ⟨env', hshape⟩ := (hinv.snapCells a _ hge hcell).1
            exact absurd hshape (by simp)
        have hfr : funcRefB h0 (.ref a) = true := by
          simp only [funcRefB]
          rw [← hinv.heapExt a hlt, hcell]
        have henvp : ∀ w ∈ env.map Prod.snd, PoolV h0 op v0 st w := by
          intro w hw
          apply hkidspool
          simp only [cellKids]
          exact List.mem_cons_of_mem _ (List.mem_append.2 (Or.inl hw))
        have hpropsp : ∀ kv ∈ props, ∀ w ∈ descKids kv.2, PoolV h0 op v0 st w := by
          intro kv hkv w hw
          apply hkidspool
          simp only [cellKids]
          exact List.mem_cons_of_mem _
            (List.mem_append.2 (Or.inr (List.mem_bind.2 ⟨kv, hkv, hw⟩)))
        obtain ⟨q, hq, hinv1, he1, hu1, hcr⟩ := serializeFunction_total ha hinv
          (hstrict hfr) henvp (hkidspool proto (by simp [cellKids])) hpropsp hop hfuel
        refine ⟨q, ?_, hinv1, he1, hu1, hslot he1 hcr⟩
        simp only [serializeVal, hn, hcell]
        exact hq
      | date t =>
        refine ⟨(.date (dateToJson t), st), ?_, hinv, GExt_refl st, UPres_refl st, ?_⟩
        · simp only [serializeVal, hn, hcell]
        · exact hslot (GExt_refl st) rfl
      | regex sx =>
        refine ⟨(.regex sx, st), ?_, hinv, GExt_refl st, UPres_refl st, ?_⟩
        · simp only [serializeVal, hn, hcell]
        · exact hslot (GExt_refl st) rfl
      | obj proto props =>
        have hpropsp : ∀ kv ∈ props, ∀ w ∈ descKids kv.2, PoolV h0 op v0 st w := by
          intro kv hkv w hw
          apply hkidspool
          simp only [cellKids]
          exact List.mem_cons_of_mem _ (List.mem_bind.2 ⟨kv, hkv, hw⟩)
        obtain ⟨q, hq, hinv1, he1, hu1, hcr⟩ := serializeObject_total ha hinv
          (hkidspool proto (by simp [cellKids])) hpropsp hfuel
        refine ⟨q, ?_, hinv1, he1, hu1, hslot he1 hcr⟩
        simp only [serializeVal, hn, hcell]
        exact hq
      | thunk im pr ps =>
        exfalso
        rcases Nat.lt_or_ge a h0.length with hlt | hge
        · have := hsrc a _ (by rw [← hinv.heapExt a hlt]; exact hcell)
          simp [cellSrcKind] at this
        · obtain ⟨env', hshape⟩ := (hinv.snapCells a _ hge hcell).1
          exact absurd hshape (by simp)
      | implFn im pr =>
        exfalso
        rcases Nat.lt_or_ge a h0.length with hlt | hge
        · have := hsrc a _ (by rw [← hinv.heapExt a hlt]; exact hcell)
          simp [cellSrcKind] at this
        · obtain ⟨env', hshape⟩ := (hinv.snapCells a _ hge hcell).1
          exact absurd hshape (by simp)

/-- Two memo entries with the same index are the same entry (indices
are issued sequentially and never reused). -/
theorem snd_injective {m : List (Value × Nat)} (hm : (m.map Prod.snd).Nodup)
    {e1 e2 : Value × Nat} (h1 : e1 ∈ m) (h2 : e2 ∈ m) (he : e1.2 = e2.2) :
    e1 = e2 := by
  induction m with
  | nil => cases h1
  | cons e rest ih =>
    simp only [List.map_cons, List.nodup_cons] at hm
    rcases List.mem_cons.1 h1 with hh1 | hh1 <;> rcases List.mem_cons.1 h2 with hh2 | hh2
    · rw [hh1, hh2]
    · exfalso
      apply hm.1
      have h22 : e2.2 = e.2 := by rw [← he, hh1]
      exact List.mem_map.2 ⟨e2, hh2, h22⟩
    · exfalso
      apply hm.1
      have h12 : e1.2 = e.2 := by rw [he, hh2]
      exact List.mem_map.2 ⟨e1, hh1, h12⟩
    · exact ih hm.2 hh1 hh2

/-- Totality of `add`: with the invariant and enough fuel, `add`
succeeds, and the value ends up memoized at the returned index with its
slot filled faithfully. -/
theorem addRec_total (reg : List (String × Value)) (h0 : List HObj) (op v0 : Value)
    (hwf : WFHeap h0) (hsrc : SrcHeap h0) (hop : ∀ a, op = .ref a → a < h0.length) :
    ∀ fuel, ASpec reg h0 op v0 (addRec reg op fuel) fuel := by
  intro fuel
  induction fuel with
  | zero =>
    intro st v hinv hpool hfuel
    exfalso
    have := einv_maplen hinv
    omega
  | succ fuel ih =>
    intro st v hinv hpool hfuel
    cases hmem : findIdx st.indexMap v with
    | some i =>
      refine ⟨(i, st), ?_, hinv, GExt_refl st, UPres_refl st, hmem, ?_⟩
      · rw [addRec, hmem]
      · have := findIdx_mem_snd hmem
        rw [hinv.idxSeq] at this
        exact List.mem_range.1 this
    | none =>
      have hinv1 := einv_push hinv hpool hmem
      have hext01 : GExt st
          ⟨st.indexMap ++ [(v, st.contentArray.length)], st.contentArray ++ [none],
            st.heap⟩ :=
        ⟨⟨[(v, st.contentArray.length)], rfl⟩, ⟨[], by simp⟩, by simp,
          fun _ _ h => get?_append_stable h⟩
      have hstrict1 : funcRefB h0 v = true →
          (⟨st.indexMap ++ [(v, st.contentArray.length)], st.contentArray ++ [none],
            st.heap⟩ : GState).heap.length <
            h0.length + countFR h0 (st.indexMap ++ [(v, st.contentArray.length)]) := by
        intro hfr
        have := hinv.heapBound
        show st.heap.length < h0.length + countFR h0 (st.indexMap ++ [(v, st.contentArray.length)])
        rw [countFR_append]
        simp only [hfr, if_pos]
        omega
      obtain ⟨q, hq, hinv2, he2, hu2, hok⟩ := serializeVal_total ih hwf hsrc hop hinv1
        (PoolV_mono hext01 hpool) hstrict1
        (by simp only [List.length_append, List.length_cons, List.length_nil]; omega)
      have hsetlt : st.contentArray.length < q.2.contentArray.length := by
        have h1 : (st.contentArray ++ [none]).length ≤ q.2.contentArray.length :=
          he2.2.2.1
        simp only [List.length_append, List.length_cons, List.length_nil] at h1
        omega
      have hvmem : (v, st.contentArray.length) ∈ q.2.indexMap := by
        obtain ⟨ext, hext⟩ := he2.1
        rw [hext]
        exact List.mem_append.2 (Or.inl (List.mem_append.2 (Or.inr (by simp))))
      have hfind2 : findIdx q.2.indexMap v = some st.contentArray.length :=
        GExt_findIdx he2 (findIdx_append_self (findIdx_eq_none.1 hmem))
      have hsndnd : (q.2.indexMap.map Prod.snd).Nodup := by
        rw [hinv2.idxSeq]
        exact List.nodup_range _
      refine ⟨(st.contentArray.length,
        ⟨q.2.indexMap, q.2.contentArray.set st.contentArray.length (some q.1), q.2.heap⟩),
        ?_, ?_, ?_, ?_, hfind2, ?_⟩
      · rw [addRec, hmem, hq, Option.some_bind]
      · -- the final invariant
        refine ⟨hinv2.valsNodup, fun e he => hinv2.valsPool e he, hinv2.heapBound,
          hinv2.heapLen, hinv2.heapExt, fun a cell ha hc => hinv2.snapCells a cell ha hc,
          ?_, ?_⟩
        · simp only [List.length_set]
          exact hinv2.idxSeq
        · intro e he
          by_cases hcase : e.2 = st.contentArray.length
          · have heq : e = (v, st.contentArray.length) :=
              snd_injective hsndnd he hvmem hcase
            right
            refine ⟨q.1, ?_, ?_⟩
            · simp only [hcase]
              exact List.get?_set_eq_of_lt _ hsetlt
            · rw [heq]
              exact hok
          · rcases hinv2.slotsOK e he with hs | ⟨r, hs, hsok⟩
            · left
              simp only []
              rw [List.get?_set_ne _ _ (fun hh => hcase hh.symm)]
              exact hs
            · right
              refine ⟨r, ?_, hsok⟩
              simp only []
              rw [List.get?_set_ne _ _ (fun hh => hcase hh.symm)]
              exact hs
      · -- extension from st
        obtain ⟨ext, hext⟩ := he2.1
        obtain ⟨hx, hxh⟩ := he2.2.1
        refine ⟨⟨(v, st.contentArray.length) :: ext, ?_⟩, ⟨hx, hxh⟩, ?_, ?_⟩
        · simp only []
          rw [hext]
          simp
        · simp only [List.length_set]
          omega
        · intro j r hj
          have hjlt : j < st.contentArray.length := get?_lt_length hj
          have hj2 := he2.2.2.2 j r (get?_append_stable hj)
          simp only []
          rw [List.get?_set_ne _ _ (by omega)]
          exact hj2
      · -- no slot left unfilled that was not already reserved before
        intro j hj
        simp only [] at hj
        by_cases hcase : j = st.contentArray.length
        · subst hcase
          rw [List.get?_set_eq_of_lt _ hsetlt] at hj
          exact absurd hj (by simp)
        · rw [List.get?_set_ne _ _ (fun hh => hcase hh.symm)] at hj
          have hj1 := hu2 j hj
          have hjlt : j < (st.contentArray ++ [none]).length := get?_lt_length hj1
          simp only [List.length_append, List.length_cons, List.length_nil] at hjlt
          have hjne : j < st.contentArray.length := by omega
          rwa [List.get?_append hjne] at hj1
      · simp only [List.length_set]
        exact hsetlt

theorem wfHeapB_sound {h : List HObj} (hb : wfHeapB h = true) : WFHeap h := by
  intro a cell hc v hv b hvb
  have h1 := List.all_eq_true.1 hb cell (List.get?_mem hc)
  have h2 := List.all_eq_true.1 h1 v hv
  rw [hvb] at h2
  simpa [valInRangeB] using h2

theorem srcHeapB_sound {h : List HObj} (hb : srcHeapB h = true) : SrcHeap h :=
  fun a cell hc => List.all_eq_true.1 hb cell (List.get?_mem hc)

/-- C8.  `serialize` is total: for every source-world value over a
well-formed heap — with a prototype value and root that designate
in-range references when they are references at all — `serialize`
returns a graph at fuel `encodeFuel h0`, which counts one recursion
level per identity the store can supply (each heap cell, one snapshot
object per function cell, each stocked primitive, the prototype and the
root) plus one.  The embedded encoder has no error outcome other than
exhausted fuel, so this is also the no-failure half of the claim: each
distinct identity is registered before its children are visited, and the
memo can never outgrow the identity pool. -/
theorem c8_serialize_total (reg : List (String × Value)) (op v0 : Value)
    (h0 : List HObj) (hwf : WFHeap h0) (hsrc : SrcHeap h0)
    (hop : ∀ a, op = .ref a → a < h0.length)
    (hv0 : ∀ a, v0 = .ref a → a < h0.length) :
    ∃ g h1, serializeTop reg op (encodeFuel h0) h0 v0 = some (g, h1) := by
  have hinv0 : EInv reg h0 op v0 ⟨[], [], h0⟩ := by
    refine ⟨by simp, by simp, by simp [countFR], le_refl _, fun a ha => rfl, ?_, by simp, by simp⟩
    intro a cell ha hc
    exfalso
    have := get?_lt_length hc
    simp only [] at this
    omega
  have hpool : PoolV h0 op v0 ⟨[], [], h0⟩ v0 := by
    cases hv : v0 with
    | ref a => exact hv0 a hv
    | prim p => exact Or.inr (Or.inr rfl)
  obtain ⟨⟨i, stq⟩, hp, _⟩ := addRec_total reg h0 op v0 hwf hsrc hop (encodeFuel h0)
    ⟨[], [], h0⟩ v0 hinv0 hpool (by unfold encodeFuel; simp)
  refine ⟨{ rootIndex := i, data := stq.contentArray, indexMap := stq.indexMap },
    stq.heap, ?_⟩
  unfold serializeTop
  rw [hp]

/-- C8 (witness): the callable capturing `x = 5` serializes within the
computed fuel. -/
theorem c8_serialize_total_witness :
    ∃ g h1, serializeTop [] (.prim .null) (encodeFuel heapC2) heapC2 (.ref 0) =
      some (g, h1) :=
  c8_serialize_total [] (.prim .null) (.ref 0) heapC2
    (wfHeapB_sound (by decide)) (srcHeapB_sound (by decide))
    (fun a h => by simp at h)
    (fun a h => by obtain rfl : 0 = a := by simpa using h
                   simp [heapC2])

/-- The seven-way classification behind one successful `serialize`
dispatch (source lines 159-195), as a disjunction. -/
theorem serializeVal_cases {reg : List (String × Value)} {op : Value} {addC : AddC}
    {st : GState} {v : Value} {r : Record} {st' : GState}
    (h : serializeVal reg op addC st v = some (r, st')) :
    (∃ n, getNameOfBuiltin reg v = some n ∧ r = .builtin n ∧ st' = st) ∨
    (∃ p, getNameOfBuiltin reg v = none ∧ v = .prim p ∧ r = .primitive p ∧ st' = st) ∨
    (∃ a elems q, getNameOfBuiltin reg v = none ∧ v = .ref a ∧
      st.heap.get? a = some (.arr elems) ∧ addElems addC st elems = some q ∧
      r = .array q.1 ∧ st' = q.2) ∨
    (∃ a source env proto props, getNameOfBuiltin reg v = none ∧ v = .ref a ∧
      st.heap.get? a = some (.func source env proto props) ∧
      serializeFunction addC op st source env proto props = some (r, st')) ∨
    (∃ a t, getNameOfBuiltin reg v = none ∧ v = .ref a ∧
      st.heap.get? a = some (.date t) ∧ r = .date (dateToJson t) ∧ st' = st) ∨
    (∃ a s, getNameOfBuiltin reg v = none ∧ v = .ref a ∧
      st.heap.get? a = some (.regex s) ∧ r = .regex s ∧ st' = st) ∨
    (∃ a proto props, getNameOfBuiltin reg v = none ∧ v = .ref a ∧
      st.heap.get? a = some (.obj proto props) ∧
      serializeObject addC st proto props = some (r, st')) := by
  unfold serializeVal at h
  split at h
  · rename_i n hn
    obtain ⟨h1, h2⟩ : Record.builtin n = r ∧ st = st' := by simpa using h
    exact Or.inl ⟨n, hn, h1.symm, h2.symm⟩
  · rename_i hn
    split at h
    · rename_i p
      obtain ⟨h1, h2⟩ : Record.primitive p = r ∧ st = st' := by simpa using h
      exact Or.inr (Or.inl ⟨p, hn, rfl, h1.symm, h2.symm⟩)
    · rename_i a
      split at h
      · exact absurd h (by simp)
      · rename_i elems hcell
        rw [Option.bind_eq_some] at h
        obtain ⟨q, hq, h⟩ := h
        obtain ⟨h1, h2⟩ : Record.array q.1 = r ∧ q.2 = st' := by simpa using h
        exact Or.inr (Or.inr (Or.inl ⟨a, elems, q, hn, rfl, hcell, hq, h1.symm, h2.symm⟩))
      · rename_i source env proto props hcell
        exact Or.inr (Or.inr (Or.inr (Or.inl ⟨a, source, env, proto, props, hn, rfl, hcell, h⟩)))
      · rename_i t hcell
        obtain ⟨h1, h2⟩ : Record.date (dateToJson t) = r ∧ st = st' := by simpa using h
        exact Or.inr (Or.inr (Or.inr (Or.inr (Or.inl ⟨a, t, hn, rfl, hcell, h1.symm, h2.symm⟩))))
      · rename_i s hcell
        obtain ⟨h1, h2⟩ : Record.regex s = r ∧ st = st' := by simpa using h
        exact Or.inr (Or.inr (Or.inr (Or.inr (Or.inr (Or.inl ⟨a, s, hn, rfl, hcell, h1.symm, h2.symm⟩)))))
      · rename_i proto props hcell
        exact Or.inr (Or.inr (Or.inr (Or.inr (Or.inr (Or.inr ⟨a, proto, props, hn, rfl, hcell, h⟩)))))
      · exact absurd h (by simp)
      · exact absurd h (by simp)

/-- Inversion of one successful `serializeFunction`. -/
theorem serializeFunction_cases {addC : AddC} {op : Value} {st : GState}
    {source : String} {env : List (String × Value)} {proto : Value}
    {props : List (String × PropDesc)} {r : Record} {st' : GState}
    (h : serializeFunction addC op st source env proto props = some (r, st')) :
    ∃ c p q,
      addC { st with heap := st.heap ++ [.obj op (envProps env)] }
        (.ref st.heap.length) = some c ∧
      addC c.2 proto = some p ∧
      serializeProps addC p.2 props = some q ∧
      r = .function source c.1 p.1 q.1.1 q.1.2 ∧ st' = q.2 := by
  unfold serializeFunction at h
  rw [Option.bind_eq_some] at h
  obtain ⟨c, hc, h⟩ := h
  rw [Option.bind_eq_some] at h
  obtain ⟨p, hp, h⟩ := h
  rw [Option.bind_eq_some] at h
  obtain ⟨q, hq, h⟩ := h
  obtain ⟨h1, h2⟩ : Record.function source c.1 p.1 q.1.1 q.1.2 = r ∧ q.2 = st' := by
    simpa using h
  exact ⟨c, p, q, hc, hp, hq, h1.symm, h2.symm⟩

/-- Inversion of one successful `serializeObject`. -/
theorem serializeObject_cases {addC : AddC} {st : GState} {proto : Value}
    {props : List (String × PropDesc)} {r : Record} {st' : GState}
    (h : serializeObject addC st proto props = some (r, st')) :
    ∃ p q, addC st proto = some p ∧ serializeProps addC p.2 props = some q ∧
      r = .object p.1 q.1.1 q.1.2 ∧ st' = q.2 := by
  unfold serializeObject at h
  rw [Option.bind_eq_some] at h
  obtain ⟨p, hp, h⟩ := h
  rw [Option.bind_eq_some] at h
  obtain ⟨q, hq, h⟩ := h
  obtain ⟨h1, h2⟩ : Record.object p.1 q.1.1 q.1.2 = r ∧ q.2 = st' := by simpa using h
  exact ⟨p, q, hp, hq, h1.symm, h2.symm⟩

/-- Inversion of one non-memoized `addRec` step. -/
theorem addRec_fresh_cases {reg : List (String × Value)} {op : Value} {fuel : Nat}
    {st : GState} {v : Value} {i : Nat} {st' : GState}
    (h : addRec reg op (fuel + 1) st v = some (i, st'))
    (hmiss : findIdx st.indexMap v = none) :
    i = st.contentArray.length ∧
    ∃ p, serializeVal reg op (addRec reg op fuel)
        { st with contentArray := st.contentArray ++ [none],
                  indexMap := st.indexMap ++ [(v, st.contentArray.length)] } v = some p ∧
      st' = { p.2 with contentArray := p.2.contentArray.set st.contentArray.length (some p.1) } := by
  rw [addRec, hmiss] at h
  simp only [Option.bind_eq_some] at h
  obtain ⟨p, hp, h⟩ := h
  obtain ⟨h1, h2⟩ : st.contentArray.length = i ∧ _ = st' := by simpa using h
  exact ⟨h1.symm, p, hp, h2.symm⟩

/-! ### C10: the encoder never emits a `writable` field -/

theorem serializeDesc_writable_none {addC : AddC} {st : GState} {d : PropDesc}
    {sd : SDesc} {st' : GState} (h : serializeDesc addC st d = some (sd, st')) :
    sd.writable? = none := by
  unfold serializeDesc at h
  rw [Option.bind_eq_some] at h
  obtain ⟨g, hg, h⟩ := h
  rw [Option.bind_eq_some] at h
  obtain ⟨s, hs, h⟩ := h
  rw [Option.bind_eq_some] at h
  obtain ⟨v, hv, h⟩ := h
  simp only [Option.some.injEq, Prod.mk.injEq] at h
  rw [← h.1]
  simp

theorem serializeProps_writable_none {addC : AddC} :
    ∀ {props : List (String × PropDesc)} {st : GState} {refs : List (String × Nat)}
      {descs : List (String × SDesc)} {st' : GState},
      serializeProps addC st props = some ((refs, descs), st') →
      ∀ kd ∈ descs, kd.2.writable? = none := by
  intro props
  induction props with
  | nil =>
    intro st refs descs st' h kd hm
    simp only [serializeProps, Option.some.injEq, Prod.mk.injEq] at h
    rw [← h.1.2] at hm
    exact absurd hm (List.not_mem_nil kd)
  | cons p rest ih =>
    obtain ⟨key, desc⟩ := p
    intro st refs descs st' h kd hm
    simp only [serializeProps] at h
    split_ifs at h with hk ht
    · exact ih h kd hm
    · rw [Option.bind_eq_some] at h
      obtain ⟨p1, hp1, h⟩ := h
      rw [Option.bind_eq_some] at h
      obtain ⟨q, hq, h⟩ := h
      simp only [Option.some.injEq, Prod.mk.injEq] at h
      rw [← h.1.2] at hm
      exact ih hq kd hm
    · rw [Option.bind_eq_some] at h
      obtain ⟨p1, hp1, h⟩ := h
      rw [Option.bind_eq_some] at h
      obtain ⟨q, hq, h⟩ := h
      simp only [Option.some.injEq, Prod.mk.injEq] at h
      rw [← h.1.2] at hm
      rcases List.mem_cons.1 hm with hkd | hkd
      · rw [hkd]
        exact serializeDesc_writable_none hp1
      · exact ih hq kd hkd

/-- The record a single `serialize` dispatch produces carries no
`writable` field in its descriptions. -/
theorem serializeVal_writable_none {reg : List (String × Value)} {op : Value}
    {addC : AddC} {st : GState} {v : Value} {r : Record} {st' : GState}
    (h : serializeVal reg op addC st v = some (r, st')) :
    ∀ kd ∈ recDescs r, kd.2.writable? = none := by
  intro kd hm
  rcases serializeVal_cases h with
    ⟨n, _, hr, _⟩ | ⟨p, _, _, hr, _⟩ | ⟨a, elems, q, _, _, _, _, hr, _⟩ |
    ⟨a, source, env, proto, props, _, _, _, hf⟩ | ⟨a, t, _, _, _, hr, _⟩ |
    ⟨a, s, _, _, _, hr, _⟩ | ⟨a, proto, props, _, _, _, ho⟩
  · rw [hr] at hm; exact absurd hm (List.not_mem_nil kd)
  · rw [hr] at hm; exact absurd hm (List.not_mem_nil kd)
  · rw [hr] at hm; exact absurd hm (List.not_mem_nil kd)
  · obtain ⟨c, p, q, _, _, hq, hr, _⟩ := serializeFunction_cases hf
    rw [hr] at hm
    exact serializeProps_writable_none hq kd hm
  · rw [hr] at hm; exact absurd hm (List.not_mem_nil kd)
  · rw [hr] at hm; exact absurd hm (List.not_mem_nil kd)
  · obtain ⟨p, q, _, hq, hr, _⟩ := serializeObject_cases ho
    rw [hr] at hm
    exact serializeProps_writable_none hq kd hm

theorem addOpt_pres {addC : AddC} (hp : AddPres addC) {st : GState}
    {ov : Option Value} {r : Option Nat × GState} (h : addOpt addC st ov = some r) :
    (noWritableState st → noWritableState r.2) ∧
      st.contentArray.length ≤ r.2.contentArray.length := by
  cases ov with
  | none =>
    simp only [addOpt, Option.some.injEq] at h
    rw [← h]
    exact ⟨fun q => q, le_refl _⟩
  | some v =>
    simp only [addOpt, Option.bind_eq_some] at h
    obtain ⟨p, hadd, h⟩ := h
    have := hp _ _ _ hadd
    simp only [Option.some.injEq] at h
    rw [← h]
    exact this

theorem serializeDesc_pres {addC : AddC} (hp : AddPres addC) {st : GState}
    {d : PropDesc} {sd : SDesc} {st' : GState}
    (h : serializeDesc addC st d = some (sd, st')) :
    (noWritableState st → noWritableState st') ∧
      st.contentArray.length ≤ st'.contentArray.length := by
  unfold serializeDesc at h
  rw [Option.bind_eq_some] at h
  obtain ⟨g, hg, h⟩ := h
  rw [Option.bind_eq_some] at h
  obtain ⟨s, hs, h⟩ := h
  rw [Option.bind_eq_some] at h
  obtain ⟨v, hv, h⟩ := h
  simp only [Option.some.injEq, Prod.mk.injEq] at h
  obtain ⟨q1, l1⟩ := addOpt_pres hp hg
  obtain ⟨q2, l2⟩ := addOpt_pres hp hs
  obtain ⟨q3, l3⟩ := addOpt_pres hp hv
  rw [← h.2]
  exact ⟨fun q => q3 (q2 (q1 q)), le_trans l1 (le_trans l2 l3)⟩

theorem serializeProps_pres {addC : AddC} (hp : AddPres addC) :
    ∀ {props : List (String × PropDesc)} {st : GState}
      {rd : List (String × Nat) × List (String × SDesc)} {st' : GState},
      serializeProps addC st props = some (rd, st') →
      (noWritableState st → noWritableState st') ∧
        st.contentArray.length ≤ st'.contentArray.length := by
  intro props
  induction props with
  | nil =>
    intro st rd st' h
    simp only [serializeProps, Option.some.injEq, Prod.mk.injEq] at h
    rw [← h.2]
    exact ⟨fun q => q, le_refl _⟩
  | cons p rest ih =>
    obtain ⟨key, desc⟩ := p
    intro st rd st' h
    simp only [serializeProps] at h
    split_ifs at h with hk ht
    · exact ih h
    · rw [Option.bind_eq_some] at h
      obtain ⟨p1, hp1, h⟩ := h
      rw [Option.bind_eq_some] at h
      obtain ⟨q, hq, h⟩ := h
      simp only [Option.some.injEq, Prod.mk.injEq] at h
      obtain ⟨q1, l1⟩ := hp _ _ _ hp1
      obtain ⟨q2, l2⟩ := ih hq
      rw [← h.2]
      exact ⟨fun x => q2 (q1 x), le_trans l1 l2⟩
    · rw [Option.bind_eq_some] at h
      obtain ⟨p1, hp1, h⟩ := h
      rw [Option.bind_eq_some] at h
      obtain ⟨q, hq, h⟩ := h
      simp only [Option.some.injEq, Prod.mk.injEq] at h
      obtain ⟨q1, l1⟩ := serializeDesc_pres hp hp1
      obtain ⟨q2, l2⟩ := ih hq
      rw [← h.2]
      exact ⟨fun x => q2 (q1 x), le_trans l1 l2⟩

theorem addElems_pres {addC : AddC} (hp : AddPres addC) :
    ∀ {vs : List Value} {st : GState} {r : List Nat × GState},
      addElems addC st vs = some r →
      (noWritableState st → noWritableState r.2) ∧
        st.contentArray.length ≤ r.2.contentArray.length := by
  intro vs
  induction vs with
  | nil =>
    intro st r h
    simp only [addElems, Option.some.injEq] at h
    rw [← h]
    exact ⟨fun q => q, le_refl _⟩
  | cons v rest ih =>
    intro st r h
    simp only [addElems, Option.bind_eq_some] at h
    obtain ⟨p, hadd, q, hq, h⟩ := h
    obtain ⟨q1, l1⟩ := hp _ _ _ hadd
    obtain ⟨q2, l2⟩ := ih hq
    simp only [Option.some.injEq] at h
    rw [← h]
    exact ⟨fun x => q2 (q1 x), le_trans l1 l2⟩

/-- `noWritableState` only reads the content array, so it survives a
heap-only update. -/
theorem noWritableState_heap (st : GState) (h : List HObj) :
    noWritableState st → noWritableState { st with heap := h } :=
  fun q => q

theorem serializeVal_pres {reg : List (String × Value)} {op : Value}
    {addC : AddC} (hp : AddPres addC) {st : GState} {v : Value}
    {r : Record} {st' : GState} (h : serializeVal reg op addC st v = some (r, st')) :
    (noWritableState st → noWritableState st') ∧
      st.contentArray.length ≤ st'.contentArray.length := by
  rcases serializeVal_cases h with
    ⟨n, _, _, hst⟩ | ⟨p, _, _, _, hst⟩ | ⟨a, elems, q, _, _, _, hq, _, hst⟩ |
    ⟨a, source, env, proto, props, _, _, _, hf⟩ | ⟨a, t, _, _, _, _, hst⟩ |
    ⟨a, s, _, _, _, _, hst⟩ | ⟨a, proto, props, _, _, _, ho⟩
  · rw [hst]; exact ⟨fun q => q, le_refl _⟩
  · rw [hst]; exact ⟨fun q => q, le_refl _⟩
  · rw [hst]; exact addElems_pres hp hq
  · obtain ⟨c, p, q, hc, hpr, hq, _, hst⟩ := serializeFunction_cases hf
    obtain ⟨q1, l1⟩ := hp _ _ _ hc
    obtain ⟨q2, l2⟩ := hp _ _ _ hpr
    obtain ⟨q3, l3⟩ := serializeProps_pres hp hq
    rw [hst]
    refine ⟨fun x => q3 (q2 (q1 x)), ?_⟩
    exact le_trans (le_trans l1 l2) l3
  · rw [hst]; exact ⟨fun q => q, le_refl _⟩
  · rw [hst]; exact ⟨fun q => q, le_refl _⟩
  · obtain ⟨p, q, hpr, hq, _, hst⟩ := serializeObject_cases ho
    obtain ⟨q1, l1⟩ := hp _ _ _ hpr
    obtain ⟨q2, l2⟩ := serializeProps_pres hp hq
    rw [hst]
    exact ⟨fun x => q2 (q1 x), le_trans l1 l2⟩

/-- A content slot that is `some (some r)` after appending a reserved
`none` slot was already so before. -/
theorem get?_append_none {ca : List (Option Record)} {i : Nat} {r : Record}
    (h : (ca ++ [none]).get? i = some (some r)) : ca.get? i = some (some r) := by
  rcases lt_trichotomy i ca.length with hlt | heq | hgt
  · rwa [List.get?_append hlt] at h
  · subst heq
    rw [List.get?_concat_length] at h
    exact absurd h (by simp)
  · rw [List.get?_eq_none.2 (by simp [Nat.succ_le_of_lt hgt])] at h
    exact absurd h (by simp)

theorem addRec_pres (reg : List (String × Value)) (op : Value) :
    ∀ fuel : Nat, AddPres (addRec reg op fuel) := by
  intro fuel
  induction fuel with
  | zero => intro st v r h; exact absurd h (by simp [addRec])
  | succ fuel ih =>
    intro st v r h
    cases hmem : findIdx st.indexMap v with
    | some i =>
      rw [addRec, hmem] at h
      simp only [Option.some.injEq] at h
      rw [← h]
      exact ⟨fun q => q, le_refl _⟩
    | none =>
      obtain ⟨hi, p, hval, hst⟩ := addRec_fresh_cases h hmem
      obtain ⟨q1, l1⟩ := serializeVal_pres ih hval
      have hlen : st.contentArray.length < p.2.contentArray.length := by
        have l2 : st.contentArray.length + 1 ≤ p.2.contentArray.length := by
          simpa using l1
        omega
      constructor
      · intro q i2 r2 hget kd hm
        rw [hst] at hget
        simp only at hget
        by_cases hcase : i2 = st.contentArray.length
        · subst hcase
          rw [List.get?_set_eq_of_lt _ hlen] at hget
          obtain rfl : p.1 = r2 := by simpa using hget
          exact serializeVal_writable_none hval kd hm
        · rw [List.get?_set_ne _ _ (fun hh => hcase hh.symm)] at hget
          have q2 : noWritableState p.2 := q1 (by
            intro j rj hj kd2 hm2
            exact q j rj (get?_append_none hj) kd2 hm2)
          exact q2 i2 r2 hget kd hm
      · rw [hst]
        simp only [List.length_set]
        omega

/-- C10.  For every input, no descriptor emitted into any record's
`descriptions` by `serialize` carries a `writable` field: the guard of
source line 142 tests the freshly created output descriptor, which never
has one, so the original attribute's `writable` flag is dropped for
every description-path attribute. -/
theorem c10_writable_never_emitted (reg : List (String × Value)) (op : Value)
    (fuel : Nat) (h : List HObj) (v : Value) (g : Graph) (h1 : List HObj)
    (henc : serializeTop reg op fuel h v = some (g, h1)) :
    ∀ i r, g.data.get? i = some (some r) →
      ∀ kd ∈ recDescs r, kd.2.writable? = none := by
  unfold serializeTop at henc
  cases hadd : addRec reg op fuel ⟨[], [], h⟩ v with
  | none => rw [hadd] at henc; exact absurd henc (by simp)
  | some p =>
    rw [hadd] at henc
    simp only [Option.some.injEq, Prod.mk.injEq] at henc
    have hpres := (addRec_pres reg op fuel _ _ _ hadd).1
      (by intro i r hget kd hm; simp at hget)
    intro i r hget kd hm
    have hdata : g.data = p.2.contentArray := by rw [← henc.1]
    exact hpres i r (by rw [← hdata]; exact hget) kd hm

/-- C10 (witness): the one description the `x = 7` non-enumerable
example emits (value index `2`, `configurable`, not `enumerable`)
carries no `writable` field. -/
theorem c10_writable_never_emitted_witness :
    (("x", ({ get? := none, set? := none, value? := some 2,
              configurable := true, writable? := none,
              enumerable := false } : SDesc)) : String × SDesc).2.writable? =
      none :=
  c10_writable_never_emitted [] (.prim .null) 10 heapC5 (.ref 0)
    { rootIndex := 0,
      data := [some (.object 1 []
        [("x", { get? := none, set? := none, value? := some 2,
                 configurable := true, writable? := none, enumerable := false })]),
        some (.primitive .null), some (.primitive (.num 7))],
      indexMap := [(.ref 0, 0), (.prim .null, 1), (.prim (.num 7), 2)] }
    heapC5 (by decide) 0
    (.object 1 []
      [("x", { get? := none, set? := none, value? := some 2,
               configurable := true, writable? := none, enumerable := false })])
    (by decide)
    ("x", { get? := none, set? := none, value? := some 2,
            configurable := true, writable? := none, enumerable := false })
    (by decide)


/-! ### Decoder-side basic lemmas: the memo search, extension, the
unmemoized-index count, and the heap updaters -/

theorem findElem_eq_none {m : List (Value × Nat)} {i : Nat} :
    findElem m i = none ↔ ∀ e ∈ m, e.2 ≠ i := by
  induction m with
  | nil => simp [findElem]
  | cons e rest ih =>
    by_cases h : e.2 = i <;> simp [findElem, h, ih]

theorem findElem_append_some {m ext : List (Value × Nat)} {i : Nat} {w : Value}
    (h : findElem m i = some w) : findElem (m ++ ext) i = some w := by
  induction m with
  | nil => simp [findElem] at h
  | cons e rest ih =>
    by_cases he : e.2 = i
    · simp only [findElem, if_pos he] at h
      simp only [List.cons_append, findElem, if_pos he]
      exact h
    · simp only [findElem, if_neg he] at h
      simp only [List.cons_append, findElem, if_neg he]
      exact ih h

theorem findElem_append_none {m ext : List (Value × Nat)} {i : Nat}
    (h : findElem (m ++ ext) i = none) : findElem m i = none := by
  rw [findElem_eq_none] at h ⊢
  intro e he
  exact h e (List.mem_append_left _ he)

theorem findElem_push_self {m : List (Value × Nat)} {i : Nat} (v : Value)
    (h : findElem m i = none) : findElem (m ++ [(v, i)]) i = some v := by
  induction m with
  | nil => simp [findElem]
  | cons e rest ih =>
    by_cases he : e.2 = i
    · simp [findElem, if_pos he] at h
    · simp only [findElem, if_neg he] at h
      simp only [List.cons_append, findElem, if_neg he]
      exact ih h

theorem findElem_mem {m : List (Value × Nat)} {i : Nat} {w : Value}
    (h : findElem m i = some w) : (w, i) ∈ m := by
  induction m with
  | nil => simp [findElem] at h
  | cons e rest ih =>
    obtain ⟨a, b⟩ := e
    by_cases he : b = i
    · simp only [findElem, if_pos he] at h
      simp only [Option.some.injEq] at h
      rw [← h, ← he]
      exact List.mem_cons_self _ _
    · simp only [findElem, if_neg he] at h
      exact List.mem_cons_of_mem _ (ih h)

theorem DExt_refl (st : DSt) : DExt st st :=
  ⟨⟨[], by simp⟩, le_refl _, fun _ _ => rfl⟩

theorem DExt_trans {s1 s2 s3 : DSt} (h1 : DExt s1 s2) (h2 : DExt s2 s3) :
    DExt s1 s3 := by
  obtain ⟨⟨e1, he1⟩, hl1, hc1⟩ := h1
  obtain ⟨⟨e2, he2⟩, hl2, hc2⟩ := h2
  exact ⟨⟨e1 ++ e2, by rw [he2, he1, List.append_assoc]⟩, le_trans hl1 hl2,
    fun b hb => by rw [hc2 b (lt_of_lt_of_le hb hl1), hc1 b hb]⟩

theorem DExt_to_at (X : Nat) {s1 s2 : DSt} (h : DExt s1 s2) : DExtAt X s1 s2 :=
  ⟨h.1, h.2.1, fun b hb _ => h.2.2 b hb⟩

theorem DExtAt_refl (X : Nat) (st : DSt) : DExtAt X st st :=
  ⟨⟨[], by simp⟩, le_refl _, fun _ _ _ => rfl⟩

theorem DExtAt_trans {X : Nat} {s1 s2 s3 : DSt} (h1 : DExtAt X s1 s2)
    (h2 : DExtAt X s2 s3) : DExtAt X s1 s3 := by
  obtain ⟨⟨e1, he1⟩, hl1, hc1⟩ := h1
  obtain ⟨⟨e2, he2⟩, hl2, hc2⟩ := h2
  exact ⟨⟨e1 ++ e2, by rw [he2, he1, List.append_assoc]⟩, le_trans hl1 hl2,
    fun b hb hbx => by rw [hc2 b (lt_of_lt_of_le hb hl1) hbx, hc1 b hb hbx]⟩

theorem length_filter_imp {α : Type} (l : List α) (p q : α → Bool)
    (h : ∀ x ∈ l, q x = true → p x = true) :
    (l.filter q).length ≤ (l.filter p).length := by
  induction l with
  | nil => simp
  | cons a t ih =>
    have iht := ih (fun x hx => h x (List.mem_cons_of_mem _ hx))
    by_cases hq : q a = true
    · rw [List.filter_cons_of_pos hq,
        List.filter_cons_of_pos (h a (List.mem_cons_self _ _) hq)]
      simpa using iht
    · rw [List.filter_cons_of_neg (by simpa using hq)]
      by_cases hp : p a = true
      · rw [List.filter_cons_of_pos hp]
        exact le_trans iht (Nat.le_succ _)
      · rw [List.filter_cons_of_neg (by simpa using hp)]
        exact iht

theorem length_filter_lt {α : Type} (l : List α) (p q : α → Bool) (a : α)
    (ha : a ∈ l) (hpa : p a = true) (hqa : q a = false)
    (h : ∀ x ∈ l, q x = true → p x = true) :
    (l.filter q).length < (l.filter p).length := by
  induction l with
  | nil => simp at ha
  | cons x t ih =>
    have ht : ∀ y ∈ t, q y = true → p y = true :=
      fun y hy => h y (List.mem_cons_of_mem _ hy)
    rcases List.mem_cons.mp ha with rfl | hat
    · rw [List.filter_cons_of_pos hpa,
        List.filter_cons_of_neg (by simp [hqa])]
      exact Nat.lt_succ_of_le (length_filter_imp t p q ht)
    · by_cases hq : q x = true
      · rw [List.filter_cons_of_pos hq,
          List.filter_cons_of_pos (h x (List.mem_cons_self _ _) hq)]
        exact Nat.succ_lt_succ (ih hat ht)
      · rw [List.filter_cons_of_neg (by simpa using hq)]
        by_cases hp : p x = true
        · rw [List.filter_cons_of_pos hp]
          exact Nat.lt_succ_of_lt (ih hat ht)
        · rw [List.filter_cons_of_neg (by simpa using hp)]
          exact ih hat ht

theorem unmemo_mono {data : List (Option Record)} {st st' : DSt}
    (h : ∃ ext, st'.indexMap = st.indexMap ++ ext) :
    unmemoCount data st' ≤ unmemoCount data st := by
  obtain ⟨ext, he⟩ := h
  unfold unmemoCount
  apply length_filter_imp
  intro x _ hx
  simp only [Option.isNone_iff_eq_none] at hx ⊢
  rw [he] at hx
  exact findElem_append_none hx

theorem unmemo_lt_of_newmemo {data : List (Option Record)} {st st' : DSt}
    {i : Nat} {w : Value}
    (hext : ∃ ext, st'.indexMap = st.indexMap ++ ext)
    (hi : i < data.length) (hnone : findElem st.indexMap i = none)
    (hsome : findElem st'.indexMap i = some w) :
    unmemoCount data st' < unmemoCount data st := by
  obtain ⟨ext, he⟩ := hext
  unfold unmemoCount
  apply length_filter_lt _ _ _ i (by simpa using hi)
  · simp [hnone]
  · simp [hsome]
  · intro x _ hx
    simp only [Option.isNone_iff_eq_none] at hx ⊢
    rw [he] at hx
    exact findElem_append_none hx

theorem unmemo_lt_of_push {data : List (Option Record)} {st : DSt} {v : Value}
    {i : Nat} (hi : i < data.length) (hnone : findElem st.indexMap i = none) :
    unmemoCount data (pushD st v i) < unmemoCount data st :=
  unmemo_lt_of_newmemo ⟨[(v, i)], rfl⟩ hi hnone (findElem_push_self v hnone)

theorem unmemo_pos {data : List (Option Record)} {st : DSt} {i : Nat}
    (hi : i < data.length) (hnone : findElem st.indexMap i = none) :
    1 ≤ unmemoCount data st := by
  have hm : i ∈ (List.range data.length).filter
      (fun j => (findElem st.indexMap j).isNone) := by
    simp [List.mem_filter, List.mem_range, hi, hnone]
  exact List.length_pos.mpr (List.ne_nil_of_mem hm)

/-- The decode-measure arithmetic: a call whose state has at most `U0`
unmemoized indices fits in fuel `f` whenever `U0` is strictly below a
count `Um` with `Um * (R + 1) ≤ f`. -/
theorem decMeasure_le {Ux U0 Um R rj f : Nat} (hx : Ux ≤ U0) (hU : U0 + 1 ≤ Um)
    (hr : rj ≤ R) (hf : Um * (R + 1) ≤ f) : Ux * (R + 1) + rj + 1 ≤ f := by
  have h1 : Ux * (R + 1) ≤ U0 * (R + 1) := Nat.mul_le_mul_right _ hx
  have h2 : (U0 + 1) * (R + 1) ≤ Um * (R + 1) := Nat.mul_le_mul_right _ hU
  have h3 : (U0 + 1) * (R + 1) = U0 * (R + 1) + (R + 1) := Nat.succ_mul _ _
  omega

theorem setPropH_length (h : List HObj) (a : Nat) (k : String) (d : PropDesc) :
    (setPropH h a k d).length = h.length := by
  unfold setPropH
  split <;> simp

theorem setPropH_get_ne (h : List HObj) {a b : Nat} (k : String) (d : PropDesc)
    (hne : b ≠ a) : (setPropH h a k d).get? b = h.get? b := by
  unfold setPropH
  split
  · rw [List.get?_set_ne _ _ (fun hh => hne hh.symm)]
  · rw [List.get?_set_ne _ _ (fun hh => hne hh.symm)]
  · rw [List.get?_set_ne _ _ (fun hh => hne hh.symm)]
  · rfl

theorem setPropH_at {h : List HObj} {a : Nat} {cell : HObj} (k : String)
    (d : PropDesc) (hc : h.get? a = some cell) :
    (setPropH h a k d).get? a =
      some (if settableCell (some cell) then
        withProps cell (assocSet (ownPropsOf cell) k d) else cell) := by
  have ha : a < h.length := get?_lt_length hc
  unfold setPropH
  rw [hc]
  cases cell with
  | arr elems => exact hc
  | obj proto props =>
    show (h.set a (HObj.obj proto (assocSet props k d))).get? a =
      some (HObj.obj proto (assocSet props k d))
    exact List.get?_set_eq_of_lt _ ha
  | func s e pr props =>
    show (h.set a (HObj.func s e pr (assocSet props k d))).get? a =
      some (HObj.func s e pr (assocSet props k d))
    exact List.get?_set_eq_of_lt _ ha
  | date t => exact hc
  | regex s => exact hc
  | thunk io pr props =>
    show (h.set a (HObj.thunk io pr (assocSet props k d))).get? a =
      some (HObj.thunk io pr (assocSet props k d))
    exact List.get?_set_eq_of_lt _ ha
  | implFn impl pr => exact hc

theorem appendElemH_length (h : List HObj) (a : Nat) (v : Value) :
    (appendElemH h a v).length = h.length := by
  unfold appendElemH
  split <;> simp

theorem appendElemH_get_ne (h : List HObj) {a b : Nat} (v : Value)
    (hne : b ≠ a) : (appendElemH h a v).get? b = h.get? b := by
  unfold appendElemH
  split
  · rw [List.get?_set_ne _ _ (fun hh => hne hh.symm)]
  · rfl

theorem appendElemH_at_arr {h : List HObj} {a : Nat} {elems : List Value}
    (v : Value) (hc : h.get? a = some (.arr elems)) :
    (appendElemH h a v).get? a = some (.arr (elems ++ [v])) := by
  have ha : a < h.length := get?_lt_length hc
  unfold appendElemH
  rw [hc]
  exact List.get?_set_eq_of_lt _ ha

theorem setThunkH_length (h : List HObj) (a : Nat) (io : Option Value)
    (pr : Value) : (setThunkH h a io pr).length = h.length := by
  unfold setThunkH
  split <;> simp

theorem setThunkH_get_ne (h : List HObj) {a b : Nat} (io : Option Value)
    (pr : Value) (hne : b ≠ a) : (setThunkH h a io pr).get? b = h.get? b := by
  unfold setThunkH
  split
  · rw [List.get?_set_ne _ _ (fun hh => hne hh.symm)]
  · rfl

theorem setThunkH_at {h : List HObj} {a : Nat} {io0 : Option Value} {pr0 : Value}
    {props : List (String × PropDesc)} (io : Option Value) (pr : Value)
    (hc : h.get? a = some (.thunk io0 pr0 props)) :
    (setThunkH h a io pr).get? a = some (.thunk io pr props) := by
  have ha : a < h.length := get?_lt_length hc
  unfold setThunkH
  rw [hc]
  exact List.get?_set_eq_of_lt _ ha

theorem setImplProtoH_length (h : List HObj) (a : Nat) (p : Value) :
    (setImplProtoH h a p).length = h.length := by
  unfold setImplProtoH
  split <;> simp

theorem setImplProtoH_get_ne (h : List HObj) {a b : Nat} (p : Value)
    (hne : b ≠ a) : (setImplProtoH h a p).get? b = h.get? b := by
  unfold setImplProtoH
  split
  · rw [List.get?_set_ne _ _ (fun hh => hne hh.symm)]
  · rfl

theorem setImplProtoH_at {h : List HObj} {a : Nat} {impl : Impl} {pr0 : Value}
    (p : Value) (hc : h.get? a = some (.implFn impl pr0)) :
    (setImplProtoH h a p).get? a = some (.implFn impl p) := by
  have ha : a < h.length := get?_lt_length hc
  unfold setImplProtoH
  rw [hc]
  exact List.get?_set_eq_of_lt _ ha

theorem assocSet_fresh {props : List (String × PropDesc)} {k : String}
    (d : PropDesc) (h : lookupProp props k = none) :
    assocSet props k d = props ++ [(k, d)] := by
  induction props with
  | nil => rfl
  | cons e rest ih =>
    obtain ⟨k', d'⟩ := e
    by_cases he : k' = k
    · simp [lookupProp, if_pos he] at h
    · simp only [lookupProp, if_neg he] at h
      simp only [assocSet, if_neg he, List.cons_append, List.cons.injEq, true_and]
      exact ih h

theorem lookupProp_append_right {l1 l2 : List (String × PropDesc)} {k : String}
    (h : lookupProp l1 k = none) :
    lookupProp (l1 ++ l2) k = lookupProp l2 k := by
  induction l1 with
  | nil => rfl
  | cons e rest ih =>
    obtain ⟨k', d'⟩ := e
    by_cases he : k' = k
    · simp [lookupProp, if_pos he] at h
    · simp only [lookupProp, if_neg he] at h
      simp only [List.cons_append, lookupProp, if_neg he]
      exact ih h

theorem lookupProp_append_left {l1 l2 : List (String × PropDesc)} {k : String}
    {d : PropDesc} (h : lookupProp l1 k = some d) :
    lookupProp (l1 ++ l2) k = some d := by
  induction l1 with
  | nil => simp [lookupProp] at h
  | cons e rest ih =>
    obtain ⟨k', d'⟩ := e
    by_cases he : k' = k
    · simp only [lookupProp, if_pos he] at h
      simp only [List.cons_append, lookupProp, if_pos he]
      exact h
    · simp only [lookupProp, if_neg he] at h
      simp only [List.cons_append, lookupProp, if_neg he]
      exact ih h

theorem lookupProp_of_get_nodup {l : List (String × PropDesc)} {n : Nat}
    {k : String} {d : PropDesc} (hnd : (l.map Prod.fst).Nodup)
    (hg : l.get? n = some (k, d)) : lookupProp l k = some d := by
  induction l generalizing n with
  | nil => simp at hg
  | cons e rest ih =>
    obtain ⟨k', d'⟩ := e
    match n with
    | 0 =>
      simp only [List.get?] at hg
      obtain ⟨rfl, rfl⟩ : k' = k ∧ d' = d := by
        simpa [Prod.ext_iff] using hg
      simp [lookupProp]
    | n+1 =>
      simp only [List.get?] at hg
      have hk : k ∈ rest.map Prod.fst := by
        have := List.get?_mem hg
        exact List.mem_map.mpr ⟨(k, d), this, rfl⟩
      have hne : k' ≠ k := by
        intro hcon
        rw [List.map_cons, List.nodup_cons] at hnd
        exact hnd.1 (hcon ▸ hk)
      simp only [lookupProp, if_neg hne]
      exact ih (by rw [List.map_cons, List.nodup_cons] at hnd; exact hnd.2) hg

/-- One step of `get` at positive fuel on a memo hit. -/
theorem getRec_memo_hit (reg : List (String × Value))
    (data : List (Option Record)) {fuel : Nat} (hf : 1 ≤ fuel) (st : DSt)
    {i : Nat} {w : Value} (h : findElem st.indexMap i = some w) :
    getRec reg data fuel st i = some (.ok (w, st)) := by
  obtain ⟨f, rfl⟩ : ∃ f, fuel = f + 1 := ⟨fuel - 1, by omega⟩
  unfold getRec
  rw [h]

/-- `get` never returns anything but the stored primitive for an index
whose slot is a primitive record. -/
theorem getRec_prim_faithful (reg : List (String × Value))
    (data : List (Option Record)) (fuel : Nat) (st : DSt) (j : Nat)
    (v : Value) (st' : DSt) (hinv : DInv data st)
    (hget : getRec reg data fuel st j = some (.ok (v, st')))
    (p : Prim) (hslot : data.get? j = some (some (.primitive p))) :
    v = .prim p := by
  match fuel with
  | 0 => simp [getRec] at hget
  | fuel+1 =>
    unfold getRec at hget
    cases hfind : findElem st.indexMap j with
    | some w =>
      rw [hfind] at hget
      simp only [Option.some.injEq, Except.ok.injEq, Prod.mk.injEq] at hget
      have hmem := findElem_mem hfind
      have hwp : w = Value.prim p := hinv.memoPrim _ hmem p (by simpa using hslot)
      rw [← hget.1, hwp]
    | none =>
      rw [hfind, hslot] at hget
      simp only [Option.some.injEq, Except.ok.injEq, Prod.mk.injEq] at hget
      exact hget.1.symm

/-! ### Property-list and cell-shape algebra -/

theorem withProps_own (cell : HObj) : withProps cell (ownPropsOf cell) = cell := by
  cases cell <;> rfl

theorem withProps_withProps (cell : HObj) (ps1 ps2 : List (String × PropDesc)) :
    withProps (withProps cell ps1) ps2 = withProps cell ps2 := by
  cases cell <;> rfl

theorem settable_withProps (cell : HObj) (ps : List (String × PropDesc)) :
    settableCell (some (withProps cell ps)) = settableCell (some cell) := by
  cases cell <;> rfl

theorem ownPropsOf_withProps (cell : HObj) (ps : List (String × PropDesc))
    (hs : settableCell (some cell) = true) : ownPropsOf (withProps cell ps) = ps := by
  cases cell <;> first | rfl | simp [settableCell] at hs

theorem assocSet_lookup_self (props : List (String × PropDesc)) (k : String)
    (d : PropDesc) : lookupProp (assocSet props k d) k = some d := by
  induction props with
  | nil => simp [assocSet, lookupProp]
  | cons e rest ih =>
    obtain ⟨k0, d0⟩ := e
    by_cases he : k0 = k
    · simp [assocSet, if_pos he, lookupProp]
    · simp only [assocSet, if_neg he, lookupProp, if_neg he]
      exact ih

theorem assocSet_lookup_ne (props : List (String × PropDesc)) {k k' : String}
    (d : PropDesc) (hne : k ≠ k') :
    lookupProp (assocSet props k d) k' = lookupProp props k' := by
  induction props with
  | nil => simp [assocSet, lookupProp, if_neg hne]
  | cons e rest ih =>
    obtain ⟨k0, d0⟩ := e
    by_cases he : k0 = k
    · subst he
      simp [assocSet, lookupProp, hne]
    · simp only [assocSet, if_neg he, lookupProp]
      by_cases h0 : k0 = k'
      · simp [if_pos h0]
      · simp only [if_neg h0]
        exact ih

theorem setPropH_none {h : List HObj} {a : Nat} (k : String) (d : PropDesc)
    (hc : h.get? a = none) : setPropH h a k d = h := by
  unfold setPropH
  rw [hc]

theorem ownProp_setPropH_ne {h : List HObj} {a : Nat} {k k' : String}
    (d : PropDesc) (hne : k ≠ k') :
    ownProp (setPropH h a k d) a k' = ownProp h a k' := by
  cases hc : h.get? a with
  | none => rw [setPropH_none k d hc]
  | some cell =>
    have h1 : ownProp (setPropH h a k d) a k' =
        lookupProp (ownPropsOf (if settableCell (some cell) then
          withProps cell (assocSet (ownPropsOf cell) k d) else cell)) k' := by
      unfold ownProp
      rw [setPropH_at k d hc]
    have h2 : ownProp h a k' = lookupProp (ownPropsOf cell) k' := by
      unfold ownProp
      rw [hc]
    rw [h1, h2]
    by_cases hs : settableCell (some cell) = true
    · rw [if_pos hs, ownPropsOf_withProps cell _ hs, assocSet_lookup_ne _ d hne]
    · rw [if_neg hs]

theorem ownProp_setPropH_self {h : List HObj} {a : Nat} {cell : HObj} (k : String)
    (d : PropDesc) (hc : h.get? a = some cell)
    (hs : settableCell (some cell) = true) :
    ownProp (setPropH h a k d) a k = some d := by
  have h1 : ownProp (setPropH h a k d) a k =
      lookupProp (ownPropsOf (if settableCell (some cell) then
        withProps cell (assocSet (ownPropsOf cell) k d) else cell)) k := by
    unfold ownProp
    rw [setPropH_at k d hc]
  rw [h1, if_pos hs, ownPropsOf_withProps cell _ hs, assocSet_lookup_self]

theorem DInv_heap {data : List (Option Record)} {st : DSt} (hinv : DInv data st)
    (h' : List HObj) : DInv data ⟨st.indexMap, h'⟩ :=
  ⟨fun e he => hinv.idxRange e he, fun e he => hinv.memoPrim e he⟩

/-! ### Totality of the decoder's loop helpers -/

/-- `resolveField` on an in-range optional index: total, extending, and
pinned down on absence, on the truthiness-skipped index `0`, on a memo
hit, and on a primitive slot. -/
theorem resolveField_total {data : List (Option Record)} {getC : GetC} {U0 : Nat}
    (hg : GSpecD data getC U0) (st : DSt) (oi : Option Nat)
    (hoi : ∀ j, oi = some j → j < data.length)
    (hinv : DInv data st) (hu : unmemoCount data st ≤ U0) :
    ∃ o st', resolveField getC st oi = some (.ok (o, st')) ∧ DInv data st' ∧
      DExt st st' ∧ unmemoCount data st' ≤ U0 ∧
      (oi = none → o = none ∧ st' = st) ∧
      (oi = some 0 → o = some (.prim (.num 0)) ∧ st' = st) ∧
      (∀ j, oi = some j → j ≠ 0 →
        (∀ x, findElem st.indexMap j = some x → o = some x ∧ st' = st) ∧
        (∀ p, data.get? j = some (some (.primitive p)) → o = some (.prim p))) := by
  cases oi with
  | none =>
    refine ⟨none, st, rfl, hinv, DExt_refl st, hu, fun _ => ⟨rfl, rfl⟩, ?_, ?_⟩
    · intro h
      exact absurd h (by simp)
    · intro j hj
      exact absurd hj (by simp)
  | some j =>
    by_cases hj0 : j = 0
    · subst hj0
      refine ⟨some (.prim (.num 0)), st, rfl, hinv, DExt_refl st, hu,
        ?_, fun _ => ⟨rfl, rfl⟩, ?_⟩
      · intro h
        exact absurd h (by simp)
      · intro j' hj' hne
        injection hj' with hjj
        exact absurd hjj.symm hne
    · have hjlen := hoi j rfl
      obtain ⟨v, st', hgc, hinv', hext, hu'⟩ := hg.2.1 st j hjlen hinv hu
      refine ⟨some v, st', ?_, hinv', hext, hu', ?_, ?_, ?_⟩
      · simp only [resolveField, if_neg hj0, hgc, dbind]
      · intro h
        exact absurd h (by simp)
      · intro h
        injection h with h0
        exact absurd h0 hj0
      · intro j' hj' hne
        injection hj' with hjj
        subst hjj
        constructor
        · intro x hx
          have hcomb := hgc
          rw [hg.1 st j x hx] at hcomb
          simp only [Option.some.injEq, Except.ok.injEq, Prod.mk.injEq] at hcomb
          exact ⟨by rw [hcomb.1], hcomb.2.symm⟩
        · intro p hp
          rw [hg.2.2 st j v st' hinv hgc p hp]

/-- The element loop of the array branch: total on in-range indices,
local to the array cell it fills, and the appended elements are pinned
down for memoized and primitive references. -/
theorem getElems_total {data : List (Option Record)} {getC : GetC} {U0 : Nat}
    (hg : GSpecD data getC U0) :
    ∀ (refs : List Nat) (a : Nat) (st : DSt),
    (∀ j ∈ refs, j < data.length) → a < st.heap.length →
    DInv data st → unmemoCount data st ≤ U0 →
    ∃ st', getElems getC refs a st = some (.ok st') ∧ DInv data st' ∧
      DExtAt a st st' ∧ unmemoCount data st' ≤ U0 ∧
      ∀ acc, st.heap.get? a = some (.arr acc) →
        ∃ vs, st'.heap.get? a = some (.arr (acc ++ vs)) ∧
          vs.length = refs.length ∧
          ∀ n j, refs.get? n = some j →
            ∃ w, vs.get? n = some w ∧
              (∀ x, findElem st.indexMap j = some x → w = x) ∧
              (∀ p, data.get? j = some (some (.primitive p)) → w = .prim p) := by
  intro refs
  induction refs with
  | nil =>
    intro a st _ _ hinv hu
    refine ⟨st, rfl, hinv, DExtAt_refl a st, hu, ?_⟩
    intro acc hacc
    exact ⟨[], by simpa using hacc, rfl, fun n j hj => nomatch hj⟩
  | cons r rest ih =>
    intro a st hrefs ha hinv hu
    obtain ⟨w, stg, hgc, hinvg, hextg, hug⟩ :=
      hg.2.1 st r (hrefs r (List.mem_cons_self _ _)) hinv hu
    have hag : a < stg.heap.length := lt_of_lt_of_le ha hextg.2.1
    obtain ⟨st', hEq, hinv', hext', hu', hcontent⟩ :=
      ih a { stg with heap := appendElemH stg.heap a w }
        (fun j hj => hrefs j (List.mem_cons_of_mem _ hj))
        (by simpa [appendElemH_length] using hag)
        (DInv_heap hinvg _) hug
    refine ⟨st', ?_, hinv', ?_, hu', ?_⟩
    · simp only [getElems, hgc, dbind]
      exact hEq
    · refine DExtAt_trans (DExt_to_at a hextg) (DExtAt_trans ?_ hext')
      exact ⟨⟨[], by simp⟩, le_of_eq (appendElemH_length _ _ _).symm,
        fun b hb hba => appendElemH_get_ne _ _ hba⟩
    · intro acc hacc
      have haccg : stg.heap.get? a = some (.arr acc) := by
        rw [hextg.2.2 a ha]
        exact hacc
      have hacc1 : (appendElemH stg.heap a w).get? a = some (.arr (acc ++ [w])) :=
        appendElemH_at_arr w haccg
      obtain ⟨vs, hvs, hlen, hpt⟩ := hcontent (acc ++ [w]) hacc1
      refine ⟨w :: vs, by simpa [List.append_assoc] using hvs, by simp [hlen], ?_⟩
      intro n j hj
      match n with
      | 0 =>
        have hj0 : r = j := by simpa using hj
        refine ⟨w, rfl, ?_, ?_⟩
        · intro x hx
          rw [← hj0] at hx
          have hcomb := hgc
          rw [hg.1 st r x hx] at hcomb
          simp only [Option.some.injEq, Except.ok.injEq, Prod.mk.injEq] at hcomb
          exact hcomb.1.symm
        · intro p hp
          rw [← hj0] at hp
          exact hg.2.2 st r w stg hinv hgc p hp
      | n+1 =>
        simp only [List.get?] at hj
        obtain ⟨w', hw', hmemo', hprim'⟩ := hpt n j hj
        refine ⟨w', by simpa using hw', ?_, hprim'⟩
        intro x hx
        apply hmemo'
        show findElem (stg.indexMap) j = some x
        obtain ⟨ext, hext⟩ := hextg.1
        rw [hext]
        exact findElem_append_some hx

/-- The `refs` loop of `deserializeProperties`: total on in-range
indices, local to the target cell, shape-preserving on the target cell,
and on a plain object cell with fresh, distinct keys the installed
property list is pinned down. -/
theorem assignProps_total {data : List (Option Record)} {getC : GetC} {U0 : Nat}
    (hg : GSpecD data getC U0) :
    ∀ (refs : List (String × Nat)) (a : Nat) (st : DSt),
    (∀ kj ∈ refs, kj.2 < data.length) → a < st.heap.length →
    DInv data st → unmemoCount data st ≤ U0 →
    ∃ st', assignProps getC refs a st = some (.ok st') ∧ DInv data st' ∧
      DExtAt a st st' ∧ unmemoCount data st' ≤ U0 ∧
      (∀ cell, st.heap.get? a = some cell →
        ∃ ps, st'.heap.get? a = some (withProps cell ps)) ∧
      ((refs.map Prod.fst).Nodup →
        ∀ pr props0, st.heap.get? a = some (.obj pr props0) →
        (∀ k ∈ refs.map Prod.fst, lookupProp props0 k = none) →
        ∃ ws, st'.heap.get? a = some (.obj pr (props0 ++ ws)) ∧
          ws.length = refs.length ∧
          ∀ n k j, refs.get? n = some (k, j) →
            ∃ w, ws.get? n = some (k, .data w true true true) ∧
              (∀ x, findElem st.indexMap j = some x → w = x) ∧
              (∀ p, data.get? j = some (some (.primitive p)) → w = .prim p)) := by
  intro refs
  induction refs with
  | nil =>
    intro a st _ _ hinv hu
    refine ⟨st, rfl, hinv, DExtAt_refl a st, hu, ?_, ?_⟩
    · intro cell hc
      exact ⟨ownPropsOf cell, by rw [withProps_own]; exact hc⟩
    · intro _ pr props0 hc _
      exact ⟨[], by simpa using hc, rfl, fun n k j hj => nomatch hj⟩
  | cons kr rest ih =>
    obtain ⟨k, r⟩ := kr
    intro a st hrefs ha hinv hu
    obtain ⟨w, stg, hgc, hinvg, hextg, hug⟩ :=
      hg.2.1 st r (hrefs (k, r) (List.mem_cons_self _ _)) hinv hu
    have hag : a < stg.heap.length := lt_of_lt_of_le ha hextg.2.1
    obtain ⟨st', hEq, hinv', hext', hu', hshape, hexact⟩ :=
      ih a { stg with heap := setPropH stg.heap a k (.data w true true true) }
        (fun kj hkj => hrefs kj (List.mem_cons_of_mem _ hkj))
        (by simpa [setPropH_length] using hag)
        (DInv_heap hinvg _) hug
    refine ⟨st', ?_, hinv', ?_, hu', ?_, ?_⟩
    · simp only [assignProps, hgc, dbind]
      exact hEq
    · refine DExtAt_trans (DExt_to_at a hextg) (DExtAt_trans ?_ hext')
      exact ⟨⟨[], by simp⟩, le_of_eq (setPropH_length _ _ _ _).symm,
        fun b hb hba => setPropH_get_ne _ _ _ hba⟩
    · intro cell hc
      have hcg : stg.heap.get? a = some cell := by
        rw [hextg.2.2 a ha]
        exact hc
      have hc1 := setPropH_at k (.data w true true true) hcg
      by_cases hs : settableCell (some cell) = true
      · rw [if_pos hs] at hc1
        obtain ⟨ps, hps⟩ := hshape _ hc1
        exact ⟨ps, by rw [hps, withProps_withProps]⟩
      · rw [if_neg hs] at hc1
        exact hshape cell hc1
    · intro hnd pr props0 hc hfresh
      have hndrest : (rest.map Prod.fst).Nodup := by
        rw [List.map_cons, List.nodup_cons] at hnd
        exact hnd.2
      have hknotin : k ∉ rest.map Prod.fst := by
        rw [List.map_cons, List.nodup_cons] at hnd
        exact hnd.1
      have hcg : stg.heap.get? a = some (.obj pr props0) := by
        rw [hextg.2.2 a ha]
        exact hc
      have hlk : lookupProp props0 k = none :=
        hfresh k (by simp)
      have hc1 : (setPropH stg.heap a k (.data w true true true)).get? a =
          some (.obj pr (props0 ++ [(k, .data w true true true)])) := by
        rw [setPropH_at k (.data w true true true) hcg]
        simp only [settableCell, withProps, ownPropsOf, if_true]
        rw [assocSet_fresh _ hlk]
      have hfresh1 : ∀ k' ∈ rest.map Prod.fst,
          lookupProp (props0 ++ [(k, PropDesc.data w true true true)]) k' = none := by
        intro k' hk'
        have hne : k ≠ k' := fun hcon => hknotin (hcon ▸ hk')
        rw [lookupProp_append_right (hfresh k' (List.mem_cons_of_mem _ hk'))]
        simp [lookupProp, if_neg hne]
      obtain ⟨ws', hws', hlen', hpt'⟩ :=
        hexact hndrest pr (props0 ++ [(k, .data w true true true)]) hc1 hfresh1
      refine ⟨(k, .data w true true true) :: ws',
        by simpa [List.append_assoc] using hws', by simp [hlen'], ?_⟩
      intro n k' j hj
      match n with
      | 0 =>
        have hj0 : k = k' ∧ r = j := by
          simpa [Prod.ext_iff] using hj
        obtain ⟨hk0, hr0⟩ := hj0
        refine ⟨w, by rw [← hk0]; rfl, ?_, ?_⟩
        · intro x hx
          rw [← hr0] at hx
          have hcomb := hgc
          rw [hg.1 st r x hx] at hcomb
          simp only [Option.some.injEq, Except.ok.injEq, Prod.mk.injEq] at hcomb
          exact hcomb.1.symm
        · intro p hp
          rw [← hr0] at hp
          exact hg.2.2 st r w stg hinv hgc p hp
      | n+1 =>
        simp only [List.get?] at hj
        obtain ⟨w', hw', hmemo', hprim'⟩ := hpt' n k' j hj
        refine ⟨w', by simpa using hw', ?_, hprim'⟩
        intro x hx
        apply hmemo'
        show findElem (stg.indexMap) j = some x
        obtain ⟨ext, hext⟩ := hextg.1
        rw [hext]
        exact findElem_append_some hx

theorem FieldPin_mono {data : List (Option Record)} {st st' : DSt}
    {oi : Option Nat} {o : Option Value}
    (hext : ∃ ext, st'.indexMap = st.indexMap ++ ext)
    (h : FieldPin data st' oi o) : FieldPin data st oi o := by
  obtain ⟨e, he⟩ := hext
  refine ⟨h.1, h.2.1, ?_⟩
  intro j hj hj0
  refine ⟨?_, (h.2.2 j hj hj0).2⟩
  intro x hx
  exact (h.2.2 j hj hj0).1 x (by rw [he]; exact findElem_append_some hx)

theorem ownProp_DExt {st st' : DSt} (hext : DExt st st') {a : Nat}
    (ha : a < st.heap.length) (k : String) :
    ownProp st'.heap a k = ownProp st.heap a k := by
  unfold ownProp
  rw [hext.2.2 a ha]

/-- The `descriptions` loop of `deserializeProperties`: total on
in-range indices, local to the target cell, shape-preserving on it,
untouched keys preserved, and the descriptor installed for each listed
key pinned down through `parsedToDesc` and `FieldPin`. -/
theorem defineProps_total {data : List (Option Record)} {getC : GetC} {U0 : Nat}
    (hg : GSpecD data getC U0) :
    ∀ (descs : List (String × SDesc)) (a : Nat) (st : DSt),
    (∀ kd ∈ descs, sdIdxOK data.length kd.2) → a < st.heap.length →
    DInv data st → unmemoCount data st ≤ U0 →
    ∃ st', defineProps getC descs a st = some (.ok st') ∧ DInv data st' ∧
      DExtAt a st st' ∧ unmemoCount data st' ≤ U0 ∧
      (∀ cell, st.heap.get? a = some cell →
        ∃ ps, st'.heap.get? a = some (withProps cell ps)) ∧
      (∀ k', k' ∉ descs.map Prod.fst →
        ownProp st'.heap a k' = ownProp st.heap a k') ∧
      ((descs.map Prod.fst).Nodup → settableCell (st.heap.get? a) = true →
        ∀ k sd, (k, sd) ∈ descs →
          ∃ g s o, ownProp st'.heap a k =
            some (parsedToDesc g s o sd.configurable sd.writable? sd.enumerable) ∧
            FieldPin data st sd.get? g ∧ FieldPin data st sd.set? s ∧
            FieldPin data st sd.value? o) := by
  intro descs
  induction descs with
  | nil =>
    intro a st _ _ hinv hu
    refine ⟨st, rfl, hinv, DExtAt_refl a st, hu, ?_, fun k' _ => rfl, ?_⟩
    · intro cell hc
      exact ⟨ownPropsOf cell, by rw [withProps_own]; exact hc⟩
    · intro _ _ k sd hk
      exact absurd hk (by simp)
  | cons ksd rest ih =>
    obtain ⟨k, sd⟩ := ksd
    intro a st hdescs ha hinv hu
    have hkd := hdescs (k, sd) (List.mem_cons_self _ _)
    obtain ⟨g, st1, hrf1, hinv1, hext1, hu1, hn1, hz1, hj1⟩ :=
      resolveField_total hg st sd.get? (fun j hj => hkd.1 j hj) hinv hu
    obtain ⟨s, st2, hrf2, hinv2, hext2, hu2, hn2, hz2, hj2⟩ :=
      resolveField_total hg st1 sd.set? (fun j hj => hkd.2.1 j hj) hinv1 hu1
    obtain ⟨o, st3, hrf3, hinv3, hext3, hu3, hn3, hz3, hj3⟩ :=
      resolveField_total hg st2 sd.value? (fun j hj => hkd.2.2 j hj) hinv2 hu2
    have hext13 : DExt st1 st3 := DExt_trans hext2 hext3
    have hext03 : DExt st st3 := DExt_trans hext1 hext13
    have ha3 : a < st3.heap.length := lt_of_lt_of_le ha hext03.2.1
    have hping : FieldPin data st sd.get? g :=
      ⟨fun h => (hn1 h).1, fun h => (hz1 h).1,
        fun j hj hj0 => ⟨fun x hx => ((hj1 j hj hj0).1 x hx).1, (hj1 j hj hj0).2⟩⟩
    have hpins : FieldPin data st sd.set? s :=
      FieldPin_mono hext1.1
        ⟨fun h => (hn2 h).1, fun h => (hz2 h).1,
          fun j hj hj0 => ⟨fun x hx => ((hj2 j hj hj0).1 x hx).1, (hj2 j hj hj0).2⟩⟩
    have hpino : FieldPin data st sd.value? o :=
      FieldPin_mono (DExt_trans hext1 hext2).1
        ⟨fun h => (hn3 h).1, fun h => (hz3 h).1,
          fun j hj hj0 => ⟨fun x hx => ((hj3 j hj hj0).1 x hx).1, (hj3 j hj hj0).2⟩⟩
    set d := parsedToDesc g s o sd.configurable sd.writable? sd.enumerable with hd
    obtain ⟨st', hEq, hinv', hext', hu', hshape, huntouched, hpinned⟩ :=
      ih a { st3 with heap := setPropH st3.heap a k d }
        (fun kd hkd2 => hdescs kd (List.mem_cons_of_mem _ hkd2))
        (by simpa [setPropH_length] using ha3)
        (DInv_heap hinv3 _) hu3
    have hstep : DExtAt a st3 ⟨st3.indexMap, setPropH st3.heap a k d⟩ :=
      ⟨⟨[], by simp⟩, le_of_eq (setPropH_length _ _ _ _).symm,
        fun b hb hba => setPropH_get_ne _ _ _ hba⟩
    refine ⟨st', ?_, hinv', ?_, hu', ?_, ?_, ?_⟩
    · simp only [defineProps, hrf1, hrf2, hrf3, dbind]
      exact hEq
    · exact DExtAt_trans (DExt_to_at a hext03) (DExtAt_trans hstep hext')
    · intro cell hc
      have hc3 : st3.heap.get? a = some cell := by
        rw [hext03.2.2 a ha]
        exact hc
      have hc4 := setPropH_at k d hc3
      by_cases hs : settableCell (some cell) = true
      · rw [if_pos hs] at hc4
        obtain ⟨ps, hps⟩ := hshape _ hc4
        exact ⟨ps, by rw [hps, withProps_withProps]⟩
      · rw [if_neg hs] at hc4
        exact hshape cell hc4
    · intro k' hk'
      have hkne : k ≠ k' := by
        intro hcon
        exact hk' (by simp [← hcon])
      have hknotrest : k' ∉ rest.map Prod.fst := by
        intro hcon
        exact hk' (by simp [hcon])
      rw [huntouched k' hknotrest]
      show ownProp (setPropH st3.heap a k d) a k' = ownProp st.heap a k'
      rw [ownProp_setPropH_ne d hkne, ownProp_DExt hext03 ha]
    · intro hnd hsett k0 sd0 hk0
      have hndrest : (rest.map Prod.fst).Nodup := by
        rw [List.map_cons, List.nodup_cons] at hnd
        exact hnd.2
      have hknotin : k ∉ rest.map Prod.fst := by
        rw [List.map_cons, List.nodup_cons] at hnd
        exact hnd.1
      obtain ⟨cell, hcell, hsc⟩ : ∃ cell, st.heap.get? a = some cell ∧
          settableCell (some cell) = true := by
        cases hc : st.heap.get? a with
        | none => rw [hc] at hsett; simp [settableCell] at hsett
        | some cell => rw [hc] at hsett; exact ⟨cell, rfl, hsett⟩
      have hc3 : st3.heap.get? a = some cell := by
        rw [hext03.2.2 a ha]
        exact hcell
      have hc4 : (setPropH st3.heap a k d).get? a =
          some (withProps cell (assocSet (ownPropsOf cell) k d)) := by
        rw [setPropH_at k d hc3, if_pos hsc]
      rcases List.mem_cons.mp hk0 with hhead | htail
      · have hk0k : k0 = k := congrArg Prod.fst hhead
        have hsd0 : sd0 = sd := congrArg Prod.snd hhead
        refine ⟨g, s, o, ?_, by rw [hsd0]; exact hping,
          by rw [hsd0]; exact hpins, by rw [hsd0]; exact hpino⟩
        rw [hk0k, hsd0, huntouched k hknotin]
        show ownProp (setPropH st3.heap a k d) a k = some d
        exact ownProp_setPropH_self k d hc3 hsc
      · have hsett4 : settableCell
            ((⟨st3.indexMap, setPropH st3.heap a k d⟩ : DSt).heap.get? a) = true := by
          show settableCell ((setPropH st3.heap a k d).get? a) = true
          rw [hc4, settable_withProps]
          exact hsc
        obtain ⟨g', s', o', hown', hpg', hps', hpo'⟩ :=
          hpinned hndrest hsett4 k0 sd0 htail
        have hmono : ∃ ext, (⟨st3.indexMap, setPropH st3.heap a k d⟩ : DSt).indexMap =
            st.indexMap ++ ext := by
          obtain ⟨e3, he3⟩ := hext03.1
          exact ⟨e3, he3⟩
        exact ⟨g', s', o', hown', FieldPin_mono hmono hpg',
          FieldPin_mono hmono hps', FieldPin_mono hmono hpo'⟩

/-! ### Totality of `get` on well-formed data -/

theorem decMeasure_le2 {Ux U0 R rj f : Nat} (hx : Ux ≤ U0) (hr : rj ≤ R)
    (hf : (U0 + 1) * (R + 1) ≤ f) : Ux * (R + 1) + rj + 1 ≤ f := by
  have h1 : Ux * (R + 1) ≤ U0 * (R + 1) := Nat.mul_le_mul_right _ hx
  have h3 : (U0 + 1) * (R + 1) = U0 * (R + 1) + (R + 1) := Nat.succ_mul _ _
  omega

theorem DExt_push (st : DSt) (v : Value) (i : Nat) : DExt st (pushD st v i) :=
  ⟨⟨[(v, i)], rfl⟩, le_refl _, fun _ _ => rfl⟩

theorem DExt_alloc (st : DSt) (o : HObj) : DExt st (allocD st o) :=
  ⟨⟨[], by simp [allocD]⟩, by simp [allocD], fun b hb => List.get?_append hb⟩

theorem DExt_comp_at {st st2 st4 : DSt} {X : Nat} (h12 : DExt st st2)
    (hX : st.heap.length ≤ X) (h24 : DExtAt X st2 st4) : DExt st st4 := by
  obtain ⟨⟨e1, he1⟩, hl1, hc1⟩ := h12
  obtain ⟨⟨e2, he2⟩, hl2, hc2⟩ := h24
  refine ⟨⟨e1 ++ e2, by rw [he2, he1, List.append_assoc]⟩, le_trans hl1 hl2, ?_⟩
  intro b hb
  rw [hc2 b (lt_of_lt_of_le hb hl1) (by omega), hc1 b hb]

theorem DInv_push {data : List (Option Record)} {st : DSt} (hinv : DInv data st)
    {v : Value} {i : Nat} (hi : i < data.length)
    (hp : ∀ p, data.get? i = some (some (.primitive p)) → v = .prim p) :
    DInv data (pushD st v i) := by
  constructor
  · intro e he
    rcases List.mem_append.mp he with h | h
    · exact hinv.idxRange e h
    · have : e = (v, i) := by simpa using h
      rw [this]
      exact hi
  · intro e he p hpe
    rcases List.mem_append.mp he with h | h
    · exact hinv.memoPrim e h p hpe
    · have he2 : e = (v, i) := by simpa using h
      rw [he2]
      exact hp p (by rw [← (by rw [he2] : e.2 = i)]; exact hpe)

/-- At one fuel level below a live call, `get` meets the helper
contract `GSpecD` at any unmemoized-count bound strictly below the
caller's. -/
theorem gspec_of_ih {reg : List (String × Value)} {data : List (Option Record)}
    {rnk : Nat → Nat} {R : Nat} (hwf : DataWF reg data rnk R) (fuel : Nat)
    (ih : ∀ (st : DSt) (i : Nat), i < data.length → DInv data st →
      unmemoCount data st * (R + 1) + rnk i + 1 ≤ fuel →
      ∃ v st', getRec reg data fuel st i = some (.ok (v, st')) ∧
        DInv data st' ∧ DExt st st')
    (U0 : Nat) (hfu : (U0 + 1) * (R + 1) ≤ fuel) :
    GSpecD data (getRec reg data fuel) U0 := by
  have hf1 : 1 ≤ fuel :=
    le_trans (Nat.mul_pos (Nat.succ_pos U0) (Nat.succ_pos R)) hfu
  refine ⟨?_, ?_, ?_⟩
  · intro st j w hw
    exact getRec_memo_hit reg data hf1 st hw
  · intro st j hj hinv hu
    obtain ⟨v, st', hget, hinv', hext⟩ := ih st j hj hinv
      (decMeasure_le2 hu (hwf.rankBound j) hfu)
    exact ⟨v, st', hget, hinv', hext, le_trans (unmemo_mono hext.1) hu⟩
  · intro st j v st' hinv hget p hp
    exact getRec_prim_faithful reg data fuel st j v st' hinv hget p hp

/-- Decode totality: on well-formed data, `get` with fuel covering the
decode measure succeeds, preserves the invariant, and touches no
pre-existing heap cell. -/
theorem getRec_total {reg : List (String × Value)} {data : List (Option Record)}
    {rnk : Nat → Nat} {R : Nat} (hwf : DataWF reg data rnk R) :
    ∀ (fuel : Nat) (st : DSt) (i : Nat), i < data.length → DInv data st →
    unmemoCount data st * (R + 1) + rnk i + 1 ≤ fuel →
    ∃ v st', getRec reg data fuel st i = some (.ok (v, st')) ∧
      DInv data st' ∧ DExt st st' := by
  intro fuel
  induction fuel with
  | zero =>
    intro st i hi hinv hm
    omega
  | succ fuel ih =>
    intro st i hi hinv hm
    cases hfind : findElem st.indexMap i with
    | some w =>
      refine ⟨w, st, ?_, hinv, DExt_refl st⟩
      unfold getRec
      rw [hfind]
    | none =>
      obtain ⟨r, hslot⟩ := hwf.slotsFilled i hi
      have hUpos : 1 ≤ unmemoCount data st := unmemo_pos hi hfind
      have hfuel1 : unmemoCount data st * (R + 1) ≤ fuel := by
        have hr := hwf.rankBound i
        omega
      cases r with
      | primitive p =>
        refine ⟨.prim p, pushD st (.prim p) i, ?_, ?_, DExt_push st _ i⟩
        · unfold getRec
          rw [hfind, hslot]
        · refine DInv_push hinv hi ?_
          intro p' hp'
          rw [hslot] at hp'
          simp only [Option.some.injEq, Record.primitive.injEq] at hp'
          rw [hp']
      | unrecognized k =>
        exact absurd hslot (fun hc => hwf.kindsOK i k hc)
      | builtin n =>
        obtain ⟨b, hb⟩ := hwf.builtinsOK i n hslot
        refine ⟨b, pushD st b i, ?_, ?_, DExt_push st b i⟩
        · unfold getRec
          rw [hfind, hslot]
          show (match getBuiltinByName reg n with
            | none => some (Except.error (DErr.unknownBuiltin n))
            | some b => some (Except.ok (b, pushD st b i))) =
            some (Except.ok (b, pushD st b i))
          rw [hb]
        · refine DInv_push hinv hi ?_
          intro p' hp'
          rw [hslot] at hp'
          simp at hp'
      | date s =>
        refine ⟨.ref st.heap.length,
          pushD (allocD st (.date (parseDateJson s))) (.ref st.heap.length) i,
          ?_, ?_, ?_⟩
        · unfold getRec
          rw [hfind, hslot]
        · refine DInv_push (DInv_heap hinv _) hi ?_
          intro p' hp'
          rw [hslot] at hp'
          simp at hp'
        · exact DExt_trans (DExt_alloc st _) (DExt_push _ _ i)
      | regex s =>
        refine ⟨.ref st.heap.length,
          pushD (allocD st (.regex s)) (.ref st.heap.length) i, ?_, ?_, ?_⟩
        · unfold getRec
          rw [hfind, hslot]
        · refine DInv_push (DInv_heap hinv _) hi ?_
          intro p' hp'
          rw [hslot] at hp'
          simp at hp'
        · exact DExt_trans (DExt_alloc st _) (DExt_push _ _ i)
      | array refs =>
        have hrl : ∀ j ∈ refs, j < data.length := hwf.idxOK i _ hslot
        have hnotprim : ∀ p', data.get? i = some (some (.primitive p')) →
            Value.ref st.heap.length = .prim p' := by
          intro p' hp'
          rw [hslot] at hp'
          simp at hp'
        have hinv1 : DInv data
            (pushD (allocD st (.arr [])) (.ref st.heap.length) i) :=
          DInv_push (DInv_heap hinv _) hi hnotprim
        have hU1 : unmemoCount data
            (pushD (allocD st (.arr [])) (.ref st.heap.length) i) + 1 ≤
            unmemoCount data st :=
          unmemo_lt_of_push hi hfind
        have hfu : (unmemoCount data
            (pushD (allocD st (.arr [])) (.ref st.heap.length) i) + 1) *
            (R + 1) ≤ fuel :=
          le_trans (Nat.mul_le_mul_right _ hU1) hfuel1
        have hg := gspec_of_ih hwf fuel ih _ hfu
        have ha1 : st.heap.length <
            (pushD (allocD st (.arr [])) (.ref st.heap.length) i).heap.length := by
          show st.heap.length < (st.heap ++ [HObj.arr []]).length
          simp
        obtain ⟨st2, hEqE, hinv2, hext2, hu2, _⟩ :=
          getElems_total hg refs st.heap.length
            (pushD (allocD st (.arr [])) (.ref st.heap.length) i)
            hrl ha1 hinv1 (le_refl _)
        have e1 : getRec reg data (fuel+1) st i =
            dbind (getElems (getRec reg data fuel) refs st.heap.length
              (pushD (allocD st (.arr [])) (.ref st.heap.length) i))
              (fun st2 => some (.ok (.ref st.heap.length, st2))) := by
          unfold getRec
          rw [hfind, hslot]
        rw [hEqE, dbind_ok] at e1
        refine ⟨.ref st.heap.length, st2, e1, hinv2, ?_⟩
        exact DExt_comp_at
          (DExt_trans (DExt_alloc st _) (DExt_push _ _ i)) (le_refl _) hext2
      | object pIdx refs descs =>
        obtain ⟨hpl, hrl, hdl⟩ := hwf.idxOK i _ hslot
        have hmp : unmemoCount data st * (R + 1) + rnk pIdx + 1 ≤ fuel := by
          have hrk := hwf.rankOK i pIdx refs descs hslot
          omega
        obtain ⟨pv, stp, hgetp, hinvp, hextp⟩ := ih st pIdx hpl hinv hmp
        have hnotprim : ∀ p', data.get? i = some (some (.primitive p')) →
            Value.ref stp.heap.length = .prim p' := by
          intro p' hp'
          rw [hslot] at hp'
          simp at hp'
        have hinv2 : DInv data
            (pushD (allocD stp (.obj pv [])) (.ref stp.heap.length) i) :=
          DInv_push (DInv_heap hinvp _) hi hnotprim
        have hU2 : unmemoCount data
            (pushD (allocD stp (.obj pv [])) (.ref stp.heap.length) i) + 1 ≤
            unmemoCount data st := by
          cases hfp : findElem stp.indexMap i with
          | none =>
            have h1 := @unmemo_lt_of_push data (allocD stp (.obj pv []))
              (.ref stp.heap.length) i hi hfp
            have h2 : unmemoCount data (allocD stp (.obj pv [])) ≤
                unmemoCount data st := unmemo_mono hextp.1
            omega
          | some w =>
            have h1 : unmemoCount data stp < unmemoCount data st :=
              unmemo_lt_of_newmemo hextp.1 hi hfind hfp
            have h2 : unmemoCount data
                (pushD (allocD stp (.obj pv [])) (.ref stp.heap.length) i) ≤
                unmemoCount data stp :=
              unmemo_mono ⟨[(.ref stp.heap.length, i)], rfl⟩
            omega
        have hfu : (unmemoCount data
            (pushD (allocD stp (.obj pv [])) (.ref stp.heap.length) i) + 1) *
            (R + 1) ≤ fuel :=
          le_trans (Nat.mul_le_mul_right _ hU2) hfuel1
        have hg := gspec_of_ih hwf fuel ih _ hfu
        have ha2 : stp.heap.length <
            (pushD (allocD stp (.obj pv [])) (.ref stp.heap.length) i).heap.length := by
          show stp.heap.length < (stp.heap ++ [HObj.obj pv []]).length
          simp
        obtain ⟨st3, hEqA, hinv3, hext3, hu3, _, _⟩ :=
          assignProps_total hg refs stp.heap.length
            (pushD (allocD stp (.obj pv [])) (.ref stp.heap.length) i)
            hrl ha2 hinv2 (le_refl _)
        obtain ⟨st4, hEqD, hinv4, hext4, hu4, _, _, _⟩ :=
          defineProps_total hg descs stp.heap.length st3 hdl
            (lt_of_lt_of_le ha2 hext3.2.1) hinv3 hu3
        have e1 : getRec reg data (fuel+1) st i =
            dbind (getRec reg data fuel st pIdx) (fun p =>
              dbind (assignProps (getRec reg data fuel) refs p.2.heap.length
                  (pushD (allocD p.2 (.obj p.1 [])) (.ref p.2.heap.length) i))
                (fun st3 =>
                  dbind (defineProps (getRec reg data fuel) descs
                      p.2.heap.length st3)
                    (fun st4 => some (.ok (.ref p.2.heap.length, st4))))) := by
          conv_lhs => rw [getRec]
          rw [hfind, hslot]
        simp only [hgetp, dbind] at e1
        simp only [hEqA, dbind] at e1
        simp only [hEqD, dbind] at e1
        refine ⟨.ref stp.heap.length, st4, e1, hinv4, ?_⟩
        have hA : DExt st (pushD (allocD stp (.obj pv []))
            (.ref stp.heap.length) i) :=
          DExt_trans hextp (DExt_trans (DExt_alloc stp _) (DExt_push _ _ i))
        exact DExt_comp_at hA (le_trans hextp.2.1 (le_refl _))
          (DExtAt_trans hext3 hext4)
      | function src cIdx pIdx refs descs =>
        obtain ⟨hcl, hpl, hrl, hdl⟩ := hwf.idxOK i _ hslot
        have hnotprim : ∀ p', data.get? i = some (some (.primitive p')) →
            Value.ref st.heap.length = .prim p' := by
          intro p' hp'
          rw [hslot] at hp'
          simp at hp'
        have hinv1 : DInv data (pushD (allocD st
            (.thunk none (.prim .undef) [])) (.ref st.heap.length) i) :=
          DInv_push (DInv_heap hinv _) hi hnotprim
        have hU1 : unmemoCount data (pushD (allocD st
            (.thunk none (.prim .undef) [])) (.ref st.heap.length) i) + 1 ≤
            unmemoCount data st :=
          unmemo_lt_of_push hi hfind
        have hfu : (unmemoCount data (pushD (allocD st
            (.thunk none (.prim .undef) [])) (.ref st.heap.length) i) + 1) *
            (R + 1) ≤ fuel :=
          le_trans (Nat.mul_le_mul_right _ hU1) hfuel1
        have hg := gspec_of_ih hwf fuel ih _ hfu
        obtain ⟨cv, stc, hgetc, hinvc, hextc⟩ :=
          ih (pushD (allocD st (.thunk none (.prim .undef) []))
              (.ref st.heap.length) i) cIdx hcl hinv1
            (decMeasure_le2 (le_refl _) (hwf.rankBound cIdx) hfu)
        obtain ⟨qv, stq, hgetq, hinvq, hextq⟩ :=
          ih (allocD stc (.implFn (evalApplyFragment
              (closureFragment ((enumOwnDataProps stc.heap cv).map Prod.fst) src)
              ((enumOwnDataProps stc.heap cv).map Prod.fst) src
              ((enumOwnDataProps stc.heap cv).map Prod.snd)) (.prim .undef)))
            pIdx hpl (DInv_heap hinvc _)
            (decMeasure_le2 (le_trans (unmemo_mono hextc.1) (le_refl _))
              (hwf.rankBound pIdx) hfu)
        have hu6 : unmemoCount data (⟨stq.indexMap,
            setThunkH (setImplProtoH stq.heap stc.heap.length qv)
              st.heap.length (some (.ref stc.heap.length)) qv⟩ : DSt) ≤
            unmemoCount data (pushD (allocD st
              (.thunk none (.prim .undef) [])) (.ref st.heap.length) i) := by
          have h1 : unmemoCount data stq ≤ unmemoCount data stc :=
            unmemo_mono hextq.1
          have h2 : unmemoCount data stc ≤ unmemoCount data (pushD (allocD st
              (.thunk none (.prim .undef) [])) (.ref st.heap.length) i) :=
            unmemo_mono hextc.1
          exact le_trans (le_trans (le_refl _) h1) h2
        have hlen6 : st.heap.length < (⟨stq.indexMap,
            setThunkH (setImplProtoH stq.heap stc.heap.length qv)
              st.heap.length (some (.ref stc.heap.length)) qv⟩ : DSt).heap.length := by
          show st.heap.length <
            (setThunkH (setImplProtoH stq.heap stc.heap.length qv)
              st.heap.length (some (.ref stc.heap.length)) qv).length
          rw [setThunkH_length, setImplProtoH_length]
          have h1 : st.heap.length <
              (pushD (allocD st (.thunk none (.prim .undef) []))
                (.ref st.heap.length) i).heap.length := by
            show st.heap.length < (st.heap ++ [HObj.thunk none (.prim .undef) []]).length
            simp
          have h2 := hextc.2.1
          have h3 : stc.heap.length ≤ (allocD stc (.implFn (evalApplyFragment
              (closureFragment ((enumOwnDataProps stc.heap cv).map Prod.fst) src)
              ((enumOwnDataProps stc.heap cv).map Prod.fst) src
              ((enumOwnDataProps stc.heap cv).map Prod.snd)) (.prim .undef))).heap.length := by
            show stc.heap.length ≤ (stc.heap ++ [_]).length
            simp
          have h4 := hextq.2.1
          omega
        obtain ⟨st7, hEqA, hinv7, hext7, hu7, _, _⟩ :=
          assignProps_total hg refs st.heap.length
            (⟨stq.indexMap, setThunkH (setImplProtoH stq.heap stc.heap.length qv)
              st.heap.length (some (.ref stc.heap.length)) qv⟩ : DSt)
            hrl hlen6 (DInv_heap hinvq _) (le_trans hu6 (le_refl _))
        obtain ⟨st8, hEqD, hinv8, hext8, hu8, _, _, _⟩ :=
          defineProps_total hg descs st.heap.length st7 hdl
            (lt_of_lt_of_le hlen6 hext7.2.1) hinv7 hu7
        have e1 : getRec reg data (fuel+1) st i =
            dbind (getRec reg data fuel (pushD (allocD st
                (.thunk none (.prim .undef) [])) (.ref st.heap.length) i) cIdx)
              (fun c =>
                dbind (getRec reg data fuel (allocD c.2 (.implFn
                    (evalApplyFragment
                      (closureFragment ((enumOwnDataProps c.2.heap c.1).map Prod.fst) src)
                      ((enumOwnDataProps c.2.heap c.1).map Prod.fst) src
                      ((enumOwnDataProps c.2.heap c.1).map Prod.snd)) (.prim .undef)))
                  pIdx)
                  (fun q =>
                    dbind (assignProps (getRec reg data fuel) refs st.heap.length
                        (⟨q.2.indexMap, setThunkH (setImplProtoH q.2.heap
                          c.2.heap.length q.1) st.heap.length
                          (some (.ref c.2.heap.length)) q.1⟩ : DSt))
                      (fun st7 =>
                        dbind (defineProps (getRec reg data fuel) descs
                            st.heap.length st7)
                          (fun st8 => some (.ok (.ref st.heap.length, st8)))))) := by
          conv_lhs => rw [getRec]
          rw [hfind, hslot]
        simp only [hgetc, dbind] at e1
        simp only [hgetq, dbind] at e1
        simp only [hEqA, dbind] at e1
        simp only [hEqD, dbind] at e1
        refine ⟨.ref st.heap.length, st8, e1, hinv8, ?_⟩
        have hCq : DExt stc stq :=
          DExt_trans (DExt_alloc stc _) hextq
        have hC5 : DExt stc (⟨stq.indexMap,
            setImplProtoH stq.heap stc.heap.length qv⟩ : DSt) :=
          DExt_comp_at hCq (le_refl _)
            ⟨⟨[], by simp⟩, le_of_eq (setImplProtoH_length _ _ _).symm,
              fun b hb hba => setImplProtoH_get_ne _ _ hba⟩
        have hA : DExt st (⟨stq.indexMap,
            setImplProtoH stq.heap stc.heap.length qv⟩ : DSt) :=
          DExt_trans (DExt_trans (DExt_trans (DExt_alloc st _) (DExt_push _ _ i))
            hextc) hC5
        have hB : DExtAt st.heap.length (⟨stq.indexMap,
            setImplProtoH stq.heap stc.heap.length qv⟩ : DSt)
            (⟨stq.indexMap, setThunkH (setImplProtoH stq.heap stc.heap.length qv)
              st.heap.length (some (.ref stc.heap.length)) qv⟩ : DSt) :=
          ⟨⟨[], by simp⟩, le_of_eq (setThunkH_length _ _ _ _).symm,
            fun b hb hba => setThunkH_get_ne _ _ _ hba⟩
        exact DExt_comp_at hA (le_refl _)
          (DExtAt_trans hB (DExtAt_trans hext7 hext8))

theorem unmemo_nil (data : List (Option Record)) (h : List HObj) :
    unmemoCount data ⟨[], h⟩ = data.length := by
  unfold unmemoCount
  have he : (List.range data.length).filter
      (fun i => (findElem (⟨[], h⟩ : DSt).indexMap i).isNone) =
      List.range data.length :=
    List.filter_eq_self.mpr (fun a _ => rfl)
  rw [he, List.length_range]

theorem DInv_nil (data : List (Option Record)) (h : List HObj) :
    DInv data ⟨[], h⟩ :=
  ⟨fun e he => absurd he (List.not_mem_nil e),
    fun e he => absurd he (List.not_mem_nil e)⟩

/-- C7: decode raises an error exactly at the two conditions of source
lines 263-283 — a record whose kind is not one of the seven recognized
tags, or a builtin record whose name the registry does not resolve — and
a raised error is surfaced synchronously as the outcome of the decode
entry point, with no partial value: (1) on data that is fully slotted,
in-range, recognized, resolvable and prototype-ranked, a decode through
the wire boundary raises no error at all; (2) a root record with an
unrecognized kind yields exactly `unrecognizedKind`, and the decode
yields no root value and no final state; (3) a root builtin record whose
name is not in the registry yields exactly `unknownBuiltin`, likewise
with no partial value. -/
theorem c7_decode_errors (reg : List (String × Value)) (g : Graph)
    (h : List HObj) (rnk : Nat → Nat) (R : Nat) (fuel : Nat) :
    (DataWF reg g.data rnk R → g.rootIndex < g.data.length →
      g.data.length * (R + 1) + R + 1 ≤ fuel →
      ∃ v st', wireDecode reg fuel g h = some (.ok (v, st'))) ∧
    (∀ k, g.data.get? g.rootIndex = some (some (.unrecognized k)) →
      wireDecode reg (fuel+1) g h = some (.error (.unrecognizedKind k)) ∧
      decodedRoot (wireDecode reg (fuel+1) g h) = none ∧
      decodedSt (wireDecode reg (fuel+1) g h) = none) ∧
    (∀ n, g.data.get? g.rootIndex = some (some (.builtin n)) →
      getBuiltinByName reg n = none →
      wireDecode reg (fuel+1) g h = some (.error (.unknownBuiltin n)) ∧
      decodedRoot (wireDecode reg (fuel+1) g h) = none ∧
      decodedSt (wireDecode reg (fuel+1) g h) = none) := by
  refine ⟨?_, ?_, ?_⟩
  · intro hwf hroot hfuel
    have hm : unmemoCount g.data (⟨[], h⟩ : DSt) * (R + 1) +
        rnk g.rootIndex + 1 ≤ fuel := by
      rw [unmemo_nil]
      have hrb := hwf.rankBound g.rootIndex
      omega
    obtain ⟨v, st', hget, _, _⟩ :=
      getRec_total hwf fuel ⟨[], h⟩ g.rootIndex hroot (DInv_nil g.data h) hm
    exact ⟨v, st', hget⟩
  · intro k hk
    have hstep : wireDecode reg (fuel+1) g h =
        some (.error (.unrecognizedKind k)) := by
      show getRec reg g.data (fuel+1) ⟨[], h⟩ g.rootIndex =
        some (.error (.unrecognizedKind k))
      conv_lhs => rw [getRec]
      rw [show findElem ([] : List (Value × Nat)) g.rootIndex = none from rfl, hk]
    exact ⟨hstep, by rw [hstep]; rfl, by rw [hstep]; rfl⟩
  · intro n hn hb
    have hstep : wireDecode reg (fuel+1) g h =
        some (.error (.unknownBuiltin n)) := by
      show getRec reg g.data (fuel+1) ⟨[], h⟩ g.rootIndex =
        some (.error (.unknownBuiltin n))
      conv_lhs => rw [getRec]
      rw [show findElem ([] : List (Value × Nat)) g.rootIndex = none from rfl, hn]
      show (match getBuiltinByName reg n with
        | none => some (Except.error (DErr.unknownBuiltin n))
        | some b => some (Except.ok (b, pushD ⟨[], h⟩ b g.rootIndex))) =
        some (Except.error (DErr.unknownBuiltin n))
      rw [hb]
    exact ⟨hstep, by rw [hstep]; rfl, by rw [hstep]; rfl⟩

/-- C7 (witness): a one-slot primitive graph decodes without error; a
root record of kind `blob` raises exactly `unrecognizedKind "blob"`; a
root `Math` builtin against an empty registry raises exactly
`unknownBuiltin "Math"`. -/
theorem c7_decode_errors_witness :
    (∃ v st', wireDecode [] 10
      ({ rootIndex := 0, data := [some (.primitive (.num 5))],
         indexMap := [] } : Graph) [] = some (.ok (v, st'))) ∧
    wireDecode [] 10
      ({ rootIndex := 0, data := [some (.unrecognized "blob")],
         indexMap := [] } : Graph) [] =
      some (.error (.unrecognizedKind "blob")) ∧
    wireDecode [] 10
      ({ rootIndex := 0, data := [some (.builtin "Math")],
         indexMap := [] } : Graph) [] =
      some (.error (.unknownBuiltin "Math")) := by
  have hwf : DataWF [] [some (Record.primitive (.num 5))] (fun _ => 0) 0 := by
    refine ⟨?_, ?_, ?_, ?_, ?_, ?_⟩
    · intro i hi
      match i, hi with
      | 0, _ => exact ⟨.primitive (.num 5), rfl⟩
    · intro i r hr
      match i, r, hr with
      | 0, .primitive p, _ => trivial
    · intro i k hk
      match i, hk with
      | 0, hk => simp at hk
    · intro i n hn
      match i, hn with
      | 0, hn => simp at hn
    · intro i p refs descs hp
      match i, hp with
      | 0, hp => simp at hp
    · intro i
      exact le_refl 0
  refine ⟨?_, ?_, ?_⟩
  · exact (c7_decode_errors []
      ({ rootIndex := 0, data := [some (.primitive (.num 5))],
         indexMap := [] } : Graph) [] (fun _ => 0) 0 10).1 hwf
      (by decide) (by decide)
  · exact ((c7_decode_errors []
      ({ rootIndex := 0, data := [some (.unrecognized "blob")],
         indexMap := [] } : Graph) [] (fun _ => 0) 0 9).2.1 "blob" rfl).1
  · exact ((c7_decode_errors []
      ({ rootIndex := 0, data := [some (.builtin "Math")],
         indexMap := [] } : Graph) [] (fun _ => 0) 0 9).2.2 "Math" rfl rfl).1

/-! ### From the encoder's invariants to decoder-side well-formedness -/

theorem propsMapped_envProps {m : List (Value × Nat)} :
    ∀ (l : List (String × Value)) {refs : List (String × Nat)}
      {descs : List (String × SDesc)},
    PropsMapped m (envProps l) refs descs →
    "__closure" ∉ l.map Prod.fst →
    descs = [] ∧ refs.length = l.length ∧
      ∀ n kv, l.get? n = some kv →
        ∃ j, refs.get? n = some (kv.1, j) ∧ findIdx m kv.2 = some j := by
  intro l
  induction l with
  | nil =>
    intro refs descs h _
    have h' : refs = [] ∧ descs = [] := h
    exact ⟨h'.2, by rw [h'.1]; rfl, fun n kv hkv => by simp at hkv⟩
  | cons kv rest ih =>
    intro refs descs h hnc
    have hne : kv.1 ≠ "__closure" := by
      intro hcon
      exact hnc (by rw [← hcon]; exact List.mem_map.2 ⟨kv, List.mem_cons_self _ _, rfl⟩)
    have h2 : PropsMapped m ((kv.1, .data kv.2 true true true) :: envProps rest)
        refs descs := h
    unfold PropsMapped at h2
    rw [if_neg hne] at h2
    simp only [isTypical, Bool.and_self, if_true, dataValueOf] at h2
    obtain ⟨j, refs', hfj, hrefs, hrest⟩ := h2
    obtain ⟨hd, hl, hpt⟩ := ih hrest (fun hc => hnc (by
      obtain ⟨x, hx, hxe⟩ := List.mem_map.1 hc
      exact List.mem_map.2 ⟨x, List.mem_cons_of_mem _ hx, hxe⟩))
    refine ⟨hd, by rw [hrefs]; simp [hl], ?_⟩
    intro n kv' hkv'
    match n with
    | 0 =>
      have hk0 : kv' = kv := by
        have := hkv'
        simp at this
        exact this.symm
      rw [hrefs, hk0]
      exact ⟨j, rfl, hfj⟩
    | n+1 =>
      rw [hrefs]
      exact hpt n kv' (by simpa using hkv')

theorem optMapped_lt {m : List (Value × Nat)} {n : Nat} {ov : Option Value}
    {oi : Option Nat}
    (h : OptMapped m ov oi) (hidx : ∀ v j, findIdx m v = some j → j < n) :
    ∀ j, oi = some j → j < n := by
  intro j hj
  cases ov with
  | none =>
    have h' : oi = none := h
    rw [h'] at hj
    cases hj
  | some v =>
    obtain ⟨j', hf, he⟩ := h
    rw [he] at hj
    injection hj with hjj
    rw [← hjj]
    exact hidx v j' hf

theorem propsMapped_idx {m : List (Value × Nat)} {n : Nat} :
    ∀ (props : List (String × PropDesc)) {refs : List (String × Nat)}
      {descs : List (String × SDesc)},
    PropsMapped m props refs descs →
    (∀ v j, findIdx m v = some j → j < n) →
    (∀ kj ∈ refs, kj.2 < n) ∧ (∀ kd ∈ descs, sdIdxOK n kd.2) := by
  intro props
  induction props with
  | nil =>
    intro refs descs h _
    have h' : refs = [] ∧ descs = [] := h
    rw [h'.1, h'.2]
    exact ⟨fun kj hkj => absurd hkj (List.not_mem_nil _),
      fun kd hkd => absurd hkd (List.not_mem_nil _)⟩
  | cons kd0 rest ih =>
    intro refs descs h hidx
    obtain ⟨key, desc⟩ := kd0
    by_cases hk : key = "__closure"
    · have h2 : PropsMapped m rest refs descs := by
        have h3 : PropsMapped m ((key, desc) :: rest) refs descs := h
        unfold PropsMapped at h3
        rw [if_pos hk] at h3
        exact h3
      exact ih h2 hidx
    · by_cases ht : isTypical desc = true
      · have h2 : ∃ j refs', findIdx m (dataValueOf desc) = some j ∧
            refs = (key, j) :: refs' ∧ PropsMapped m rest refs' descs := by
          have h3 : PropsMapped m ((key, desc) :: rest) refs descs := h
          unfold PropsMapped at h3
          rw [if_neg hk, if_pos ht] at h3
          exact h3
        obtain ⟨j, refs', hfj, hrefs, hrest⟩ := h2
        obtain ⟨h1, hdl⟩ := ih hrest hidx
        rw [hrefs]
        refine ⟨?_, hdl⟩
        intro kj hkj
        rcases List.mem_cons.mp hkj with hh | hh
        · rw [hh]
          exact hidx _ j hfj
        · exact h1 kj hh
      · have h2 : ∃ sd descs', DescMapped m desc sd ∧
            descs = (key, sd) :: descs' ∧ PropsMapped m rest refs descs' := by
          have h3 : PropsMapped m ((key, desc) :: rest) refs descs := h
          unfold PropsMapped at h3
          rw [if_neg hk, if_neg ht] at h3
          exact h3
        obtain ⟨sd, descs', hdm, hdescs, hrest⟩ := h2
        obtain ⟨h1, hdl⟩ := ih hrest hidx
        rw [hdescs]
        refine ⟨h1, ?_⟩
        intro kd hkd
        rcases List.mem_cons.mp hkd with hh | hh
        · rw [hh]
          exact ⟨optMapped_lt hdm.1 hidx, optMapped_lt hdm.2.1 hidx,
            optMapped_lt hdm.2.2.1 hidx⟩
        · exact hdl kd hh

theorem cellRec_idxOK {op : Value} {st : GState} {cell : HObj} {r : Record}
    {n : Nat} (h : CellRec op st cell r)
    (hidx : ∀ v j, findIdx st.indexMap v = some j → j < n) : RecIdxOK n r := by
  cases cell with
  | arr elems =>
    obtain ⟨is, hr, hlen, hpt⟩ := h
    rw [hr]
    intro j hj
    obtain ⟨k, hk⟩ := List.mem_iff_get?.mp hj
    have hklt : k < elems.length := by
      rw [← hlen]
      exact get?_lt_length hk
    obtain ⟨v', hv'⟩ := exists_get? hklt
    obtain ⟨j', hj', hfj'⟩ := hpt k v' hv'
    rw [hk] at hj'
    injection hj' with hjj
    rw [hjj]
    exact hidx v' j' hfj'
  | obj proto props =>
    obtain ⟨pj, refs, descs, hr, hfp, hpm⟩ := h
    rw [hr]
    obtain ⟨h1, h2⟩ := propsMapped_idx props hpm hidx
    exact ⟨hidx proto pj hfp, h1, h2⟩
  | func fsrc env proto props =>
    obtain ⟨cj, pj, refs, descs, snapA, hr, hsnap, hfc, hfp, hpm⟩ := h
    rw [hr]
    obtain ⟨h1, h2⟩ := propsMapped_idx props hpm hidx
    exact ⟨hidx _ cj hfc, hidx proto pj hfp, h1, h2⟩
  | date t =>
    rw [h]
    trivial
  | regex s =>
    rw [h]
    trivial
  | thunk io pr props => exact h.elim
  | implFn impl pr => exact h.elim

theorem cellRec_kind {op : Value} {st : GState} {cell : HObj} {r : Record}
    (h : CellRec op st cell r) :
    (∀ k, r ≠ .unrecognized k) ∧ (∀ nm, r ≠ .builtin nm) ∧
      (∀ p, r ≠ .primitive p) := by
  cases cell with
  | arr elems =>
    obtain ⟨is, hr, _, _⟩ := h
    rw [hr]
    exact ⟨fun k => by simp, fun nm => by simp, fun p => by simp⟩
  | obj proto props =>
    obtain ⟨pj, refs, descs, hr, _, _⟩ := h
    rw [hr]
    exact ⟨fun k => by simp, fun nm => by simp, fun p => by simp⟩
  | func fsrc env proto props =>
    obtain ⟨cj, pj, refs, descs, snapA, hr, _, _, _, _⟩ := h
    rw [hr]
    exact ⟨fun k => by simp, fun nm => by simp, fun p => by simp⟩
  | date t =>
    rw [h]
    exact ⟨fun k => by simp, fun nm => by simp, fun p => by simp⟩
  | regex s =>
    rw [h]
    exact ⟨fun k => by simp, fun nm => by simp, fun p => by simp⟩
  | thunk io pr props => exact h.elim
  | implFn impl pr => exact h.elim

/-- Encoding the one-callable heap: the graph's root is a function
record holding the source text, a closure index leading to an object
record whose `refs` list the captured names in order against primitive
slots holding the captured values, a prototype index leading to a
`undefined` primitive slot, and no further properties; and every slot of
the graph is filled, in-range, recognized, non-builtin, with every
object slot's prototype slot primitive. -/
theorem c2_encode_shape (src : String) (env : List (String × Prim))
    (hnc : "__closure" ∉ env.map Prod.fst) :
    ∃ g h1, serializeTop [] (.prim .null) (encodeFuel (funcHeap src env))
        (funcHeap src env) (.ref 0) = some (g, h1) ∧
      ∃ cj pj pj2 refs2,
        g.data.get? g.rootIndex = some (some (.function src cj pj [] [])) ∧
        g.data.get? cj = some (some (.object pj2 refs2 [])) ∧
        g.data.get? pj = some (some (.primitive .undef)) ∧
        g.data.get? pj2 = some (some (.primitive .null)) ∧
        g.rootIndex < g.data.length ∧
        refs2.length = env.length ∧
        (∀ n kv, env.get? n = some kv →
          ∃ j, refs2.get? n = some (kv.1, j) ∧
            g.data.get? j = some (some (.primitive kv.2))) ∧
        (∀ i, i < g.data.length → ∃ r, g.data.get? i = some (some r)) ∧
        (∀ i r, g.data.get? i = some (some r) →
          RecIdxOK g.data.length r ∧ (∀ k, r ≠ .unrecognized k) ∧
          (∀ nm, r ≠ .builtin nm) ∧
          (∀ p rf ds, r = .object p rf ds →
            ∃ pr, g.data.get? p = some (some (.primitive pr)))) := by
  have h0len : (funcHeap src env).length = 1 := rfl
  have hwfh : WFHeap (funcHeap src env) := by
    intro a cell ha v hv b hvb
    match a, ha with
    | 0, ha =>
      have hc : cell = .func src (vEnvOf env) (.prim .undef) [] := by
        simpa [funcHeap] using ha.symm
      rw [hc] at hv
      simp only [cellKids, List.nil_bind, List.append_nil] at hv
      rcases List.mem_cons.mp hv with hh | hh
      · rw [hh] at hvb
        cases hvb
      · have hh2 : v ∈ (vEnvOf env).map Prod.snd := by simpa using hh
        obtain ⟨kv, hkv, hkve⟩ := List.mem_map.1 hh2
        obtain ⟨kv0, _, hkv0⟩ := List.mem_map.1 (show kv ∈ env.map
          (fun kv => (kv.1, Value.prim kv.2)) from hkv)
        rw [← hkve, ← hkv0] at hvb
        cases hvb
    | a+1, ha =>
      exfalso
      have := get?_lt_length ha
      rw [h0len] at this
      omega
  have hsrch : SrcHeap (funcHeap src env) := by
    intro a cell ha
    match a, ha with
    | 0, ha =>
      have hc : cell = .func src (vEnvOf env) (.prim .undef) [] := by
        simpa [funcHeap] using ha.symm
      rw [hc]
      rfl
    | a+1, ha =>
      exfalso
      have := get?_lt_length ha
      rw [h0len] at this
      omega
  have hinv0 : EInv [] (funcHeap src env) (.prim .null) (.ref 0)
      ⟨[], [], funcHeap src env⟩ := by
    refine ⟨by simp, by simp, by simp [countFR], le_refl _, fun a ha => rfl, ?_,
      by simp, by simp⟩
    intro a cell ha hc
    exfalso
    have := get?_lt_length hc
    simp only [] at this
    omega
  obtain ⟨⟨i0, stf⟩, hadd, hinv, hgext, hupres, hfind, hlt⟩ :=
    addRec_total [] (funcHeap src env) (.prim .null) (.ref 0) hwfh hsrch
      (fun a ha => by cases ha) (encodeFuel (funcHeap src env))
      ⟨[], [], funcHeap src env⟩ (.ref 0) hinv0 (by simp [PoolV, funcHeap])
      (by unfold encodeFuel; simp)
  dsimp only at hadd hinv hgext hupres hfind hlt
  refine ⟨{ rootIndex := i0, data := stf.contentArray, indexMap := stf.indexMap },
    stf.heap, by unfold serializeTop; rw [hadd], ?_⟩
  have hfilled : ∀ e ∈ stf.indexMap, ∃ r,
      stf.contentArray.get? e.2 = some (some r) ∧
      SlotOK [] (.prim .null) stf e.1 r := by
    intro e he
    rcases hinv.slotsOK e he with hs | ⟨r, hs, hok⟩
    · exfalso
      have hcon := hupres e.2 hs
      simp at hcon
    · exact ⟨r, hs, hok⟩
  have hentry : ∀ i, i < stf.contentArray.length → ∃ v, (v, i) ∈ stf.indexMap := by
    intro i hi
    have hmem : i ∈ stf.indexMap.map Prod.snd := by
      rw [hinv.idxSeq]
      exact List.mem_range.mpr hi
    obtain ⟨e, he, hei⟩ := List.mem_map.1 hmem
    refine ⟨e.1, ?_⟩
    rw [← hei, Prod.mk.eta]
    exact he
  have hidxlt : ∀ v j, findIdx stf.indexMap v = some j →
      j < stf.contentArray.length := by
    intro v j hj
    have hmem := findIdx_mem_snd hj
    rw [hinv.idxSeq] at hmem
    exact List.mem_range.mp hmem
  have hprimslot : ∀ p j, findIdx stf.indexMap (.prim p) = some j →
      stf.contentArray.get? j = some (some (.primitive p)) := by
    intro p j hj
    obtain ⟨r, hs, hok⟩ := hfilled _ (findIdx_mem_entry hj)
    have hr : r = .primitive p := hok
    rw [hr] at hs
    exact hs
  have hhb : stf.heap.length ≤ 2 := by
    have h1 := hinv.heapBound
    have h2 := @countFR_le_funcCount (funcHeap src env) _ hinv.valsNodup
    have h3 : funcCount (funcHeap src env) = 1 := rfl
    rw [h0len] at h1
    rw [h3] at h2
    omega
  have hcell0 : stf.heap.get? 0 = some (.func src (vEnvOf env) (.prim .undef) []) := by
    rw [hinv.heapExt 0 (by rw [h0len]; omega)]
    rfl
  obtain ⟨r0, hs0, hok0⟩ := hfilled _ (findIdx_mem_entry hfind)
  obtain ⟨cell0, hc0, hcr0⟩ :=
    (hok0 : ∃ cell, stf.heap.get? 0 = some cell ∧
      CellRec (.prim .null) stf cell r0)
  rw [hcell0] at hc0
  injection hc0 with hc0e
  rw [← hc0e] at hcr0
  obtain ⟨cj, pj, refs0, descs0, snapA, hr0, hsnap, hfcj, hfpj, hpm0⟩ := hcr0
  obtain ⟨hrefs0, hdescs0⟩ : refs0 = [] ∧ descs0 = [] := hpm0
  obtain ⟨r1, hs1, hok1⟩ := hfilled _ (findIdx_mem_entry hfcj)
  obtain ⟨cell1, hc1, hcr1⟩ :=
    (hok1 : ∃ cell, stf.heap.get? snapA = some cell ∧
      CellRec (.prim .null) stf cell r1)
  rw [hsnap] at hc1
  injection hc1 with hc1e
  rw [← hc1e] at hcr1
  obtain ⟨pj2, refs2, descs2, hr1, hfpj2, hpm2⟩ := hcr1
  have hmapfst : (vEnvOf env).map Prod.fst = env.map Prod.fst := by
    simp [vEnvOf]
  obtain ⟨hdescs2, hlen2, hpt2⟩ :=
    propsMapped_envProps (vEnvOf env) hpm2 (by rw [hmapfst]; exact hnc)
  have hslotpj : stf.contentArray.get? pj = some (some (.primitive .undef)) :=
    hprimslot .undef pj hfpj
  have hslotpj2 : stf.contentArray.get? pj2 = some (some (.primitive .null)) :=
    hprimslot .null pj2 hfpj2
  refine ⟨cj, pj, pj2, refs2, ?_, ?_, hslotpj, hslotpj2, hlt, ?_, ?_, ?_, ?_⟩
  · rw [hr0, hrefs0, hdescs0] at hs0
    exact hs0
  · rw [hr1, hdescs2] at hs1
    exact hs1
  · rw [hlen2]
    simp [vEnvOf]
  · intro n kv hkv
    have hkv' : (vEnvOf env).get? n = some (kv.1, .prim kv.2) := by
      rw [show vEnvOf env = env.map (fun kv => (kv.1, Value.prim kv.2)) from rfl,
        List.get?_map, hkv]
      rfl
    obtain ⟨j, hj, hfj⟩ := hpt2 n (kv.1, .prim kv.2) hkv'
    exact ⟨j, hj, hprimslot kv.2 j hfj⟩
  · intro i hi
    obtain ⟨v, hv⟩ := hentry i hi
    obtain ⟨r, hs, _⟩ := hfilled _ hv
    exact ⟨r, hs⟩
  · intro i r hri
    have hilen : i < stf.contentArray.length := get?_lt_length hri
    obtain ⟨v, hv⟩ := hentry i hilen
    obtain ⟨r', hs', hok'⟩ := hfilled _ hv
    have hrr : r' = r := by
      rw [hri] at hs'
      injection hs' with h1
      injection h1 with h2
      exact h2.symm
    rw [hrr] at hok'
    cases v with
    | prim p =>
      have hrp : r = .primitive p := hok'
      rw [hrp]
      refine ⟨trivial, fun k => by simp, fun nm => by simp, ?_⟩
      intro p' rf ds hro
      exact absurd hro (by simp)
    | ref a =>
      obtain ⟨cell, hc, hcr⟩ :=
        (hok' : ∃ cell, stf.heap.get? a = some cell ∧
          CellRec (.prim .null) stf cell r)
      have hkinds := cellRec_kind hcr
      refine ⟨cellRec_idxOK hcr hidxlt, hkinds.1, hkinds.2.1, ?_⟩
      intro p' rf ds hro
      have halt : a < stf.heap.length := get?_lt_length hc
      match a, hc with
      | 0, hc =>
        exfalso
        rw [hcell0] at hc
        injection hc with hce
        rw [← hce] at hcr
        obtain ⟨_, _, _, _, _, hreq, _, _, _, _⟩ := hcr
        rw [hro] at hreq
        cases hreq
      | 1, hc =>
        obtain ⟨⟨env', hcenv⟩, _⟩ :=
          hinv.snapCells 1 cell (by rw [h0len]) hc
        rw [hcenv] at hcr
        obtain ⟨pjx, rfx, dsx, hreq, hfpx, _⟩ := hcr
        rw [hro] at hreq
        injection hreq with he1 he2 he3
        rw [he1]
        exact ⟨.null, hprimslot .null pjx hfpx⟩
      | a+2, hc =>
        exfalso
        omega

theorem unmemo_le (data : List (Option Record)) (st : DSt) :
    unmemoCount data st ≤ data.length := by
  unfold unmemoCount
  calc ((List.range data.length).filter _).length
      ≤ (List.range data.length).length := List.length_filter_le _ _
    _ = data.length := List.length_range _

theorem enumProps_envProps : ∀ l : List (String × Value),
    enumProps (envProps l) = l := by
  intro l
  induction l with
  | nil => rfl
  | cons kv rest ih =>
    have h1 : envProps (kv :: rest) =
        (kv.1, .data kv.2 true true true) :: envProps rest := rfl
    rw [h1]
    show (kv.1, kv.2) :: enumProps (envProps rest) = kv :: rest
    rw [ih, Prod.mk.eta]

theorem zip_fst_snd {α β : Type} : ∀ (l : List (α × β)),
    (l.map Prod.fst).zip (l.map Prod.snd) = l := by
  intro l
  induction l with
  | nil => rfl
  | cons kv rest ih =>
    show (kv.1, kv.2) :: (rest.map Prod.fst).zip (rest.map Prod.snd) = kv :: rest
    rw [ih, Prod.mk.eta]

/-- The decode-side well-formedness of the graph the one-callable
encode produces, with the slot-read rank. -/
theorem c2_dataWF {g : Graph}
    (hfilled : ∀ i, i < g.data.length → ∃ r, g.data.get? i = some (some r))
    (hchar : ∀ i r, g.data.get? i = some (some r) →
      RecIdxOK g.data.length r ∧ (∀ k, r ≠ .unrecognized k) ∧
      (∀ nm, r ≠ .builtin nm) ∧
      (∀ p rf ds, r = .object p rf ds →
        ∃ pr, g.data.get? p = some (some (.primitive pr)))) :
    DataWF [] g.data (slotRank g.data) 1 := by
  refine ⟨hfilled, fun i r hr => (hchar i r hr).1, ?_, ?_, ?_, ?_⟩
  · intro i k hk
    exact (hchar i _ hk).2.1 k rfl
  · intro i n hn
    exact absurd rfl ((hchar i _ hn).2.2.1 n)
  · intro i p refs descs hobj
    obtain ⟨pr, hp⟩ := (hchar i _ hobj).2.2.2 p refs descs rfl
    have h1 : slotRank g.data p = 0 := by
      unfold slotRank
      rw [hp]
    have h2 : slotRank g.data i = 1 := by
      unfold slotRank
      rw [hobj]
    omega
  · intro i
    unfold slotRank
    split <;> omega

theorem list_ext_q {α : Type} : ∀ {l1 l2 : List α},
    (∀ n, l1.get? n = l2.get? n) → l1 = l2 := by
  intro l1
  induction l1 with
  | nil =>
    intro l2 h
    cases l2 with
    | nil => rfl
    | cons b t => exact absurd (h 0).symm (by simp)
  | cons a t ih =>
    intro l2 h
    cases l2 with
    | nil => exact absurd (h 0) (by simp)
    | cons b t2 =>
      have h0 : a = b := by simpa using h 0
      have ht : t = t2 := ih (fun n => by simpa using h (n+1))
      rw [h0, ht]

/-- C2: a callable whose closure snapshot reports primitive captures
(distinct source-variable names) round-trips, through the wire boundary,
to an invocable value: its implementation is the product of evaluating
the code fragment `(function(<names>) \x7b return (<source>); \x7d)` —
the snapshot's names in insertion order — and immediately applying it to
the corresponding captured values in the same order, so the
reconstructed implementation carries exactly that fragment, the original
source text, and the name-to-captured-value bindings in insertion
order (`x = 5` is observed as `x = 5`). -/
theorem c2_closure_fidelity (src : String) (env : List (String × Prim))
    (hnd : (env.map Prod.fst).Nodup)
    (hnc : "__closure" ∉ env.map Prod.fst) (fuel : Nat) :
    ∃ g h1, serializeTop [] (.prim .null) (encodeFuel (funcHeap src env))
        (funcHeap src env) (.ref 0) = some (g, h1) ∧
      (2 * g.data.length + 5 ≤ fuel →
        decodedImpl (wireDecode [] fuel g []) =
          some { code := closureFragment (env.map Prod.fst) src,
                 source := src, env := vEnvOf env }) := by
  obtain ⟨g, h1, henc, cj, pj, pj2, refs2, hfun, hcjslot, hpjslot, hpj2slot,
    hroot, hlen2, hptw, hfilledD, hcharD⟩ := c2_encode_shape src env hnc
  refine ⟨g, h1, henc, ?_⟩
  intro hfuel
  have hmapfst : (vEnvOf env).map Prod.fst = env.map Prod.fst := by
    simp [vEnvOf]
  have hicj : g.rootIndex ≠ cj := by
    intro h
    rw [h, hcjslot] at hfun
    simp at hfun
  have hipj2 : g.rootIndex ≠ pj2 := by
    intro h
    rw [h, hpj2slot] at hfun
    simp at hfun
  have hcjlt : cj < g.data.length := get?_lt_length hcjslot
  have hpj2lt : pj2 < g.data.length := get?_lt_length hpj2slot
  have hpjlt : pj < g.data.length := get?_lt_length hpjslot
  obtain ⟨F1, rfl⟩ : ∃ k, fuel = k + 1 := ⟨fuel - 1, by omega⟩
  obtain ⟨F2, rfl⟩ : ∃ k, F1 = k + 1 := ⟨F1 - 1, by omega⟩
  obtain ⟨F3, rfl⟩ : ∃ k, F2 = k + 1 := ⟨F2 - 1, by omega⟩
  have hwfD := c2_dataWF hfilledD hcharD
  -- the state after registering the thunk and decoding the snapshot's
  -- prototype, and the state entering the snapshot's property loop
  have e3 : getRec [] g.data (F3+1)
      (⟨[(Value.ref 0, g.rootIndex)], [HObj.thunk none (.prim .undef) []]⟩ : DSt)
      pj2 = some (.ok (.prim .null,
        (⟨[(Value.ref 0, g.rootIndex), (Value.prim Prim.null, pj2)],
          [HObj.thunk none (.prim .undef) []]⟩ : DSt))) := by
    conv_lhs => rw [getRec]
    rw [show findElem ((⟨[(Value.ref 0, g.rootIndex)],
        [HObj.thunk none (.prim .undef) []]⟩ : DSt)).indexMap pj2 = none from
      by simp [findElem, hipj2], hpj2slot]
    rfl
  have hinv2o : DInv g.data
      (⟨[(Value.ref 0, g.rootIndex), (Value.prim Prim.null, pj2), (Value.ref 1, cj)],
        [HObj.thunk none (.prim .undef) [], HObj.obj (.prim .null) []]⟩ : DSt) := by
    constructor
    · intro e he
      have he' : e = (Value.ref 0, g.rootIndex) ∨ e = (Value.prim Prim.null, pj2) ∨
          e = (Value.ref 1, cj) := by simpa using he
      rcases he' with rfl | rfl | rfl
      · exact hroot
      · exact hpj2lt
      · exact hcjlt
    · intro e he p hp
      have he' : e = (Value.ref 0, g.rootIndex) ∨ e = (Value.prim Prim.null, pj2) ∨
          e = (Value.ref 1, cj) := by simpa using he
      rcases he' with rfl | rfl | rfl
      · exfalso
        have hp2 : g.data.get? g.rootIndex = some (some (.primitive p)) := hp
        rw [hfun] at hp2
        simp at hp2
      · have hp2 : g.data.get? pj2 = some (some (.primitive p)) := hp
        rw [hpj2slot] at hp2
        simp only [Option.some.injEq, Record.primitive.injEq] at hp2
        show Value.prim Prim.null = Value.prim p
        rw [← hp2]
      · exfalso
        have hp2 : g.data.get? cj = some (some (.primitive p)) := hp
        rw [hcjslot] at hp2
        simp at hp2
  have hRI : pj2 < g.data.length ∧ (∀ kj ∈ refs2, kj.2 < g.data.length) ∧
      (∀ kd ∈ ([] : List (String × SDesc)), sdIdxOK g.data.length kd.2) :=
    (hcharD cj _ hcjslot).1
  have hfuA : (unmemoCount g.data
      (⟨[(Value.ref 0, g.rootIndex), (Value.prim Prim.null, pj2), (Value.ref 1, cj)],
        [HObj.thunk none (.prim .undef) [], HObj.obj (.prim .null) []]⟩ : DSt) + 1) *
      (1 + 1) ≤ F3 + 1 := by
    have hu := unmemo_le g.data
      (⟨[(Value.ref 0, g.rootIndex), (Value.prim Prim.null, pj2), (Value.ref 1, cj)],
        [HObj.thunk none (.prim .undef) [], HObj.obj (.prim .null) []]⟩ : DSt)
    have h2 := Nat.mul_le_mul_right (1 + 1)
      (show unmemoCount g.data
        (⟨[(Value.ref 0, g.rootIndex), (Value.prim Prim.null, pj2), (Value.ref 1, cj)],
          [HObj.thunk none (.prim .undef) [], HObj.obj (.prim .null) []]⟩ : DSt) + 1 ≤
        g.data.length + 1 by omega)
    omega
  have hgA := gspec_of_ih hwfD (F3+1)
    (fun st i hi hinv hm => getRec_total hwfD (F3+1) st i hi hinv hm) _ hfuA
  obtain ⟨st3o, hEqA, hinv3, hext3, hu3, hshape3, hexact3⟩ :=
    assignProps_total hgA refs2 1
      (⟨[(Value.ref 0, g.rootIndex), (Value.prim Prim.null, pj2), (Value.ref 1, cj)],
        [HObj.thunk none (.prim .undef) [], HObj.obj (.prim .null) []]⟩ : DSt)
      hRI.2.1 (by show (1:Nat) < 2; omega) hinv2o (le_refl _)
  have hkeys : refs2.map Prod.fst = env.map Prod.fst := by
    apply list_ext_q
    intro n
    by_cases hn : n < env.length
    · obtain ⟨kv, hkv⟩ := exists_get? hn
      obtain ⟨j, hj, _⟩ := hptw n kv hkv
      rw [List.get?_map, List.get?_map, hj, hkv]
      rfl
    · have hr2 : refs2.get? n = none := List.get?_eq_none.mpr (by omega)
      have he2 : env.get? n = none := List.get?_eq_none.mpr (by omega)
      rw [List.get?_map, List.get?_map, hr2, he2]
      rfl
  obtain ⟨ws, hws, hwslen, hwpt⟩ :=
    hexact3 (by rw [hkeys]; exact hnd) (.prim .null) [] rfl (fun k _ => rfl)
  rw [List.nil_append] at hws
  have hwsenv : ws = envProps (vEnvOf env) := by
    apply list_ext_q
    intro n
    by_cases hn : n < env.length
    · obtain ⟨kv, hkv⟩ := exists_get? hn
      obtain ⟨j, hj, hjslot⟩ := hptw n kv hkv
      obtain ⟨w, hw, _, hwp⟩ := hwpt n kv.1 j hj
      have hwv : w = .prim kv.2 := hwp kv.2 hjslot
      rw [hw, hwv]
      have hre : (envProps (vEnvOf env)).get? n =
          some (kv.1, PropDesc.data (.prim kv.2) true true true) := by
        show ((vEnvOf env).map
          (fun kv => (kv.1, PropDesc.data kv.2 true true true))).get? n = _
        rw [List.get?_map]
        have hkv2 : (vEnvOf env).get? n = some (kv.1, Value.prim kv.2) := by
          show (env.map (fun kv => (kv.1, Value.prim kv.2))).get? n = _
          rw [List.get?_map, hkv]
          rfl
        rw [hkv2]
        rfl
      rw [hre]
    · have hr2 : ws.get? n = none := List.get?_eq_none.mpr (by omega)
      have he2 : (envProps (vEnvOf env)).get? n = none :=
        List.get?_eq_none.mpr (by simp [envProps, vEnvOf]; omega)
      rw [hr2, he2]
  have hws' : st3o.heap.get? 1 =
      some (.obj (.prim .null) (envProps (vEnvOf env))) := by
    rw [hws, hwsenv]
  have eClosure : getRec [] g.data ((F3+1)+1)
      (⟨[(Value.ref 0, g.rootIndex)], [HObj.thunk none (.prim .undef) []]⟩ : DSt)
      cj = some (.ok (.ref 1, st3o)) := by
    conv_lhs => rw [getRec]
    rw [show findElem ((⟨[(Value.ref 0, g.rootIndex)],
        [HObj.thunk none (.prim .undef) []]⟩ : DSt)).indexMap cj = none from
      by simp [findElem, hicj], hcjslot]
    show dbind (getRec [] g.data (F3+1)
        (⟨[(Value.ref 0, g.rootIndex)], [HObj.thunk none (.prim .undef) []]⟩ : DSt)
        pj2) (fun p =>
        dbind (assignProps (getRec [] g.data (F3+1)) refs2 p.2.heap.length
            (pushD (allocD p.2 (HObj.obj p.1 [])) (Value.ref p.2.heap.length) cj))
          (fun st3 =>
            dbind (defineProps (getRec [] g.data (F3+1)) [] p.2.heap.length st3)
              (fun st4 => some (Except.ok (Value.ref p.2.heap.length, st4))))) =
      some (Except.ok (Value.ref 1, st3o))
    rw [e3, dbind_ok]
    show dbind (assignProps (getRec [] g.data (F3+1)) refs2 1
        (⟨[(Value.ref 0, g.rootIndex), (Value.prim Prim.null, pj2), (Value.ref 1, cj)],
          [HObj.thunk none (.prim .undef) [], HObj.obj (.prim .null) []]⟩ : DSt))
      (fun st3 =>
        dbind (defineProps (getRec [] g.data (F3+1)) [] 1 st3)
          (fun st4 => some (Except.ok (Value.ref 1, st4)))) =
      some (Except.ok (Value.ref 1, st3o))
    rw [hEqA, dbind_ok]
    rfl
  have hthunk0 : st3o.heap.get? 0 = some (.thunk none (.prim .undef) []) := by
    rw [hext3.2.2 0 (by show (0:Nat) < 2; omega) (by omega)]
    rfl
  have hlen3o : 2 ≤ st3o.heap.length :=
    le_trans (by show (2:Nat) ≤ 2; omega) hext3.2.1
  have hkvs : enumOwnDataProps st3o.heap (.ref 1) = vEnvOf env := by
    have hstep : enumOwnDataProps st3o.heap (.ref 1) =
        match st3o.heap.get? 1 with
        | some (HObj.obj _ props) => enumProps props
        | some (HObj.func _ _ _ props) => enumProps props
        | some (HObj.thunk _ _ props) => enumProps props
        | some (HObj.arr elems) => (List.range elems.length).map
            (fun i => (toString i, elems.getD i (Value.prim Prim.undef)))
        | _ => ([] : List (String × Value)) := rfl
    rw [hstep, hws']
    exact enumProps_envProps _
  have hinv4 : DInv g.data (allocD st3o (.implFn (evalApplyFragment
      (closureFragment ((vEnvOf env).map Prod.fst) src)
      ((vEnvOf env).map Prod.fst) src ((vEnvOf env).map Prod.snd))
      (.prim .undef))) := DInv_heap hinv3 _
  obtain ⟨stq, eProto, hqheap⟩ : ∃ stq,
      getRec [] g.data ((F3+1)+1) (allocD st3o (.implFn (evalApplyFragment
        (closureFragment ((vEnvOf env).map Prod.fst) src)
        ((vEnvOf env).map Prod.fst) src ((vEnvOf env).map Prod.snd))
        (.prim .undef))) pj = some (.ok (.prim .undef, stq)) ∧
      stq.heap = (allocD st3o (.implFn (evalApplyFragment
        (closureFragment ((vEnvOf env).map Prod.fst) src)
        ((vEnvOf env).map Prod.fst) src ((vEnvOf env).map Prod.snd))
        (.prim .undef))).heap := by
    cases hfp : findElem (allocD st3o (.implFn (evalApplyFragment
        (closureFragment ((vEnvOf env).map Prod.fst) src)
        ((vEnvOf env).map Prod.fst) src ((vEnvOf env).map Prod.snd))
        (.prim .undef))).indexMap pj with
    | some w =>
      have hwun : w = .prim .undef :=
        hinv4.memoPrim _ (findElem_mem hfp) .undef hpjslot
      refine ⟨allocD st3o (.implFn (evalApplyFragment
        (closureFragment ((vEnvOf env).map Prod.fst) src)
        ((vEnvOf env).map Prod.fst) src ((vEnvOf env).map Prod.snd))
        (.prim .undef)), ?_, rfl⟩
      rw [← hwun]
      exact getRec_memo_hit [] g.data (by omega) _ hfp
    | none =>
      refine ⟨pushD (allocD st3o (.implFn (evalApplyFragment
        (closureFragment ((vEnvOf env).map Prod.fst) src)
        ((vEnvOf env).map Prod.fst) src ((vEnvOf env).map Prod.snd))
        (.prim .undef))) (.prim .undef) pj, ?_, rfl⟩
      conv_lhs => rw [getRec]
      rw [hfp, hpjslot]
  have eRoot : getRec [] g.data (((F3+1)+1)+1) (⟨[], []⟩ : DSt) g.rootIndex =
      some (.ok (.ref 0, (⟨stq.indexMap,
        setThunkH (setImplProtoH stq.heap st3o.heap.length (.prim .undef)) 0
          (some (.ref st3o.heap.length)) (.prim .undef)⟩ : DSt))) := by
    conv_lhs => rw [getRec]
    rw [show findElem ((⟨[], []⟩ : DSt)).indexMap g.rootIndex = none from rfl, hfun]
    show dbind (getRec [] g.data ((F3+1)+1)
        (⟨[(Value.ref 0, g.rootIndex)], [HObj.thunk none (.prim .undef) []]⟩ : DSt)
        cj) (fun c =>
        dbind (getRec [] g.data ((F3+1)+1) (allocD c.2 (HObj.implFn
            (evalApplyFragment
            (closureFragment ((enumOwnDataProps c.2.heap c.1).map Prod.fst) src)
            ((enumOwnDataProps c.2.heap c.1).map Prod.fst) src
            ((enumOwnDataProps c.2.heap c.1).map Prod.snd))
            (Value.prim Prim.undef))) pj)
          (fun q =>
            dbind (assignProps (getRec [] g.data ((F3+1)+1)) [] 0
                (⟨q.2.indexMap, setThunkH (setImplProtoH q.2.heap c.2.heap.length q.1)
                  0 (some (Value.ref c.2.heap.length)) q.1⟩ : DSt))
              (fun st7 =>
                dbind (defineProps (getRec [] g.data ((F3+1)+1)) [] 0 st7)
                  (fun st8 => some (Except.ok (Value.ref 0, st8)))))) =
      some (Except.ok (Value.ref 0, (⟨stq.indexMap,
        setThunkH (setImplProtoH stq.heap st3o.heap.length (.prim .undef)) 0
          (some (Value.ref st3o.heap.length)) (.prim .undef)⟩ : DSt)))
    rw [eClosure, dbind_ok]
    show dbind (getRec [] g.data ((F3+1)+1) (allocD st3o (HObj.implFn
        (evalApplyFragment
        (closureFragment ((enumOwnDataProps st3o.heap (Value.ref 1)).map Prod.fst) src)
        ((enumOwnDataProps st3o.heap (Value.ref 1)).map Prod.fst) src
        ((enumOwnDataProps st3o.heap (Value.ref 1)).map Prod.snd))
        (Value.prim Prim.undef))) pj)
      (fun q =>
        dbind (assignProps (getRec [] g.data ((F3+1)+1)) [] 0
            (⟨q.2.indexMap, setThunkH (setImplProtoH q.2.heap st3o.heap.length q.1)
              0 (some (Value.ref st3o.heap.length)) q.1⟩ : DSt))
          (fun st7 =>
            dbind (defineProps (getRec [] g.data ((F3+1)+1)) [] 0 st7)
              (fun st8 => some (Except.ok (Value.ref 0, st8))))) =
      some (Except.ok (Value.ref 0, (⟨stq.indexMap,
        setThunkH (setImplProtoH stq.heap st3o.heap.length (.prim .undef)) 0
          (some (Value.ref st3o.heap.length)) (.prim .undef)⟩ : DSt)))
    rw [hkvs, eProto, dbind_ok]
    show dbind (assignProps (getRec [] g.data ((F3+1)+1)) [] 0
        (⟨stq.indexMap, setThunkH (setImplProtoH stq.heap st3o.heap.length
          (Value.prim Prim.undef)) 0 (some (Value.ref st3o.heap.length))
          (Value.prim Prim.undef)⟩ : DSt))
      (fun st7 =>
        dbind (defineProps (getRec [] g.data ((F3+1)+1)) [] 0 st7)
          (fun st8 => some (Except.ok (Value.ref 0, st8)))) =
      some (Except.ok (Value.ref 0, (⟨stq.indexMap,
        setThunkH (setImplProtoH stq.heap st3o.heap.length (Value.prim Prim.undef)) 0
          (some (Value.ref st3o.heap.length)) (Value.prim Prim.undef)⟩ : DSt)))
    rfl
  have hget0q : stq.heap.get? 0 = some (.thunk none (.prim .undef) []) := by
    rw [hqheap]
    show (st3o.heap ++ [_]).get? 0 = _
    rw [List.get?_append (by omega)]
    exact hthunk0
  have hgetiaq : stq.heap.get? st3o.heap.length = some (.implFn (evalApplyFragment
      (closureFragment ((vEnvOf env).map Prod.fst) src)
      ((vEnvOf env).map Prod.fst) src ((vEnvOf env).map Prod.snd))
      (.prim .undef)) := by
    rw [hqheap]
    exact List.get?_concat_length _ _
  have h5get0 : (setImplProtoH stq.heap st3o.heap.length (.prim .undef)).get? 0 =
      some (.thunk none (.prim .undef) []) := by
    rw [setImplProtoH_get_ne _ _ (by omega)]
    exact hget0q
  have h5getia : (setImplProtoH stq.heap st3o.heap.length (.prim .undef)).get?
      st3o.heap.length = some (.implFn (evalApplyFragment
      (closureFragment ((vEnvOf env).map Prod.fst) src)
      ((vEnvOf env).map Prod.fst) src ((vEnvOf env).map Prod.snd))
      (.prim .undef)) := setImplProtoH_at _ hgetiaq
  have h6get0 : (setThunkH (setImplProtoH stq.heap st3o.heap.length (.prim .undef))
      0 (some (.ref st3o.heap.length)) (.prim .undef)).get? 0 =
      some (.thunk (some (.ref st3o.heap.length)) (.prim .undef) []) :=
    setThunkH_at _ _ h5get0
  have h6getia : (setThunkH (setImplProtoH stq.heap st3o.heap.length (.prim .undef))
      0 (some (.ref st3o.heap.length)) (.prim .undef)).get? st3o.heap.length =
      some (.implFn (evalApplyFragment
      (closureFragment ((vEnvOf env).map Prod.fst) src)
      ((vEnvOf env).map Prod.fst) src ((vEnvOf env).map Prod.snd))
      (.prim .undef)) := by
    rw [setThunkH_get_ne _ _ _ (by omega)]
    exact h5getia
  have hwire : wireDecode [] (F3+1+1+1) g [] = some (.ok (.ref 0, (⟨stq.indexMap,
      setThunkH (setImplProtoH stq.heap st3o.heap.length (.prim .undef)) 0
        (some (.ref st3o.heap.length)) (.prim .undef)⟩ : DSt))) := eRoot
  rw [hwire]
  show implOf (setThunkH (setImplProtoH stq.heap st3o.heap.length (.prim .undef)) 0
      (some (.ref st3o.heap.length)) (.prim .undef)) (.ref 0) = _
  have hstep : implOf (setThunkH (setImplProtoH stq.heap st3o.heap.length
      (.prim .undef)) 0 (some (.ref st3o.heap.length)) (.prim .undef)) (.ref 0) =
      match (setThunkH (setImplProtoH stq.heap st3o.heap.length (.prim .undef)) 0
        (some (.ref st3o.heap.length)) (.prim .undef)).get? 0 with
      | some (HObj.thunk (some (Value.ref b)) _ _) =>
        (match (setThunkH (setImplProtoH stq.heap st3o.heap.length (.prim .undef)) 0
            (some (.ref st3o.heap.length)) (.prim .undef)).get? b with
          | some (HObj.implFn impl _) => some impl
          | _ => none)
      | some (HObj.implFn impl _) => some impl
      | _ => (none : Option Impl) := rfl
  rw [hstep, h6get0]
  show (match (setThunkH (setImplProtoH stq.heap st3o.heap.length (.prim .undef)) 0
      (some (.ref st3o.heap.length)) (.prim .undef)).get? st3o.heap.length with
    | some (HObj.implFn impl _) => some impl
    | _ => (none : Option Impl)) = _
  rw [h6getia]
  show some (evalApplyFragment (closureFragment ((vEnvOf env).map Prod.fst) src)
    ((vEnvOf env).map Prod.fst) src ((vEnvOf env).map Prod.snd)) = _
  unfold evalApplyFragment
  rw [zip_fst_snd (vEnvOf env), hmapfst]

/-- C2 (witness): the callable `() => x` capturing `x = 5` round-trips
end to end; the reconstructed implementation is the applied evaluation
of the synthesized fragment over parameter `x` bound to `5`. -/
theorem c2_closure_fidelity_witness :
    decodedImpl (wireDecode [] 30
      ({ rootIndex := 0,
         data := [some (.function "() => x" 1 4 [] []),
                  some (.object 2 [("x", 3)] []),
                  some (.primitive .null),
                  some (.primitive (.num 5)),
                  some (.primitive .undef)],
         indexMap := [(.ref 0, 0), (.ref 1, 1), (.prim .null, 2),
                      (.prim (.num 5), 3), (.prim .undef, 4)] } : Graph) []) =
      some { code := closureFragment ["x"] "() => x", source := "() => x",
             env := vEnvOf [("x", .num 5)] } := by
  obtain ⟨g, h1, henc, himp⟩ := c2_closure_fidelity "() => x" [("x", .num 5)]
    (by decide) (by decide) 30
  have hc : serializeTop [] (.prim .null)
      (encodeFuel (funcHeap "() => x" [("x", .num 5)]))
      (funcHeap "() => x" [("x", .num 5)]) (.ref 0) =
      some ((⟨0,
        [some (.function "() => x" 1 4 [] []), some (.object 2 [("x", 3)] []),
         some (.primitive .null), some (.primitive (.num 5)),
         some (.primitive .undef)],
        [(.ref 0, 0), (.ref 1, 1), (.prim .null, 2), (.prim (.num 5), 3),
         (.prim .undef, 4)]⟩ : Graph),
        [.func "() => x" [("x", .prim (.num 5))] (.prim .undef) [],
         .obj (.prim .null) [("x", .data (.prim (.num 5)) true true true)]]) := by
    decide
  rw [hc] at henc
  injection henc with hpair
  have hg : (⟨0,
      [some (.function "() => x" 1 4 [] []), some (.object 2 [("x", 3)] []),
       some (.primitive .null), some (.primitive (.num 5)),
       some (.primitive .undef)],
      [(.ref 0, 0), (.ref 1, 1), (.prim .null, 2), (.prim (.num 5), 3),
       (.prim .undef, 4)]⟩ : Graph) = g :=
    congrArg Prod.fst hpair
  rw [← hg] at himp
  exact himp (by decide)

/-- Encoding a one-cell heap that holds no function cell: the final
state's facts, specialized to root `ref 0` over registry `[]` and
snapshot prototype `null`. -/
theorem c3_encode_facts (cell : HObj)
    (hwfc : ∀ v ∈ cellKids cell, ∀ b, v = .ref b → b < 1)
    (hsrc : cellSrcKind cell = true) (hfc : funcCount [cell] = 0)
    (hproto : ∀ proto props, cell = .obj proto props → ∃ pp, proto = .prim pp) :
    ∃ (g : Graph) (h1 : List HObj) (stf : GState),
      serializeTop [] (.prim .null) (encodeFuel [cell]) [cell] (.ref 0) =
        some (g, h1) ∧
      g.rootIndex = 0 ∧
      g.data = stf.contentArray ∧
      findIdx stf.indexMap (.ref 0) = some g.rootIndex ∧
      g.rootIndex < g.data.length ∧
      stf.heap.get? 0 = some cell ∧
      (∀ e ∈ stf.indexMap, ∃ r, stf.contentArray.get? e.2 = some (some r) ∧
        SlotOK [] (.prim .null) stf e.1 r) ∧
      (∀ v j, findIdx stf.indexMap v = some j → j < stf.contentArray.length) ∧
      (∀ p j, findIdx stf.indexMap (.prim p) = some j →
        stf.contentArray.get? j = some (some (.primitive p))) ∧
      (∀ i, i < g.data.length → ∃ r, g.data.get? i = some (some r)) ∧
      (∀ i r, g.data.get? i = some (some r) →
        RecIdxOK g.data.length r ∧ (∀ k, r ≠ .unrecognized k) ∧
        (∀ nm, r ≠ .builtin nm) ∧
        (∀ p rf ds, r = .object p rf ds →
          ∃ pr, g.data.get? p = some (some (.primitive pr)))) := by
  have h0len : ([cell] : List HObj).length = 1 := rfl
  have hwfh : WFHeap [cell] := by
    intro a c ha v hv b hvb
    match a, ha with
    | 0, ha =>
      have hc : c = cell := by simpa using ha.symm
      rw [hc] at hv
      exact hwfc v hv b hvb
    | a+1, ha =>
      exfalso
      have := get?_lt_length ha
      rw [h0len] at this
      omega
  have hsrch : SrcHeap [cell] := by
    intro a c ha
    match a, ha with
    | 0, ha =>
      have hc : c = cell := by simpa using ha.symm
      rw [hc]
      exact hsrc
    | a+1, ha =>
      exfalso
      have := get?_lt_length ha
      rw [h0len] at this
      omega
  have hinv0 : EInv [] [cell] (.prim .null) (.ref 0) ⟨[], [], [cell]⟩ := by
    refine ⟨by simp, by simp, by simp [countFR], le_refl _, fun a ha => rfl, ?_,
      by simp, by simp⟩
    intro a c ha hc
    exfalso
    have := get?_lt_length hc
    simp only [] at this
    omega
  obtain ⟨⟨i0, stf⟩, hadd, hinv, hgext, hupres, hfind, hlt⟩ :=
    addRec_total [] [cell] (.prim .null) (.ref 0) hwfh hsrch
      (fun a ha => by cases ha) (encodeFuel [cell])
      ⟨[], [], [cell]⟩ (.ref 0) hinv0 (by simp [PoolV])
      (by unfold encodeFuel; simp)
  dsimp only at hadd hinv hgext hupres hfind hlt
  have hroot0 : i0 = 0 := by
    have hadd2 : addRec [] (.prim .null) (encB [cell] + 1) ⟨[], [], [cell]⟩
        (.ref 0) = some (i0, stf) := hadd
    simp only [addRec, findIdx] at hadd2
    obtain ⟨p, hp, he⟩ := Option.bind_eq_some.mp hadd2
    have he2 := congrArg Prod.fst (Option.some.inj he)
    exact he2.symm
  refine ⟨{ rootIndex := i0, data := stf.contentArray, indexMap := stf.indexMap },
    stf.heap, stf, by unfold serializeTop; rw [hadd], hroot0, rfl, hfind, hlt, ?_, ?_⟩
  · rw [hinv.heapExt 0 (by rw [h0len]; omega)]
    rfl
  · have hfilled : ∀ e ∈ stf.indexMap, ∃ r,
        stf.contentArray.get? e.2 = some (some r) ∧
        SlotOK [] (.prim .null) stf e.1 r := by
      intro e he
      rcases hinv.slotsOK e he with hs | ⟨r, hs, hok⟩
      · exfalso
        have hcon := hupres e.2 hs
        simp at hcon
      · exact ⟨r, hs, hok⟩
    have hentry : ∀ i, i < stf.contentArray.length →
        ∃ v, (v, i) ∈ stf.indexMap := by
      intro i hi
      have hmem : i ∈ stf.indexMap.map Prod.snd := by
        rw [hinv.idxSeq]
        exact List.mem_range.mpr hi
      obtain ⟨e, he, hei⟩ := List.mem_map.1 hmem
      refine ⟨e.1, ?_⟩
      rw [← hei, Prod.mk.eta]
      exact he
    have hidxlt : ∀ v j, findIdx stf.indexMap v = some j →
        j < stf.contentArray.length := by
      intro v j hj
      have hmem := findIdx_mem_snd hj
      rw [hinv.idxSeq] at hmem
      exact List.mem_range.mp hmem
    have hprimslot : ∀ p j, findIdx stf.indexMap (.prim p) = some j →
        stf.contentArray.get? j = some (some (.primitive p)) := by
      intro p j hj
      obtain ⟨r, hs, hok⟩ := hfilled _ (findIdx_mem_entry hj)
      have hr : r = .primitive p := hok
      rw [hr] at hs
      exact hs
    have hhb : stf.heap.length ≤ 1 := by
      have hb1 := hinv.heapBound
      have hb2 := @countFR_le_funcCount [cell] _ hinv.valsNodup
      rw [hfc] at hb2
      rw [h0len] at hb1
      omega
    have hcell0 : stf.heap.get? 0 = some cell := by
      rw [hinv.heapExt 0 (by rw [h0len]; omega)]
      rfl
    refine ⟨hfilled, hidxlt, hprimslot, ?_, ?_⟩
    · intro i hi
      obtain ⟨v, hv⟩ := hentry i hi
      obtain ⟨r, hs, _⟩ := hfilled _ hv
      exact ⟨r, hs⟩
    · intro i r hri
      have hilen : i < stf.contentArray.length := get?_lt_length hri
      obtain ⟨v, hv⟩ := hentry i hilen
      obtain ⟨r', hs', hok'⟩ := hfilled _ hv
      have hrr : r' = r := by
        rw [hri] at hs'
        injection hs' with hx1
        injection hx1 with hx2
        exact hx2.symm
      rw [hrr] at hok'
      cases v with
      | prim p =>
        have hrp : r = .primitive p := hok'
        rw [hrp]
        refine ⟨trivial, fun k => by simp, fun nm => by simp, ?_⟩
        intro p' rf ds hro
        exact absurd hro (by simp)
      | ref a =>
        obtain ⟨c, hc, hcr⟩ :=
          (hok' : ∃ c, stf.heap.get? a = some c ∧
            CellRec (.prim .null) stf c r)
        have hkinds := cellRec_kind hcr
        refine ⟨cellRec_idxOK hcr hidxlt, hkinds.1, hkinds.2.1, ?_⟩
        intro p' rf ds hro
        have halt : a < stf.heap.length := get?_lt_length hc
        match a, hc with
        | 0, hc =>
          rw [hcell0] at hc
          injection hc with hce
          rw [← hce] at hcr
          rw [hro] at hcr
          cases cell with
          | arr elems =>
            obtain ⟨is, hreq, _, _⟩ := hcr
            exact absurd hreq (by simp)
          | obj proto props =>
            obtain ⟨pjx, rfx, dsx, hreq, hfpx, _⟩ := hcr
            injection hreq with he1 he2 he3
            obtain ⟨pp, hpp⟩ := hproto proto props rfl
            rw [hpp] at hfpx
            rw [he1]
            exact ⟨pp, hprimslot pp pjx hfpx⟩
          | func a2 b2 c2 d2 =>
            obtain ⟨_, _, _, _, _, hreq, _, _, _, _⟩ := hcr
            exact absurd hreq (by simp)
          | date t => exact absurd hcr (by simp [CellRec])
          | regex s => exact absurd hcr (by simp [CellRec])
          | thunk io pr props => exact hcr.elim
          | implFn impl pr => exact hcr.elim
        | a+1, hc =>
          exfalso
          omega

/-- C3: cycle safety.  (1) A self-referential array — primitives and
self-references, itself at position `idx` — both serializes (the encoder
registers the array's identity before visiting its elements, so the
inner reference hits the memo) and decodes at fuel covering the decode
measure, and the reconstructed array holds the reconstructed identity
itself at position `idx` (`result[idx] === result`).  (2) A
self-referential object — typical own attributes holding primitives and
self-references, attribute `key` pointing back to the object — likewise
round-trips with `result.key === result`. -/
theorem c3_cycle_safety (fuel : Nat) :
    (∀ (elems : List Value) (idx : Nat),
      elems.get? idx = some (.ref 0) →
      (∀ v ∈ elems, v = .ref 0 ∨ ∃ p, v = .prim p) →
      ∃ g h1, serializeTop [] (.prim .null) (encodeFuel [.arr elems])
          [.arr elems] (.ref 0) = some (g, h1) ∧
        (2 * g.data.length + 5 ≤ fuel →
          ∃ stF vs, wireDecode [] fuel g [] = some (.ok (.ref 0, stF)) ∧
            stF.heap.get? 0 = some (.arr vs) ∧ vs.get? idx = some (.ref 0))) ∧
    (∀ (kvs : List (String × Value)) (key : String),
      (key, Value.ref 0) ∈ kvs →
      (∀ kv ∈ kvs, kv.2 = .ref 0 ∨ ∃ p, kv.2 = .prim p) →
      (kvs.map Prod.fst).Nodup → "__closure" ∉ kvs.map Prod.fst →
      ∃ g h1, serializeTop [] (.prim .null)
          (encodeFuel [.obj (.prim .null) (envProps kvs)])
          [.obj (.prim .null) (envProps kvs)] (.ref 0) = some (g, h1) ∧
        (2 * g.data.length + 5 ≤ fuel →
          ∃ stF, wireDecode [] fuel g [] = some (.ok (.ref 0, stF)) ∧
            ownProp stF.heap 0 key = some (.data (.ref 0) true true true))) := by
  constructor
  · -- the self-referential array
    intro elems idx hidx helems
    obtain ⟨g, h1, stf, henc, hroot0, hdata, hfind, hlt, hcell0, hfilled, hidxlt,
      hprimslot, hfilledD, hcharD⟩ :=
      c3_encode_facts (.arr elems)
        (by
          intro v hv b hvb
          rcases helems v hv with h | ⟨p, hp⟩
          · rw [h] at hvb
            injection hvb with hb
            omega
          · rw [hp] at hvb
            cases hvb)
        rfl rfl (fun proto props h => by cases h)
    refine ⟨g, h1, henc, ?_⟩
    intro hfuel
    obtain ⟨r0, hs0, hok0⟩ := hfilled _ (findIdx_mem_entry hfind)
    obtain ⟨c0, hc0, hcr0⟩ :=
      (hok0 : ∃ c, stf.heap.get? 0 = some c ∧ CellRec (.prim .null) stf c r0)
    rw [hcell0] at hc0
    injection hc0 with hc0e
    rw [← hc0e] at hcr0
    obtain ⟨is, hr0, hislen, hispt⟩ := hcr0
    have harr : g.data.get? g.rootIndex = some (some (.array is)) := by
      rw [hdata, ← hr0]
      exact hs0
    obtain ⟨jx, hjx, hfjx⟩ := hispt idx (.ref 0) hidx
    have hjx0 : jx = g.rootIndex := by
      rw [hfind] at hfjx
      injection hfjx with h
      exact h.symm
    rw [hjx0] at hjx
    obtain ⟨F1, rfl⟩ : ∃ k, fuel = k + 1 := ⟨fuel - 1, by omega⟩
    obtain ⟨F2, rfl⟩ : ∃ k, F1 = k + 1 := ⟨F1 - 1, by omega⟩
    obtain ⟨F3, rfl⟩ : ∃ k, F2 = k + 1 := ⟨F2 - 1, by omega⟩
    have hwfD := c2_dataWF hfilledD hcharD
    have hinv1 : DInv g.data
        (⟨[(Value.ref 0, g.rootIndex)], [HObj.arr []]⟩ : DSt) := by
      constructor
      · intro e he
        have he' : e = (Value.ref 0, g.rootIndex) := by simpa using he
        rw [he']
        exact hlt
      · intro e he p hp
        have he' : e = (Value.ref 0, g.rootIndex) := by simpa using he
        rw [he'] at hp ⊢
        exfalso
        have hp2 : g.data.get? g.rootIndex = some (some (.primitive p)) := hp
        rw [harr] at hp2
        simp at hp2
    have hfuA : (unmemoCount g.data
        (⟨[(Value.ref 0, g.rootIndex)], [HObj.arr []]⟩ : DSt) + 1) * (1 + 1) ≤
        (F3+1) + 1 := by
      have hu := unmemo_le g.data
        (⟨[(Value.ref 0, g.rootIndex)], [HObj.arr []]⟩ : DSt)
      have h2 := Nat.mul_le_mul_right (1 + 1)
        (show unmemoCount g.data
          (⟨[(Value.ref 0, g.rootIndex)], [HObj.arr []]⟩ : DSt) + 1 ≤
          g.data.length + 1 by omega)
      omega
    have hg := gspec_of_ih hwfD ((F3+1)+1)
      (fun st i hi hinv hm => getRec_total hwfD ((F3+1)+1) st i hi hinv hm) _ hfuA
    have hRI : ∀ j ∈ is, j < g.data.length := (hcharD _ _ harr).1
    obtain ⟨st2, hEqE, hinv2, hext2, hu2, hcontent⟩ :=
      getElems_total hg is 0
        (⟨[(Value.ref 0, g.rootIndex)], [HObj.arr []]⟩ : DSt)
        hRI (by show (0:Nat) < 1; omega) hinv1 (le_refl _)
    obtain ⟨vs, hvs, hvslen, hvpt⟩ := hcontent [] rfl
    rw [List.nil_append] at hvs
    obtain ⟨w, hw, hwm, _⟩ := hvpt idx g.rootIndex hjx
    have hw0 : w = .ref 0 := by
      apply hwm
      show findElem ([(Value.ref 0, g.rootIndex)] : List (Value × Nat))
        g.rootIndex = some (.ref 0)
      simp [findElem]
    have e1 : getRec [] g.data (((F3+1)+1)+1) (⟨[], []⟩ : DSt) g.rootIndex =
        dbind (getElems (getRec [] g.data ((F3+1)+1)) is 0
          (⟨[(Value.ref 0, g.rootIndex)], [HObj.arr []]⟩ : DSt))
          (fun st2 => some (Except.ok (Value.ref 0, st2))) := by
      conv_lhs => rw [getRec]
      rw [show findElem ((⟨[], []⟩ : DSt)).indexMap g.rootIndex = none from rfl,
        harr]
      rfl
    refine ⟨st2, vs, ?_, hvs, by rw [hw, hw0]⟩
    show getRec [] g.data (((F3+1)+1)+1) (⟨[], []⟩ : DSt) g.rootIndex = _
    rw [e1, hEqE, dbind_ok]
  · -- the self-referential object
    intro kvs key hkey hkvs hnd hnc
    obtain ⟨g, h1, stf, henc, hroot0, hdata, hfind, hlt, hcell0, hfilled, hidxlt,
      hprimslot, hfilledD, hcharD⟩ :=
      c3_encode_facts (.obj (.prim .null) (envProps kvs))
        (by
          intro v hv b hvb
          simp only [cellKids] at hv
          rcases List.mem_cons.mp hv with h | h
          · rw [h] at hvb
            cases hvb
          · obtain ⟨kd, hkd, hvkd⟩ := List.mem_bind.1 h
            obtain ⟨kv, hkv, hkvkd⟩ := List.mem_map.1 hkd
            rw [← hkvkd] at hvkd
            simp only [descKids, List.mem_singleton] at hvkd
            rcases hkvs kv hkv with hr | ⟨p, hp⟩
            · rw [hvkd, hr] at hvb
              injection hvb with hb
              omega
            · rw [hvkd, hp] at hvb
              cases hvb)
        rfl rfl (fun proto props h => by injection h with h1 h2; exact ⟨.null, h1.symm⟩)
    refine ⟨g, h1, henc, ?_⟩
    intro hfuel
    obtain ⟨r0, hs0, hok0⟩ := hfilled _ (findIdx_mem_entry hfind)
    obtain ⟨c0, hc0, hcr0⟩ :=
      (hok0 : ∃ c, stf.heap.get? 0 = some c ∧ CellRec (.prim .null) stf c r0)
    rw [hcell0] at hc0
    injection hc0 with hc0e
    rw [← hc0e] at hcr0
    obtain ⟨pj, refs, descs, hr0, hfpj, hpm⟩ := hcr0
    obtain ⟨hdescs, hreflen, hptw⟩ := propsMapped_envProps kvs hpm hnc
    have hobj : g.data.get? g.rootIndex =
        some (some (.object pj refs [])) := by
      rw [hdata, ← hdescs, ← hr0]
      exact hs0
    have hpjslot : g.data.get? pj = some (some (.primitive .null)) := by
      rw [hdata]
      exact hprimslot .null pj hfpj
    have hipj : g.rootIndex ≠ pj := by
      intro h
      rw [h, hpjslot] at hobj
      simp at hobj
    obtain ⟨n, hn⟩ := List.mem_iff_get?.mp hkey
    obtain ⟨j0, hj0, hfj0⟩ := hptw n (key, .ref 0) hn
    have hj00 : j0 = g.rootIndex := by
      rw [hfind] at hfj0
      injection hfj0 with h
      exact h.symm
    rw [hj00] at hj0
    obtain ⟨F1, rfl⟩ : ∃ k, fuel = k + 1 := ⟨fuel - 1, by omega⟩
    obtain ⟨F2, rfl⟩ : ∃ k, F1 = k + 1 := ⟨F1 - 1, by omega⟩
    obtain ⟨F3, rfl⟩ : ∃ k, F2 = k + 1 := ⟨F2 - 1, by omega⟩
    have hwfD := c2_dataWF hfilledD hcharD
    have eProto : getRec [] g.data ((F3+1)+1) (⟨[], []⟩ : DSt) pj =
        some (.ok (.prim .null, (⟨[(Value.prim Prim.null, pj)], []⟩ : DSt))) := by
      conv_lhs => rw [getRec]
      rw [show findElem ((⟨[], []⟩ : DSt)).indexMap pj = none from rfl, hpjslot]
      rfl
    have hinv2 : DInv g.data
        (⟨[(Value.prim Prim.null, pj), (Value.ref 0, g.rootIndex)],
          [HObj.obj (Value.prim Prim.null) []]⟩ : DSt) := by
      constructor
      · intro e he
        have he' : e = (Value.prim Prim.null, pj) ∨
            e = (Value.ref 0, g.rootIndex) := by simpa using he
        rcases he' with rfl | rfl
        · exact get?_lt_length hpjslot
        · exact hlt
      · intro e he p hp
        have he' : e = (Value.prim Prim.null, pj) ∨
            e = (Value.ref 0, g.rootIndex) := by simpa using he
        rcases he' with rfl | rfl
        · have hp2 : g.data.get? pj = some (some (.primitive p)) := hp
          rw [hpjslot] at hp2
          simp only [Option.some.injEq, Record.primitive.injEq] at hp2
          show Value.prim Prim.null = Value.prim p
          rw [← hp2]
        · exfalso
          have hp2 : g.data.get? g.rootIndex = some (some (.primitive p)) := hp
          rw [hobj] at hp2
          simp at hp2
    have hfuA : (unmemoCount g.data
        (⟨[(Value.prim Prim.null, pj), (Value.ref 0, g.rootIndex)],
          [HObj.obj (Value.prim Prim.null) []]⟩ : DSt) + 1) * (1 + 1) ≤
        (F3+1) + 1 := by
      have hu := unmemo_le g.data
        (⟨[(Value.prim Prim.null, pj), (Value.ref 0, g.rootIndex)],
          [HObj.obj (Value.prim Prim.null) []]⟩ : DSt)
      have h2 := Nat.mul_le_mul_right (1 + 1)
        (show unmemoCount g.data
          (⟨[(Value.prim Prim.null, pj), (Value.ref 0, g.rootIndex)],
            [HObj.obj (Value.prim Prim.null) []]⟩ : DSt) + 1 ≤
          g.data.length + 1 by omega)
      omega
    have hg := gspec_of_ih hwfD ((F3+1)+1)
      (fun st i hi hinv hm => getRec_total hwfD ((F3+1)+1) st i hi hinv hm) _ hfuA
    have hRI : pj < g.data.length ∧ (∀ kj ∈ refs, kj.2 < g.data.length) ∧
        (∀ kd ∈ ([] : List (String × SDesc)), sdIdxOK g.data.length kd.2) :=
      (hcharD _ _ hobj).1
    obtain ⟨st3, hEqA, hinv3, hext3, hu3, hshape3, hexact3⟩ :=
      assignProps_total hg refs 0
        (⟨[(Value.prim Prim.null, pj), (Value.ref 0, g.rootIndex)],
          [HObj.obj (Value.prim Prim.null) []]⟩ : DSt)
        hRI.2.1 (by show (0:Nat) < 1; omega) hinv2 (le_refl _)
    have hkeys : refs.map Prod.fst = kvs.map Prod.fst := by
      apply list_ext_q
      intro m
      by_cases hm : m < kvs.length
      · obtain ⟨kv, hkv⟩ := exists_get? hm
        obtain ⟨j, hj, _⟩ := hptw m kv hkv
        rw [List.get?_map, List.get?_map, hj, hkv]
        rfl
      · have hr2 : refs.get? m = none := List.get?_eq_none.mpr (by omega)
        have he2 : kvs.get? m = none := List.get?_eq_none.mpr (by omega)
        rw [List.get?_map, List.get?_map, hr2, he2]
        rfl
    obtain ⟨ws, hws, hwslen, hwpt⟩ :=
      hexact3 (by rw [hkeys]; exact hnd) (.prim .null) [] rfl (fun k _ => rfl)
    rw [List.nil_append] at hws
    obtain ⟨w, hw, hwm, _⟩ := hwpt n key g.rootIndex hj0
    have hw0 : w = .ref 0 := by
      apply hwm
      show findElem ([(Value.prim Prim.null, pj), (Value.ref 0, g.rootIndex)] :
        List (Value × Nat)) g.rootIndex = some (.ref 0)
      have hne : pj ≠ g.rootIndex := fun h => hipj h.symm
      simp [findElem, hne]
    have hwkeys : ws.map Prod.fst = refs.map Prod.fst := by
      apply list_ext_q
      intro m
      by_cases hm : m < kvs.length
      · obtain ⟨kv, hkv⟩ := exists_get? hm
        obtain ⟨j, hj, _⟩ := hptw m kv hkv
        obtain ⟨w', hw', _, _⟩ := hwpt m kv.1 j hj
        rw [List.get?_map, List.get?_map, hj, hw']
        rfl
      · have hr2 : refs.get? m = none := List.get?_eq_none.mpr (by omega)
        have hw2 : ws.get? m = none := List.get?_eq_none.mpr (by omega)
        rw [List.get?_map, List.get?_map, hr2, hw2]
        rfl
    have e1 : getRec [] g.data (((F3+1)+1)+1) (⟨[], []⟩ : DSt) g.rootIndex =
        dbind (getRec [] g.data ((F3+1)+1) (⟨[], []⟩ : DSt) pj) (fun p =>
          dbind (assignProps (getRec [] g.data ((F3+1)+1)) refs p.2.heap.length
              (pushD (allocD p.2 (HObj.obj p.1 []))
                (Value.ref p.2.heap.length) g.rootIndex))
            (fun st3 =>
              dbind (defineProps (getRec [] g.data ((F3+1)+1)) []
                  p.2.heap.length st3)
                (fun st4 => some (Except.ok (Value.ref p.2.heap.length, st4))))) := by
      conv_lhs => rw [getRec]
      rw [show findElem ((⟨[], []⟩ : DSt)).indexMap g.rootIndex = none from rfl,
        hobj]
    refine ⟨st3, ?_, ?_⟩
    · show getRec [] g.data (((F3+1)+1)+1) (⟨[], []⟩ : DSt) g.rootIndex = _
      rw [e1, eProto, dbind_ok]
      show dbind (assignProps (getRec [] g.data ((F3+1)+1)) refs 0
          (⟨[(Value.prim Prim.null, pj), (Value.ref 0, g.rootIndex)],
            [HObj.obj (Value.prim Prim.null) []]⟩ : DSt))
        (fun st3 =>
          dbind (defineProps (getRec [] g.data ((F3+1)+1)) [] 0 st3)
            (fun st4 => some (Except.ok (Value.ref 0, st4)))) =
        some (Except.ok (Value.ref 0, st3))
      rw [hEqA, dbind_ok]
      rfl
    · unfold ownProp
      rw [hws]
      show lookupProp (ownPropsOf (.obj (.prim .null) ws)) key = _
      show lookupProp ws key = _
      rw [← hw0]
      exact lookupProp_of_get_nodup
        (by rw [hwkeys, hkeys]; exact hnd) hw

/-- C3 (witness): the one-element self-referential array `a = [a]` and
the one-attribute self-referential object `o = \x7b self: o \x7d` both
encode to concrete graphs and decode at fuel 9 with the self-reference
restored: the decoded array's element 0 is the decoded root itself, and
the decoded object's `self` attribute is the decoded root itself. -/
theorem c3_cycle_safety_witness :
    (∃ stF vs, wireDecode [] 9
        (⟨0, [some (.array [0])], [(.ref 0, 0)]⟩ : Graph) [] =
        some (.ok (.ref 0, stF)) ∧ stF.heap.get? 0 = some (.arr vs) ∧
        vs.get? 0 = some (.ref 0)) ∧
    (∃ stF, wireDecode [] 9
        (⟨0, [some (.object 1 [("self", 0)] []), some (.primitive .null)],
          [(.ref 0, 0), (.prim .null, 1)]⟩ : Graph) [] =
        some (.ok (.ref 0, stF)) ∧
        ownProp stF.heap 0 "self" = some (.data (.ref 0) true true true)) := by
  obtain ⟨harr, hobjpart⟩ := c3_cycle_safety 9
  constructor
  · obtain ⟨g, h1, henc, hdec⟩ := harr [.ref 0] 0 (by decide)
      (by intro v hv; rw [List.mem_singleton] at hv; exact Or.inl hv)
    have hc : serializeTop [] (.prim .null) (encodeFuel [.arr [.ref 0]])
        [.arr [.ref 0]] (.ref 0) =
        some ((⟨0, [some (.array [0])], [(.ref 0, 0)]⟩ : Graph),
          [.arr [.ref 0]]) := by decide
    rw [hc] at henc
    injection henc with hpair
    have hg : (⟨0, [some (.array [0])], [(.ref 0, 0)]⟩ : Graph) = g :=
      congrArg Prod.fst hpair
    rw [← hg] at hdec
    exact hdec (by decide)
  · obtain ⟨g, h1, henc, hdec⟩ := hobjpart [("self", .ref 0)] "self"
      (by decide)
      (by intro kv hkv; rw [List.mem_singleton] at hkv; rw [hkv]; exact Or.inl rfl)
      (by decide) (by decide)
    have hc : serializeTop [] (.prim .null)
        (encodeFuel [.obj (.prim .null) (envProps [("self", .ref 0)])])
        [.obj (.prim .null) (envProps [("self", .ref 0)])] (.ref 0) =
        some ((⟨0, [some (.object 1 [("self", 0)] []),
            some (.primitive .null)],
          [(.ref 0, 0), (.prim .null, 1)]⟩ : Graph),
          [.obj (.prim .null) [("self", .data (.ref 0) true true true)]]) := by
      decide
    rw [hc] at henc
    injection henc with hpair
    have hg : (⟨0, [some (.object 1 [("self", 0)] []),
        some (.primitive .null)],
        [(.ref 0, 0), (.prim .null, 1)]⟩ : Graph) = g :=
      congrArg Prod.fst hpair
    rw [← hg] at hdec
    exact hdec (by decide)

/-- C5 (amended).  What does hold of descriptor round-trips, one level
deep over primitive field values: (1) a fancy data attribute (any
combination of flags other than all-true) round-trips with its value,
enumerability and configurability intact, but its writability is always
decoded as `false` — whatever the original `writable` flag was — because
the encoder never emits `writable` (the C10 invariant) and
`Object.defineProperty` defaults the absent field to `false`; (2) an
accessor attribute round-trips with its `get` and `set` fields and its
enumerability and configurability intact. -/
theorem c5_descriptor_amended :
    (∀ (key : String) (p : Prim) (wr en cf : Bool), key ≠ "__closure" →
      (cf && wr && en) = false →
      ∃ g h1, serializeTop [] (.prim .null)
          (encodeFuel [.obj (.prim .null) [(key, .data (.prim p) wr en cf)]])
          [.obj (.prim .null) [(key, .data (.prim p) wr en cf)]] (.ref 0) =
          some (g, h1) ∧
        ∀ fuel, 2 * g.data.length + 5 ≤ fuel →
          ∃ stF, wireDecode [] fuel g [] = some (.ok (.ref 0, stF)) ∧
            ownProp stF.heap 0 key = some (.data (.prim p) false en cf)) ∧
    (∀ (key : String) (pg ps : Prim) (en cf : Bool), key ≠ "__closure" →
      ∃ g h1, serializeTop [] (.prim .null)
          (encodeFuel [.obj (.prim .null)
            [(key, .accessor (some (.prim pg)) (some (.prim ps)) en cf)]])
          [.obj (.prim .null)
            [(key, .accessor (some (.prim pg)) (some (.prim ps)) en cf)]]
          (.ref 0) = some (g, h1) ∧
        ∀ fuel, 2 * g.data.length + 5 ≤ fuel →
          ∃ stF, wireDecode [] fuel g [] = some (.ok (.ref 0, stF)) ∧
            ownProp stF.heap 0 key =
              some (.accessor (some (.prim pg)) (some (.prim ps)) en cf)) := by
  constructor
  · -- the fancy data attribute
    intro key p wr en cf hkey htyp
    obtain ⟨g, h1, stf, henc, hroot0, hdata, hfind, hlt, hcell0, hfilled, hidxlt,
      hprimslot, hfilledD, hcharD⟩ :=
      c3_encode_facts (.obj (.prim .null) [(key, .data (.prim p) wr en cf)])
        (by
          intro v hv b hvb
          have hv2 : v = Value.prim Prim.null ∨ v = Value.prim p := by
            simpa [cellKids, descKids] using hv
          rcases hv2 with h | h <;> rw [h] at hvb <;> cases hvb)
        rfl rfl
        (fun proto props h => by injection h with h1' h2'; exact ⟨.null, h1'.symm⟩)
    refine ⟨g, h1, henc, ?_⟩
    intro fuel hfuel
    obtain ⟨r0, hs0, hok0⟩ := hfilled _ (findIdx_mem_entry hfind)
    obtain ⟨c0, hc0, hcr0⟩ :=
      (hok0 : ∃ c2, stf.heap.get? 0 = some c2 ∧ CellRec (.prim .null) stf c2 r0)
    rw [hcell0] at hc0
    injection hc0 with hc0e
    rw [← hc0e] at hcr0
    obtain ⟨pj, refs, descs, hr0, hfpj, hpm⟩ := hcr0
    have hpm2 : PropsMapped stf.indexMap
        [(key, PropDesc.data (.prim p) wr en cf)] refs descs := hpm
    unfold PropsMapped at hpm2
    rw [if_neg hkey] at hpm2
    rw [if_neg (show ¬ isTypical (PropDesc.data (Value.prim p) wr en cf) = true by
      show ¬ (cf && wr && en) = true
      rw [htyp]
      simp)] at hpm2
    obtain ⟨sd, descs', hdm, hdescseq, hrest⟩ := hpm2
    have hrefs0 : refs = [] := hrest.1
    have hdescs'0 : descs' = [] := hrest.2
    obtain ⟨hdg, hds, hdv, hdc, hdw, hde⟩ := hdm
    have hg0 : sd.get? = none := hdg
    have hs0' : sd.set? = none := hds
    have hdv2 : ∃ j, findIdx stf.indexMap (Value.prim p) = some j ∧
        sd.value? = some j := hdv
    obtain ⟨vj, hfvj, hsv⟩ := hdv2
    have hc2 : sd.configurable = cf := hdc
    have hw2 : sd.writable? = none := hdw
    have he2 : sd.enumerable = en := hde
    have hr0' : r0 = Record.object pj [] [(key, sd)] := by
      rw [hr0, hrefs0, hdescseq, hdescs'0]
    have hobj : g.data.get? g.rootIndex =
        some (some (Record.object pj [] [(key, sd)])) := by
      rw [hdata, ← hr0']
      exact hs0
    have hpjslot : g.data.get? pj = some (some (.primitive .null)) := by
      rw [hdata]
      exact hprimslot .null pj hfpj
    have hvjslot : g.data.get? vj = some (some (.primitive p)) := by
      rw [hdata]
      exact hprimslot p vj hfvj
    have hvj0 : vj ≠ 0 := by
      intro h
      have h2 : g.data.get? 0 = some (some (Record.object pj [] [(key, sd)])) := by
        rw [← hroot0]
        exact hobj
      rw [h, h2] at hvjslot
      simp at hvjslot
    have hipj : g.rootIndex ≠ pj := by
      intro h
      rw [h, hpjslot] at hobj
      simp at hobj
    obtain ⟨F1, rfl⟩ : ∃ k, fuel = k + 1 := ⟨fuel - 1, by omega⟩
    obtain ⟨F2, rfl⟩ : ∃ k, F1 = k + 1 := ⟨F1 - 1, by omega⟩
    obtain ⟨F3, rfl⟩ : ∃ k, F2 = k + 1 := ⟨F2 - 1, by omega⟩
    have hwfD := c2_dataWF hfilledD hcharD
    have eProto : getRec [] g.data ((F3+1)+1) (⟨[], []⟩ : DSt) pj =
        some (.ok (.prim .null, (⟨[(Value.prim Prim.null, pj)], []⟩ : DSt))) := by
      conv_lhs => rw [getRec]
      rw [show findElem ((⟨[], []⟩ : DSt)).indexMap pj = none from rfl, hpjslot]
      rfl
    have hinv2 : DInv g.data
        (⟨[(Value.prim Prim.null, pj), (Value.ref 0, g.rootIndex)],
          [HObj.obj (Value.prim Prim.null) []]⟩ : DSt) := by
      constructor
      · intro e he
        have he' : e = (Value.prim Prim.null, pj) ∨
            e = (Value.ref 0, g.rootIndex) := by simpa using he
        rcases he' with rfl | rfl
        · exact get?_lt_length hpjslot
        · exact hlt
      · intro e he p' hp
        have he' : e = (Value.prim Prim.null, pj) ∨
            e = (Value.ref 0, g.rootIndex) := by simpa using he
        rcases he' with rfl | rfl
        · have hp2 : g.data.get? pj = some (some (.primitive p')) := hp
          rw [hpjslot] at hp2
          simp only [Option.some.injEq, Record.primitive.injEq] at hp2
          show Value.prim Prim.null = Value.prim p'
          rw [← hp2]
        · exfalso
          have hp2 : g.data.get? g.rootIndex = some (some (.primitive p')) := hp
          rw [hobj] at hp2
          simp at hp2
    have hfuA : (unmemoCount g.data
        (⟨[(Value.prim Prim.null, pj), (Value.ref 0, g.rootIndex)],
          [HObj.obj (Value.prim Prim.null) []]⟩ : DSt) + 1) * (1 + 1) ≤
        (F3+1) + 1 := by
      have hu := unmemo_le g.data
        (⟨[(Value.prim Prim.null, pj), (Value.ref 0, g.rootIndex)],
          [HObj.obj (Value.prim Prim.null) []]⟩ : DSt)
      have h2 := Nat.mul_le_mul_right (1 + 1)
        (show unmemoCount g.data
          (⟨[(Value.prim Prim.null, pj), (Value.ref 0, g.rootIndex)],
            [HObj.obj (Value.prim Prim.null) []]⟩ : DSt) + 1 ≤
          g.data.length + 1 by omega)
      omega
    have hg := gspec_of_ih hwfD ((F3+1)+1)
      (fun st i hi hinv hm => getRec_total hwfD ((F3+1)+1) st i hi hinv hm) _ hfuA
    have hRI : pj < g.data.length ∧ (∀ kj ∈ ([] : List (String × Nat)),
        kj.2 < g.data.length) ∧
        (∀ kd ∈ [(key, sd)], sdIdxOK g.data.length kd.2) :=
      (hcharD _ _ hobj).1
    obtain ⟨st4, hEqD, hinv4, hext4, hu4, hshape4, hun4, hpin4⟩ :=
      defineProps_total hg [(key, sd)] 0
        (⟨[(Value.prim Prim.null, pj), (Value.ref 0, g.rootIndex)],
          [HObj.obj (Value.prim Prim.null) []]⟩ : DSt)
        hRI.2.2 (by show (0:Nat) < 1; omega) hinv2 (le_refl _)
    obtain ⟨gg, ss, oo, hown, hpg, hps, hpo⟩ :=
      hpin4 (by simp) rfl key sd (List.mem_singleton.mpr rfl)
    have hgg : gg = none := hpg.1 hg0
    have hss : ss = none := hps.1 hs0'
    have hoo : oo = some (.prim p) := (hpo.2.2 vj hsv hvj0).2 p hvjslot
    rw [hgg, hss, hoo, hc2, hw2, he2] at hown
    have e1 : getRec [] g.data (((F3+1)+1)+1) (⟨[], []⟩ : DSt) g.rootIndex =
        dbind (getRec [] g.data ((F3+1)+1) (⟨[], []⟩ : DSt) pj) (fun pp =>
          dbind (assignProps (getRec [] g.data ((F3+1)+1)) [] pp.2.heap.length
              (pushD (allocD pp.2 (HObj.obj pp.1 []))
                (Value.ref pp.2.heap.length) g.rootIndex))
            (fun st3 =>
              dbind (defineProps (getRec [] g.data ((F3+1)+1)) [(key, sd)]
                  pp.2.heap.length st3)
                (fun st4 => some (Except.ok (Value.ref pp.2.heap.length, st4))))) := by
      conv_lhs => rw [getRec]
      rw [show findElem ((⟨[], []⟩ : DSt)).indexMap g.rootIndex = none from rfl,
        hobj]
    refine ⟨st4, ?_, hown⟩
    show getRec [] g.data (((F3+1)+1)+1) (⟨[], []⟩ : DSt) g.rootIndex = _
    rw [e1, eProto, dbind_ok]
    show dbind (defineProps (getRec [] g.data ((F3+1)+1)) [(key, sd)] 0
        (⟨[(Value.prim Prim.null, pj), (Value.ref 0, g.rootIndex)],
          [HObj.obj (Value.prim Prim.null) []]⟩ : DSt))
      (fun st4 => some (Except.ok (Value.ref 0, st4))) =
      some (Except.ok (Value.ref 0, st4))
    rw [hEqD, dbind_ok]
  · -- the accessor attribute
    intro key pg ps en cf hkey
    obtain ⟨g, h1, stf, henc, hroot0, hdata, hfind, hlt, hcell0, hfilled, hidxlt,
      hprimslot, hfilledD, hcharD⟩ :=
      c3_encode_facts (.obj (.prim .null)
        [(key, .accessor (some (.prim pg)) (some (.prim ps)) en cf)])
        (by
          intro v hv b hvb
          have hv2 : v = Value.prim Prim.null ∨ v = Value.prim pg ∨
              v = Value.prim ps := by
            simpa [cellKids, descKids] using hv
          rcases hv2 with h | h | h <;> rw [h] at hvb <;> cases hvb)
        rfl rfl
        (fun proto props h => by injection h with h1' h2'; exact ⟨.null, h1'.symm⟩)
    refine ⟨g, h1, henc, ?_⟩
    intro fuel hfuel
    obtain ⟨r0, hs0, hok0⟩ := hfilled _ (findIdx_mem_entry hfind)
    obtain ⟨c0, hc0, hcr0⟩ :=
      (hok0 : ∃ c2, stf.heap.get? 0 = some c2 ∧ CellRec (.prim .null) stf c2 r0)
    rw [hcell0] at hc0
    injection hc0 with hc0e
    rw [← hc0e] at hcr0
    obtain ⟨pj, refs, descs, hr0, hfpj, hpm⟩ := hcr0
    have hpm2 : PropsMapped stf.indexMap
        [(key, PropDesc.accessor (some (.prim pg)) (some (.prim ps)) en cf)]
        refs descs := hpm
    unfold PropsMapped at hpm2
    rw [if_neg hkey] at hpm2
    rw [if_neg (show ¬ isTypical (PropDesc.accessor (some (Value.prim pg))
        (some (Value.prim ps)) en cf) = true by simp [isTypical])] at hpm2
    obtain ⟨sd, descs', hdm, hdescseq, hrest⟩ := hpm2
    have hrefs0 : refs = [] := hrest.1
    have hdescs'0 : descs' = [] := hrest.2
    obtain ⟨hdg, hds, hdv, hdc, hdw, hde⟩ := hdm
    have hdg2 : ∃ j, findIdx stf.indexMap (Value.prim pg) = some j ∧
        sd.get? = some j := hdg
    obtain ⟨gj, hfgj, hsg⟩ := hdg2
    have hds2 : ∃ j, findIdx stf.indexMap (Value.prim ps) = some j ∧
        sd.set? = some j := hds
    obtain ⟨sj, hfsj, hss'⟩ := hds2
    have hv0 : sd.value? = none := hdv
    have hc2 : sd.configurable = cf := hdc
    have hw2 : sd.writable? = none := hdw
    have he2 : sd.enumerable = en := hde
    have hr0' : r0 = Record.object pj [] [(key, sd)] := by
      rw [hr0, hrefs0, hdescseq, hdescs'0]
    have hobj : g.data.get? g.rootIndex =
        some (some (Record.object pj [] [(key, sd)])) := by
      rw [hdata, ← hr0']
      exact hs0
    have hpjslot : g.data.get? pj = some (some (.primitive .null)) := by
      rw [hdata]
      exact hprimslot .null pj hfpj
    have hgjslot : g.data.get? gj = some (some (.primitive pg)) := by
      rw [hdata]
      exact hprimslot pg gj hfgj
    have hsjslot : g.data.get? sj = some (some (.primitive ps)) := by
      rw [hdata]
      exact hprimslot ps sj hfsj
    have hroothere : g.data.get? 0 =
        some (some (Record.object pj [] [(key, sd)])) := by
      rw [← hroot0]
      exact hobj
    have hgj0 : gj ≠ 0 := by
      intro h
      rw [h, hroothere] at hgjslot
      simp at hgjslot
    have hsj0 : sj ≠ 0 := by
      intro h
      rw [h, hroothere] at hsjslot
      simp at hsjslot
    have hipj : g.rootIndex ≠ pj := by
      intro h
      rw [h, hpjslot] at hobj
      simp at hobj
    obtain ⟨F1, rfl⟩ : ∃ k, fuel = k + 1 := ⟨fuel - 1, by omega⟩
    obtain ⟨F2, rfl⟩ : ∃ k, F1 = k + 1 := ⟨F1 - 1, by omega⟩
    obtain ⟨F3, rfl⟩ : ∃ k, F2 = k + 1 := ⟨F2 - 1, by omega⟩
    have hwfD := c2_dataWF hfilledD hcharD
    have eProto : getRec [] g.data ((F3+1)+1) (⟨[], []⟩ : DSt) pj =
        some (.ok (.prim .null, (⟨[(Value.prim Prim.null, pj)], []⟩ : DSt))) := by
      conv_lhs => rw [getRec]
      rw [show findElem ((⟨[], []⟩ : DSt)).indexMap pj = none from rfl, hpjslot]
      rfl
    have hinv2 : DInv g.data
        (⟨[(Value.prim Prim.null, pj), (Value.ref 0, g.rootIndex)],
          [HObj.obj (Value.prim Prim.null) []]⟩ : DSt) := by
      constructor
      · intro e he
        have he' : e = (Value.prim Prim.null, pj) ∨
            e = (Value.ref 0, g.rootIndex) := by simpa using he
        rcases he' with rfl | rfl
        · exact get?_lt_length hpjslot
        · exact hlt
      · intro e he p' hp
        have he' : e = (Value.prim Prim.null, pj) ∨
            e = (Value.ref 0, g.rootIndex) := by simpa using he
        rcases he' with rfl | rfl
        · have hp2 : g.data.get? pj = some (some (.primitive p')) := hp
          rw [hpjslot] at hp2
          simp only [Option.some.injEq, Record.primitive.injEq] at hp2
          show Value.prim Prim.null = Value.prim p'
          rw [← hp2]
        · exfalso
          have hp2 : g.data.get? g.rootIndex = some (some (.primitive p')) := hp
          rw [hobj] at hp2
          simp at hp2
    have hfuA : (unmemoCount g.data
        (⟨[(Value.prim Prim.null, pj), (Value.ref 0, g.rootIndex)],
          [HObj.obj (Value.prim Prim.null) []]⟩ : DSt) + 1) * (1 + 1) ≤
        (F3+1) + 1 := by
      have hu := unmemo_le g.data
        (⟨[(Value.prim Prim.null, pj), (Value.ref 0, g.rootIndex)],
          [HObj.obj (Value.prim Prim.null) []]⟩ : DSt)
      have h2 := Nat.mul_le_mul_right (1 + 1)
        (show unmemoCount g.data
          (⟨[(Value.prim Prim.null, pj), (Value.ref 0, g.rootIndex)],
            [HObj.obj (Value.prim Prim.null) []]⟩ : DSt) + 1 ≤
          g.data.length + 1 by omega)
      omega
    have hg := gspec_of_ih hwfD ((F3+1)+1)
      (fun st i hi hinv hm => getRec_total hwfD ((F3+1)+1) st i hi hinv hm) _ hfuA
    have hRI : pj < g.data.length ∧ (∀ kj ∈ ([] : List (String × Nat)),
        kj.2 < g.data.length) ∧
        (∀ kd ∈ [(key, sd)], sdIdxOK g.data.length kd.2) :=
      (hcharD _ _ hobj).1
    obtain ⟨st4, hEqD, hinv4, hext4, hu4, hshape4, hun4, hpin4⟩ :=
      defineProps_total hg [(key, sd)] 0
        (⟨[(Value.prim Prim.null, pj), (Value.ref 0, g.rootIndex)],
          [HObj.obj (Value.prim Prim.null) []]⟩ : DSt)
        hRI.2.2 (by show (0:Nat) < 1; omega) hinv2 (le_refl _)
    obtain ⟨gg, ss, oo, hown, hpg, hps', hpo⟩ :=
      hpin4 (by simp) rfl key sd (List.mem_singleton.mpr rfl)
    have hgg : gg = some (.prim pg) := (hpg.2.2 gj hsg hgj0).2 pg hgjslot
    have hss : ss = some (.prim ps) := (hps'.2.2 sj hss' hsj0).2 ps hsjslot
    have hoo : oo = none := hpo.1 hv0
    rw [hgg, hss, hoo, hc2, hw2, he2] at hown
    have e1 : getRec [] g.data (((F3+1)+1)+1) (⟨[], []⟩ : DSt) g.rootIndex =
        dbind (getRec [] g.data ((F3+1)+1) (⟨[], []⟩ : DSt) pj) (fun pp =>
          dbind (assignProps (getRec [] g.data ((F3+1)+1)) [] pp.2.heap.length
              (pushD (allocD pp.2 (HObj.obj pp.1 []))
                (Value.ref pp.2.heap.length) g.rootIndex))
            (fun st3 =>
              dbind (defineProps (getRec [] g.data ((F3+1)+1)) [(key, sd)]
                  pp.2.heap.length st3)
                (fun st4 => some (Except.ok (Value.ref pp.2.heap.length, st4))))) := by
      conv_lhs => rw [getRec]
      rw [show findElem ((⟨[], []⟩ : DSt)).indexMap g.rootIndex = none from rfl,
        hobj]
    refine ⟨st4, ?_, hown⟩
    show getRec [] g.data (((F3+1)+1)+1) (⟨[], []⟩ : DSt) g.rootIndex = _
    rw [e1, eProto, dbind_ok]
    show dbind (defineProps (getRec [] g.data ((F3+1)+1)) [(key, sd)] 0
        (⟨[(Value.prim Prim.null, pj), (Value.ref 0, g.rootIndex)],
          [HObj.obj (Value.prim Prim.null) []]⟩ : DSt))
      (fun st4 => some (Except.ok (Value.ref 0, st4))) =
      some (Except.ok (Value.ref 0, st4))
    rw [hEqD, dbind_ok]

/-- C5 (amended, witness): the object with the single non-enumerable,
writable, configurable data attribute `x = 7` decodes with `x = 7`,
`enumerable: false`, `configurable: true` preserved and `writable`
collapsed to `false`; the object with the single accessor attribute `y`
(getter value `1`, setter value `2`, enumerable, configurable) decodes
with all four accessor fields preserved. -/
theorem c5_descriptor_amended_witness :
    (∃ stF, wireDecode [] 11
        (⟨0, [some (.object 1 [] [("x", ⟨none, none, some 2, true, none, false⟩)]),
              some (.primitive .null), some (.primitive (.num 7))],
          [(.ref 0, 0), (.prim .null, 1), (.prim (.num 7), 2)]⟩ : Graph) [] =
        some (.ok (.ref 0, stF)) ∧
      ownProp stF.heap 0 "x" = some (.data (.prim (.num 7)) false false true)) ∧
    (∃ stF, wireDecode [] 13
        (⟨0, [some (.object 1 [] [("y", ⟨some 2, some 3, none, true, none, true⟩)]),
              some (.primitive .null), some (.primitive (.num 1)),
              some (.primitive (.num 2))],
          [(.ref 0, 0), (.prim .null, 1), (.prim (.num 1), 2),
           (.prim (.num 2), 3)]⟩ : Graph) [] =
        some (.ok (.ref 0, stF)) ∧
      ownProp stF.heap 0 "y" =
        some (.accessor (some (.prim (.num 1))) (some (.prim (.num 2)))
          true true)) := by
  obtain ⟨hdatapart, haccpart⟩ := c5_descriptor_amended
  constructor
  · obtain ⟨g, h1, henc, hdec⟩ := hdatapart "x" (.num 7) true false true
      (by decide) (by decide)
    have hc : serializeTop [] (.prim .null)
        (encodeFuel [.obj (.prim .null)
          [("x", .data (.prim (.num 7)) true false true)]])
        [.obj (.prim .null) [("x", .data (.prim (.num 7)) true false true)]]
        (.ref 0) =
        some ((⟨0, [some (.object 1 []
            [("x", ⟨none, none, some 2, true, none, false⟩)]),
          some (.primitive .null), some (.primitive (.num 7))],
          [(.ref 0, 0), (.prim .null, 1), (.prim (.num 7), 2)]⟩ : Graph),
          [.obj (.prim .null)
            [("x", .data (.prim (.num 7)) true false true)]]) := by decide
    rw [hc] at henc
    injection henc with hpair
    have hg : (⟨0, [some (.object 1 []
        [("x", ⟨none, none, some 2, true, none, false⟩)]),
        some (.primitive .null), some (.primitive (.num 7))],
        [(.ref 0, 0), (.prim .null, 1), (.prim (.num 7), 2)]⟩ : Graph) = g :=
      congrArg Prod.fst hpair
    rw [← hg] at hdec
    exact hdec 11 (by decide)
  · obtain ⟨g, h1, henc, hdec⟩ := haccpart "y" (.num 1) (.num 2) true true
      (by decide)
    have hc : serializeTop [] (.prim .null)
        (encodeFuel [.obj (.prim .null)
          [("y", .accessor (some (.prim (.num 1))) (some (.prim (.num 2)))
            true true)]])
        [.obj (.prim .null)
          [("y", .accessor (some (.prim (.num 1))) (some (.prim (.num 2)))
            true true)]] (.ref 0) =
        some ((⟨0, [some (.object 1 []
            [("y", ⟨some 2, some 3, none, true, none, true⟩)]),
          some (.primitive .null), some (.primitive (.num 1)),
          some (.primitive (.num 2))],
          [(.ref 0, 0), (.prim .null, 1), (.prim (.num 1), 2),
           (.prim (.num 2), 3)]⟩ : Graph),
          [.obj (.prim .null)
            [("y", .accessor (some (.prim (.num 1))) (some (.prim (.num 2)))
              true true)]]) := by decide
    rw [hc] at henc
    injection henc with hpair
    have hg : (⟨0, [some (.object 1 []
        [("y", ⟨some 2, some 3, none, true, none, true⟩)]),
        some (.primitive .null), some (.primitive (.num 1)),
        some (.primitive (.num 2))],
        [(.ref 0, 0), (.prim .null, 1), (.prim (.num 1), 2),
         (.prim (.num 2), 3)]⟩ : Graph) = g :=
      congrArg Prod.fst hpair
    rw [← hg] at hdec
    exact hdec 13 (by decide)

/-! ### Plain-data round trip: encode-side facts -/

theorem findElem_append_cases {m ext : List (Value × Nat)} {i : Nat} {w : Value}
    (h : findElem (m ++ ext) i = some w) :
    findElem m i = some w ∨ (findElem m i = none ∧ findElem ext i = some w) := by
  induction m with
  | nil =>
    right
    exact ⟨rfl, h⟩
  | cons e rest ih =>
    by_cases he : e.2 = i
    · simp only [List.cons_append, findElem, if_pos he] at h
      left
      simp only [findElem, if_pos he]
      exact h
    · simp only [List.cons_append, findElem, if_neg he] at h
      rcases ih h with h1 | ⟨h1, h2⟩
      · left
        simp only [findElem, if_neg he]
        exact h1
      · right
        exact ⟨by simp only [findElem, if_neg he]; exact h1, h2⟩

theorem CellCoh_mono {data : List (Option Record)} {st st' : DSt} {i : Nat}
    {w : Value} (hm : ∃ ext, st'.indexMap = st.indexMap ++ ext)
    (hh : ∀ b, b < st.heap.length → st'.heap.get? b = st.heap.get? b)
    (hc : CellCoh data st i w) : CellCoh data st' i w := by
  obtain ⟨ext, hext⟩ := hm
  constructor
  · intro is hslot
    obtain ⟨a, vs, hw, hcell, hlen, hpt⟩ := hc.1 is hslot
    refine ⟨a, vs, hw, by rw [hh a (get?_lt_length hcell)]; exact hcell, hlen, ?_⟩
    intro n j hj
    obtain ⟨u, hu, hlk⟩ := hpt n j hj
    exact ⟨u, hu, by rw [hext]; exact findElem_append_some hlk⟩
  · intro pj refs hslot
    obtain ⟨a, pv, props, hw, hcell, hlen, hpt⟩ := hc.2 pj refs hslot
    refine ⟨a, pv, props, hw, by rw [hh a (get?_lt_length hcell)]; exact hcell,
      hlen, ?_⟩
    intro n k j hj
    obtain ⟨u, hu, hlk⟩ := hpt n k j hj
    exact ⟨u, hu, by rw [hext]; exact findElem_append_some hlk⟩

theorem plainHeap_srcHeap {h : List HObj} (hp : PlainHeap h) : SrcHeap h := by
  intro a c ha
  rcases hp a c ha with ⟨elems, rfl⟩ | ⟨pp, props, rfl, _⟩ <;> rfl

theorem funcRefB_eq_false {h : List HObj} {a : Nat}
    (hne : ∀ s e p pr, h.get? a ≠ some (.func s e p pr)) :
    funcRefB h (.ref a) = false := by
  show (match h.get? a with
    | some (HObj.func _ _ _ _) => true
    | _ => false) = false
  cases hc : h.get? a with
  | none => rfl
  | some c =>
    cases c with
    | func s e p pr => exact absurd hc (hne s e p pr)
    | arr elems => rfl
    | obj p pr => rfl
    | date t => rfl
    | regex s => rfl
    | thunk i p pr => rfl
    | implFn i p => rfl

theorem plainHeap_funcCount {h : List HObj} (hp : PlainHeap h) :
    funcCount h = 0 := by
  unfold funcCount funcAddrs
  rw [List.length_eq_zero, List.filter_eq_nil]
  intro a _
  simp only [Bool.not_eq_true]
  apply funcRefB_eq_false
  intro s e p pr hc
  rcases hp a _ hc with ⟨elems, he⟩ | ⟨pp, props, he, _⟩ <;> simp at he

theorem propsMapped_typical {m : List (Value × Nat)} :
    ∀ (props : List (String × PropDesc)) {refs : List (String × Nat)}
      {descs : List (String × SDesc)},
    PropsMapped m props refs descs →
    (∀ kv ∈ props, kv.1 ≠ "__closure" ∧ isTypical kv.2 = true) →
    descs = [] ∧ refs.length = props.length ∧
      ∀ n kv, props.get? n = some kv →
        ∃ j, refs.get? n = some (kv.1, j) ∧
          findIdx m (dataValueOf kv.2) = some j := by
  intro props
  induction props with
  | nil =>
    intro refs descs h _
    have h' : refs = [] ∧ descs = [] := h
    exact ⟨h'.2, by rw [h'.1]; rfl, fun n kv hkv => by simp at hkv⟩
  | cons kv0 rest ih =>
    obtain ⟨k, dsc⟩ := kv0
    intro refs descs h hok
    have hne : k ≠ "__closure" := (hok (k, dsc) (List.mem_cons_self _ _)).1
    have hty : isTypical dsc = true := (hok (k, dsc) (List.mem_cons_self _ _)).2
    have h2 : PropsMapped m ((k, dsc) :: rest) refs descs := h
    unfold PropsMapped at h2
    rw [if_neg hne, if_pos hty] at h2
    obtain ⟨j, refs', hfj, hrefs, hrest⟩ := h2
    obtain ⟨hd, hl, hpt⟩ :=
      ih hrest (fun kv' hkv' => hok kv' (List.mem_cons_of_mem _ hkv'))
    refine ⟨hd, by rw [hrefs]; simp [hl], ?_⟩
    intro n kv' hkv'
    match n with
    | 0 =>
      have hk0 : kv' = (k, dsc) := by
        have := hkv'
        simp at this
        exact this.symm
      rw [hrefs, hk0]
      exact ⟨j, rfl, hfj⟩
    | n+1 =>
      rw [hrefs]
      exact hpt n kv' (by simpa using hkv')

/-- Encoding any value over a plain-data heap: the final state's facts.
The content array mirrors the memo slot by slot, every slot is filled
with a plain-shaped record, and the original heap is untouched. -/
theorem c1_encode_facts (h0 : List HObj) (v0 : Value)
    (hwf : WFHeap h0) (hplain : PlainHeap h0)
    (hv0 : ∀ b, v0 = .ref b → b < h0.length) :
    ∃ (g : Graph) (h1 : List HObj) (stf : GState),
      serializeTop [] (.prim .null) (encodeFuel h0) h0 v0 = some (g, h1) ∧
      g.data = stf.contentArray ∧
      findIdx stf.indexMap v0 = some g.rootIndex ∧
      g.rootIndex < g.data.length ∧
      (∀ e ∈ stf.indexMap, ∃ r, stf.contentArray.get? e.2 = some (some r) ∧
        SlotOK [] (.prim .null) stf e.1 r) ∧
      (∀ a, a < h0.length → stf.heap.get? a = h0.get? a) ∧
      stf.heap.length = h0.length ∧
      (∀ v j, findIdx stf.indexMap v = some j → j < stf.contentArray.length) ∧
      (∀ p j, findIdx stf.indexMap (.prim p) = some j →
        stf.contentArray.get? j = some (some (.primitive p))) ∧
      (∀ i, i < g.data.length → ∃ r, g.data.get? i = some (some r)) ∧
      PlainSlots g.data := by
  have hsrch : SrcHeap h0 := plainHeap_srcHeap hplain
  have hinv0 : EInv [] h0 (.prim .null) v0 ⟨[], [], h0⟩ := by
    refine ⟨by simp, by simp, by simp [countFR], le_refl _, fun a ha => rfl, ?_,
      by simp, by simp⟩
    intro a c ha hc
    exfalso
    have := get?_lt_length hc
    simp only [] at this
    omega
  obtain ⟨⟨i0, stf⟩, hadd, hinv, hgext, hupres, hfind, hlt⟩ :=
    addRec_total [] h0 (.prim .null) v0 hwf hsrch
      (fun a ha => by cases ha) (encodeFuel h0)
      ⟨[], [], h0⟩ v0 hinv0
      (by
        cases v0 with
        | ref b => exact hv0 b rfl
        | prim p => exact Or.inr (Or.inr rfl))
      (by unfold encodeFuel; simp)
  dsimp only at hadd hinv hgext hupres hfind hlt
  have hfilled : ∀ e ∈ stf.indexMap, ∃ r,
      stf.contentArray.get? e.2 = some (some r) ∧
      SlotOK [] (.prim .null) stf e.1 r := by
    intro e he
    rcases hinv.slotsOK e he with hs | ⟨r, hs, hok⟩
    · exfalso
      have hcon := hupres e.2 hs
      simp at hcon
    · exact ⟨r, hs, hok⟩
  have hentry : ∀ i, i < stf.contentArray.length →
      ∃ v, (v, i) ∈ stf.indexMap := by
    intro i hi
    have hmem : i ∈ stf.indexMap.map Prod.snd := by
      rw [hinv.idxSeq]
      exact List.mem_range.mpr hi
    obtain ⟨e, he, hei⟩ := List.mem_map.1 hmem
    refine ⟨e.1, ?_⟩
    rw [← hei, Prod.mk.eta]
    exact he
  have hidxlt : ∀ v j, findIdx stf.indexMap v = some j →
      j < stf.contentArray.length := by
    intro v j hj
    have hmem := findIdx_mem_snd hj
    rw [hinv.idxSeq] at hmem
    exact List.mem_range.mp hmem
  have hprimslot : ∀ p j, findIdx stf.indexMap (.prim p) = some j →
      stf.contentArray.get? j = some (some (.primitive p)) := by
    intro p j hj
    obtain ⟨r, hs, hok⟩ := hfilled _ (findIdx_mem_entry hj)
    have hr : r = .primitive p := hok
    rw [hr] at hs
    exact hs
  have hheq : stf.heap.length = h0.length := by
    have hb1 := hinv.heapBound
    have hb2 := @countFR_le_funcCount h0 _ hinv.valsNodup
    have hb3 := plainHeap_funcCount hplain
    have hb4 := hinv.heapLen
    omega
  have hhext : ∀ a, a < h0.length → stf.heap.get? a = h0.get? a := hinv.heapExt
  refine ⟨{ rootIndex := i0, data := stf.contentArray, indexMap := stf.indexMap },
    stf.heap, stf, by unfold serializeTop; rw [hadd], rfl, hfind, hlt,
    hfilled, hhext, hheq, hidxlt, hprimslot, ?_, ?_⟩
  · intro i hi
    obtain ⟨v, hv⟩ := hentry i hi
    obtain ⟨r, hs, _⟩ := hfilled _ hv
    exact ⟨r, hs⟩
  · intro i r hri
    have hilen : i < stf.contentArray.length := get?_lt_length hri
    obtain ⟨v, hv⟩ := hentry i hilen
    obtain ⟨r', hs', hok'⟩ := hfilled _ hv
    have hrr : r' = r := by
      rw [hri] at hs'
      injection hs' with hx1
      injection hx1 with hx2
      exact hx2.symm
    rw [hrr] at hok'
    cases v with
    | prim p =>
      have hrp : r = .primitive p := hok'
      exact Or.inl ⟨p, hrp⟩
    | ref a =>
      obtain ⟨c, hc, hcr⟩ :=
        (hok' : ∃ c, stf.heap.get? a = some c ∧
          CellRec (.prim .null) stf c r)
      have halt : a < h0.length := by
        have := get?_lt_length hc
        omega
      have hc0 : h0.get? a = some c := by
        rw [← hhext a halt]
        exact hc
      rcases hplain a c hc0 with ⟨elems, rfl⟩ | ⟨pp, props, rfl, hnd, hnc, htyp⟩
      · obtain ⟨is, hre, hislen, hispt⟩ := hcr
        refine Or.inr (Or.inl ⟨is, hre, ?_⟩)
        intro j hj
        obtain ⟨n, hn⟩ := List.mem_iff_get?.mp hj
        have hnlt : n < elems.length := by
          have := get?_lt_length hn
          omega
        obtain ⟨v', hv'⟩ := exists_get? hnlt
        obtain ⟨j', hj', hfj'⟩ := hispt n v' hv'
        have hjj : j' = j := by
          rw [hn] at hj'
          injection hj' with h
          exact h.symm
        rw [hjj] at hfj'
        exact hidxlt v' j hfj'
      · obtain ⟨pj, refs, descs, hre, hfp, hpm⟩ := hcr
        obtain ⟨hdescs, hreflen, hptw⟩ := propsMapped_typical props hpm
          (by
            intro kv hkv
            refine ⟨?_, ?_⟩
            · intro hcon
              exact hnc (by rw [← hcon]; exact List.mem_map.2 ⟨kv, hkv, rfl⟩)
            · obtain ⟨w, hw⟩ := htyp kv hkv
              rw [hw]
              rfl)
        refine Or.inr (Or.inr ⟨pj, refs, by rw [← hdescs]; exact hre,
          hidxlt _ pj hfp, ?_, ?_, ⟨pp, hprimslot pp pj hfp⟩⟩)
        · intro kj hkj
          obtain ⟨n, hn⟩ := List.mem_iff_get?.mp hkj
          have hnlt : n < props.length := by
            have := get?_lt_length hn
            omega
          obtain ⟨kv, hkv⟩ := exists_get? hnlt
          obtain ⟨j, hj, hfj⟩ := hptw n kv hkv
          have hjj : (kv.1, j) = kj := by
            rw [hn] at hj
            injection hj with h
            exact h.symm
          rw [← hjj]
          exact hidxlt _ j hfj
        · have hkeys : refs.map Prod.fst = props.map Prod.fst := by
            apply list_ext_q
            intro m
            by_cases hm : m < props.length
            · obtain ⟨kv, hkv⟩ := exists_get? hm
              obtain ⟨j, hj, _⟩ := hptw m kv hkv
              rw [List.get?_map, List.get?_map, hj, hkv]
              rfl
            · have hr2 : refs.get? m = none := List.get?_eq_none.mpr (by omega)
              have hp2 : props.get? m = none := List.get?_eq_none.mpr (by omega)
              rw [List.get?_map, List.get?_map, hr2, hp2]
              rfl
          rw [hkeys]
          exact hnd

/-- What the memo proves about represented values: a value representing
plain data `d` is memoized at a slot whose record represents `d`. -/
theorem encRepr {h0 : List HObj} {stf : GState}
    (hfilled : ∀ e ∈ stf.indexMap, ∃ r,
      stf.contentArray.get? e.2 = some (some r) ∧
      SlotOK [] (.prim .null) stf e.1 r)
    (hhext : ∀ a, a < h0.length → stf.heap.get? a = h0.get? a) :
    (d : PlainData) → (v : Value) → (i : Nat) → ReprVal h0 v d →
    findIdx stf.indexMap v = some i → RecRepr stf.contentArray d i
  | .prim p, v, i, hr, hf => by
    rw [ReprVal] at hr
    rw [hr] at hf
    obtain ⟨r, hs, hok⟩ := hfilled _ (findIdx_mem_entry hf)
    have hrp : r = .primitive p := hok
    rw [RecRepr]
    rw [← hrp]
    exact hs
  | .arr ds, v, i, hr, hf => by
    rw [ReprVal] at hr
    obtain ⟨a, elems, rfl, ha, hlen, hpt⟩ := hr
    obtain ⟨r, hs, hok⟩ := hfilled _ (findIdx_mem_entry hf)
    obtain ⟨c, hc, hcr⟩ := (hok : ∃ c, stf.heap.get? a = some c ∧
      CellRec (.prim .null) stf c r)
    have hc0 : stf.heap.get? a = some (HObj.arr elems) := by
      rw [hhext a (get?_lt_length ha)]
      exact ha
    rw [hc0] at hc
    injection hc with hce
    rw [← hce] at hcr
    obtain ⟨is, hre, hislen, hispt⟩ := hcr
    rw [RecRepr]
    refine ⟨is, by rw [← hre]; exact hs, by omega, ?_⟩
    intro n d j hd hj
    have hn : n < elems.length := by
      have h1 := get?_lt_length hd
      omega
    obtain ⟨w, hw⟩ := exists_get? hn
    obtain ⟨j', hj', hfj'⟩ := hispt n w hw
    have hjj : j' = j := by
      rw [hj] at hj'
      injection hj' with h
      exact h.symm
    rw [hjj] at hfj'
    exact encRepr hfilled hhext d w j (hpt n w d hw hd) hfj'
  | .obj kds, v, i, hr, hf => by
    rw [ReprVal] at hr
    obtain ⟨a, pv, props, rfl, ha, hlen, hnd, hnc, hpt⟩ := hr
    obtain ⟨r, hs, hok⟩ := hfilled _ (findIdx_mem_entry hf)
    obtain ⟨c, hc, hcr⟩ := (hok : ∃ c, stf.heap.get? a = some c ∧
      CellRec (.prim .null) stf c r)
    have hc0 : stf.heap.get? a = some (HObj.obj pv props) := by
      rw [hhext a (get?_lt_length ha)]
      exact ha
    rw [hc0] at hc
    injection hc with hce
    rw [← hce] at hcr
    obtain ⟨pj, refs, descs, hre, hfp, hpm⟩ := hcr
    have htypall : ∀ kv ∈ props, kv.1 ≠ "__closure" ∧ isTypical kv.2 = true := by
      intro kv hkv
      obtain ⟨n, hn⟩ := List.mem_iff_get?.mp hkv
      have hnlt : n < kds.length := by
        have := get?_lt_length hn
        omega
      obtain ⟨kd, hkd⟩ := exists_get? hnlt
      obtain ⟨w, hw, _⟩ := hpt n kd hkd
      have hkveq : kv = (kd.1, PropDesc.data w true true true) := by
        rw [hn] at hw
        exact Option.some.inj hw
      constructor
      · rw [hkveq]
        intro hcon
        exact hnc (by rw [← hcon]; exact List.mem_map.2 ⟨kd, List.get?_mem hkd, rfl⟩)
      · rw [hkveq]
        rfl
    obtain ⟨hdescs, hreflen, hptw⟩ := propsMapped_typical props hpm htypall
    rw [RecRepr]
    refine ⟨pj, refs, by rw [← hdescs, ← hre]; exact hs, by omega, hnd, hnc, ?_⟩
    intro n kd hkd
    have hnlt : n < props.length := by
      have h1 := get?_lt_length hkd
      omega
    obtain ⟨w, hw, hrw⟩ := hpt n kd hkd
    obtain ⟨j, hj, hfj⟩ := hptw n (kd.1, PropDesc.data w true true true) hw
    exact ⟨j, hj, encRepr hfilled hhext kd.2 w j hrw hfj⟩
termination_by d v i hr hf => sizeOf d
decreasing_by
  · have hm := List.get?_mem hd
    have h2 := List.sizeOf_lt_of_mem hm
    simp only [PlainData.arr.sizeOf_spec]
    omega
  · have hm := List.get?_mem hkd
    have h2 := List.sizeOf_lt_of_mem hm
    obtain ⟨k1, d1⟩ := kd
    simp only [PlainData.obj.sizeOf_spec, Prod.mk.sizeOf_spec] at h2 ⊢
    omega

/-- Data whose slots are plain-shaped is well-formed for decoding, with
the slot-read rank (object records above everything else). -/
theorem plainSlots_dataWF {data : List (Option Record)}
    (hfilled : ∀ i, i < data.length → ∃ r, data.get? i = some (some r))
    (hps : PlainSlots data) : DataWF [] data (slotRank data) 1 := by
  refine ⟨hfilled, ?_, ?_, ?_, ?_, ?_⟩
  · intro i r hr
    rcases hps i r hr with ⟨p, rfl⟩ | ⟨is, rfl, hb⟩ |
      ⟨pj, refs, rfl, hpj, hrefs, _, _⟩
    · trivial
    · exact hb
    · exact ⟨hpj, hrefs, fun kd hkd => absurd hkd (by simp)⟩
  · intro i k hk
    rcases hps i _ hk with ⟨p, hp⟩ | ⟨is, hp, _⟩ | ⟨pj, refs, hp, _⟩ <;>
      simp at hp
  · intro i n hn
    rcases hps i _ hn with ⟨p, hp⟩ | ⟨is, hp, _⟩ | ⟨pj, refs, hp, _⟩ <;>
      simp at hp
  · intro i p refs descs hslot
    rcases hps i _ hslot with ⟨p', hp⟩ | ⟨is, hp, _⟩ |
      ⟨pj, refs', hp, hpj, hrefs, hnd, pp, hpp⟩
    · simp at hp
    · simp at hp
    · injection hp with h1 h2 h3
      have hri : slotRank data i = 1 := by
        unfold slotRank
        rw [hslot]
      have hrp : slotRank data p = 0 := by
        unfold slotRank
        rw [h1, hpp]
      omega
  · intro i
    unfold slotRank
    split <;> omega

/-- Harvesting the final decoder state: a fully coherent memo realizes
every slot-level representation as a heap-level one. -/
theorem memoCoh_repr {data : List (Option Record)} {st : DSt}
    (hinv : DInv data st) (hmc : MemoCoh [] data st) :
    (d : PlainData) → (i : Nat) → (w : Value) → RecRepr data d i →
    findElem st.indexMap i = some w → ReprVal st.heap w d
  | .prim p, i, w, hr, hf => by
    rw [RecRepr] at hr
    rw [ReprVal]
    exact hinv.memoPrim _ (findElem_mem hf) p hr
  | .arr ds, i, w, hr, hf => by
    rw [RecRepr] at hr
    obtain ⟨is, hslot, hlen, hpt⟩ := hr
    have hc := (hmc i w hf (by simp)).1 is hslot
    obtain ⟨a, vs, rfl, hcell, hvlen, hlk⟩ := hc
    rw [ReprVal]
    refine ⟨a, vs, rfl, hcell, by omega, ?_⟩
    intro n u d hu hd
    obtain ⟨j, hj⟩ := exists_get? (show n < is.length by
      have h1 := get?_lt_length hd
      omega)
    obtain ⟨u', hu', hflk⟩ := hlk n j hj
    have huu : u' = u := by
      rw [hu] at hu'
      exact (Option.some.inj hu').symm
    rw [huu] at hflk
    exact memoCoh_repr hinv hmc d j u (hpt n d j hd hj) hflk
  | .obj kds, i, w, hr, hf => by
    rw [RecRepr] at hr
    obtain ⟨pj, refs, hslot, hlen, hnd, hnc, hpt⟩ := hr
    have hc := (hmc i w hf (by simp)).2 pj refs hslot
    obtain ⟨a, pv, props, rfl, hcell, hplen, hlk⟩ := hc
    rw [ReprVal]
    refine ⟨a, pv, props, rfl, hcell, by omega, hnd, hnc, ?_⟩
    intro n kd hkd
    obtain ⟨j, hj, hrr⟩ := hpt n kd hkd
    obtain ⟨u, hu, hflk⟩ := hlk n kd.1 j hj
    exact ⟨u, hu, memoCoh_repr hinv hmc kd.2 j u hrr hflk⟩
termination_by d i w hr hf => sizeOf d
decreasing_by
  · have hm := List.get?_mem hd
    have h2 := List.sizeOf_lt_of_mem hm
    simp only [PlainData.arr.sizeOf_spec]
    omega
  · have hm := List.get?_mem hkd
    have h2 := List.sizeOf_lt_of_mem hm
    obtain ⟨k1, d1⟩ := kd
    simp only [PlainData.obj.sizeOf_spec, Prod.mk.sizeOf_spec] at h2 ⊢
    omega

/-! ### Coherence maintenance through the decoder's steps -/

theorem findElem_singleton {v : Value} {i j : Nat} :
    findElem [(v, i)] j = if i = j then some v else none := by
  simp [findElem]

/-- Registering a primitive for its primitive slot keeps every part of
the coherence invariant. -/
theorem coh_push_prim {X : List Nat} {data : List (Option Record)} {st : DSt}
    {i : Nat} {p : Prim}
    (hslot : data.get? i = some (some (.primitive p)))
    (hb : MemoRefBound st) (hj : MemoRefInj st) (hc : MemoCoh X data st) :
    MemoRefBound (pushD st (.prim p) i) ∧ MemoRefInj (pushD st (.prim p) i) ∧
    MemoCoh X data (pushD st (.prim p) i) := by
  have hone : ∀ j' w, findElem [((Value.prim p : Value), i)] j' = some w →
      j' = i ∧ w = Value.prim p := by
    intro j' w h
    rw [findElem_singleton] at h
    by_cases hij : i = j'
    · rw [if_pos hij] at h
      exact ⟨hij.symm, (Option.some.inj h).symm⟩
    · rw [if_neg hij] at h
      cases h
  refine ⟨?_, ?_, ?_⟩
  · intro i' a hf
    rcases findElem_append_cases hf with h | ⟨h1, h2⟩
    · exact hb i' a h
    · obtain ⟨he1, he2⟩ := hone i' (.ref a) h2
      cases he2
  · intro i1 i2 a h1 h2
    rcases findElem_append_cases h1 with h1' | ⟨_, h1'⟩ <;>
      rcases findElem_append_cases h2 with h2' | ⟨_, h2'⟩
    · exact hj i1 i2 a h1' h2'
    · obtain ⟨_, he⟩ := hone i2 (.ref a) h2'
      cases he
    · obtain ⟨_, he⟩ := hone i1 (.ref a) h1'
      cases he
    · obtain ⟨_, he⟩ := hone i1 (.ref a) h1'
      cases he
  · intro i' w hf hni'
    rcases findElem_append_cases hf with h | ⟨h1, h2⟩
    · exact CellCoh_mono ⟨[((.prim p : Value), i)], rfl⟩ (fun b hb2 => rfl)
        (hc i' w h hni')
    · obtain ⟨rfl, rfl⟩ := hone i' w h2
      constructor
      · intro is hslot2
        rw [hslot] at hslot2
        simp at hslot2
      · intro pj refs hslot2
        rw [hslot] at hslot2
        simp at hslot2

/-- Allocating a fresh cell and registering a reference to it for an
index that is under construction keeps the coherence invariant. -/
theorem coh_push_fresh {X : List Nat} {data : List (Option Record)} {st : DSt}
    {i : Nat} (c : HObj) (hiX : i ∈ X)
    (hb : MemoRefBound st) (hj : MemoRefInj st) (hc : MemoCoh X data st) :
    MemoRefBound (pushD (allocD st c) (.ref st.heap.length) i) ∧
    MemoRefInj (pushD (allocD st c) (.ref st.heap.length) i) ∧
    MemoCoh X data (pushD (allocD st c) (.ref st.heap.length) i) := by
  have hone : ∀ j' w,
      findElem [((Value.ref st.heap.length : Value), i)] j' = some w →
      j' = i ∧ w = Value.ref st.heap.length := by
    intro j' w h
    rw [findElem_singleton] at h
    by_cases hij : i = j'
    · rw [if_pos hij] at h
      exact ⟨hij.symm, (Option.some.inj h).symm⟩
    · rw [if_neg hij] at h
      cases h
  have hlen : (pushD (allocD st c) (.ref st.heap.length) i).heap.length =
      st.heap.length + 1 := by
    show (st.heap ++ [c]).length = st.heap.length + 1
    simp
  refine ⟨?_, ?_, ?_⟩
  · intro i' a hf
    rw [hlen]
    rcases findElem_append_cases hf with h | ⟨h1, h2⟩
    · have := hb i' a h
      omega
    · obtain ⟨_, he⟩ := hone i' (.ref a) h2
      injection he with he2
      omega
  · intro i1 i2 a h1 h2
    rcases findElem_append_cases h1 with h1' | ⟨_, h1'⟩ <;>
      rcases findElem_append_cases h2 with h2' | ⟨_, h2'⟩
    · exact hj i1 i2 a h1' h2'
    · obtain ⟨_, he⟩ := hone i2 (.ref a) h2'
      injection he with he2
      have := hb i1 a h1'
      omega
    · obtain ⟨_, he⟩ := hone i1 (.ref a) h1'
      injection he with he2
      have := hb i2 a h2'
      omega
    · obtain ⟨he1, _⟩ := hone i1 (.ref a) h1'
      obtain ⟨he2, _⟩ := hone i2 (.ref a) h2'
      rw [he1, he2]
  · intro i' w hf hni'
    rcases findElem_append_cases hf with h | ⟨h1, h2⟩
    · refine @CellCoh_mono data st
        (pushD (allocD st c) (.ref st.heap.length) i) i' w
        ⟨[((.ref st.heap.length : Value), i)], rfl⟩
        (fun b hb2 => ?_) (hc i' w h hni')
      show (st.heap ++ [c]).get? b = st.heap.get? b
      rw [List.get?_append hb2]
    · obtain ⟨rfl, _⟩ := hone i' w h2
      exact absurd hiX hni'

/-- Mutating the cell under construction (and no other) preserves the
coherence of every entry outside the construction set. -/
theorem coh_mutate_at {X : List Nat} {data : List (Option Record)} {st : DSt}
    {a : Nat} (h' : List HObj)
    (hne : ∀ b, b < st.heap.length → b ≠ a → h'.get? b = st.heap.get? b)
    (hown : ∃ iA, iA ∈ X ∧ findElem st.indexMap iA = some (.ref a))
    (hj : MemoRefInj st) (hc : MemoCoh X data st) :
    MemoCoh X data ⟨st.indexMap, h'⟩ := by
  intro i' w hf hni'
  have hcc := hc i' w hf hni'
  constructor
  · intro is hslot
    obtain ⟨a', vs, hw, hcell, hl, hpt⟩ := hcc.1 is hslot
    have hane : a' ≠ a := by
      intro he
      obtain ⟨iA, hiA, hfA⟩ := hown
      have hie : i' = iA := by
        refine hj i' iA a' ?_ ?_
        · rw [← hw]
          exact hf
        · rw [he]
          exact hfA
      rw [hie] at hni'
      exact hni' hiA
    refine ⟨a', vs, hw, ?_, hl, hpt⟩
    show h'.get? a' = some (HObj.arr vs)
    rw [hne a' (get?_lt_length hcell) hane]
    exact hcell
  · intro pj refs hslot
    obtain ⟨a', pv, props, hw, hcell, hl, hpt⟩ := hcc.2 pj refs hslot
    have hane : a' ≠ a := by
      intro he
      obtain ⟨iA, hiA, hfA⟩ := hown
      have hie : i' = iA := by
        refine hj i' iA a' ?_ ?_
        · rw [← hw]
          exact hf
        · rw [he]
          exact hfA
      rw [hie] at hni'
      exact hni' hiA
    refine ⟨a', pv, props, hw, ?_, hl, hpt⟩
    show h'.get? a' = some (HObj.obj pv props)
    rw [hne a' (get?_lt_length hcell) hane]
    exact hcell

/-- What the fuel-indexed induction hypothesis provides to the loops, as
the plain-decode contract. -/
theorem cspec_of_ih {data : List (Option Record)} {rnk : Nat → Nat} {R : Nat}
    (hwf : DataWF [] data rnk R) (fuel : Nat) (X : List Nat)
    (ih : ∀ (st : DSt) (i : Nat), i < data.length → DInv data st →
      MemoRefBound st → MemoRefInj st → MemoCoh X data st →
      (∀ x ∈ X, ∃ w, findElem st.indexMap x = some w) →
      unmemoCount data st * (R + 1) + rnk i + 1 ≤ fuel →
      ∃ v st', getRec [] data fuel st i = some (.ok (v, st')) ∧ DInv data st' ∧
        DExt st st' ∧ MemoRefBound st' ∧ MemoRefInj st' ∧ MemoCoh X data st' ∧
        findElem st'.indexMap i = some v)
    (U0 : Nat) (hfu : (U0 + 1) * (R + 1) ≤ fuel) :
    CSpecD data (getRec [] data fuel) U0 X := by
  have hf1 : 1 ≤ fuel :=
    le_trans (Nat.mul_pos (Nat.succ_pos U0) (Nat.succ_pos R)) hfu
  refine ⟨?_, ?_⟩
  · intro st j w hw
    exact getRec_memo_hit [] data hf1 st hw
  · intro st j hj hinv hbnd hinj hcoh hXm hu
    obtain ⟨v, st', hget, hinv', hext, hbnd', hinj', hcoh', hfv⟩ :=
      ih st j hj hinv hbnd hinj hcoh hXm
        (decMeasure_le2 hu (hwf.rankBound j) hfu)
    exact ⟨v, st', hget, hinv', hext, hbnd', hinj', hcoh',
      le_trans (unmemo_mono hext.1) hu, hfv⟩

/-- Construction-set membership in the memo survives memo extension. -/
theorem Xmem_mono {X : List Nat} {st st' : DSt}
    (hext : ∃ ext, st'.indexMap = st.indexMap ++ ext)
    (hXm : ∀ x ∈ X, ∃ w, findElem st.indexMap x = some w) :
    ∀ x ∈ X, ∃ w, findElem st'.indexMap x = some w := by
  intro x hx
  obtain ⟨w, hw⟩ := hXm x hx
  obtain ⟨ext, he⟩ := hext
  exact ⟨w, by rw [he]; exact findElem_append_some hw⟩

/-- The element loop of the array branch over plain data: total, local
to the array cell, coherence-preserving, and the appended elements are
exactly the values the final memo reports for the element indices. -/
theorem getElems_coh {data : List (Option Record)} {getC : GetC} {U0 : Nat}
    {X : List Nat} (hg : CSpecD data getC U0 X) :
    ∀ (is : List Nat) (a : Nat) (st : DSt),
    (∀ j ∈ is, j < data.length) → a < st.heap.length →
    DInv data st → MemoRefBound st → MemoRefInj st → MemoCoh X data st →
    (∀ x ∈ X, ∃ w, findElem st.indexMap x = some w) →
    (∃ iA, iA ∈ X ∧ findElem st.indexMap iA = some (.ref a)) →
    unmemoCount data st ≤ U0 →
    ∃ st', getElems getC is a st = some (.ok st') ∧ DInv data st' ∧
      DExtAt a st st' ∧ MemoRefBound st' ∧ MemoRefInj st' ∧
      MemoCoh X data st' ∧ unmemoCount data st' ≤ U0 ∧
      ∀ acc, st.heap.get? a = some (.arr acc) →
        ∃ vs, st'.heap.get? a = some (.arr (acc ++ vs)) ∧
          vs.length = is.length ∧
          ∀ n j, is.get? n = some j →
            ∃ u, vs.get? n = some u ∧ findElem st'.indexMap j = some u := by
  intro is
  induction is with
  | nil =>
    intro a st _ _ hinv hb hj hc _ _ hu
    refine ⟨st, rfl, hinv, DExtAt_refl a st, hb, hj, hc, hu, ?_⟩
    intro acc hacc
    exact ⟨[], by simpa using hacc, rfl, fun n j hj2 => nomatch hj2⟩
  | cons r rest ih =>
    intro a st hrl ha hinv hb hj hc hXm hown hu
    obtain ⟨w, stg, hgc, hinvg, hextg, hbg, hjg, hcg, hug, hfw⟩ :=
      hg.2 st r (hrl r (List.mem_cons_self _ _)) hinv hb hj hc hXm hu
    have hag : a < stg.heap.length := lt_of_lt_of_le ha hextg.2.1
    have howng : ∃ iA, iA ∈ X ∧ findElem stg.indexMap iA = some (.ref a) := by
      obtain ⟨iA, hiA, hfA⟩ := hown
      obtain ⟨ext, he⟩ := hextg.1
      exact ⟨iA, hiA, by rw [he]; exact findElem_append_some hfA⟩
    have hb1 : MemoRefBound (⟨stg.indexMap, appendElemH stg.heap a w⟩ : DSt) := by
      intro i' a' hf
      show a' < (appendElemH stg.heap a w).length
      rw [appendElemH_length]
      exact hbg i' a' hf
    have hc1 : MemoCoh X data (⟨stg.indexMap, appendElemH stg.heap a w⟩ : DSt) :=
      coh_mutate_at (appendElemH stg.heap a w)
        (fun b _ hba => appendElemH_get_ne _ _ hba) howng hjg hcg
    obtain ⟨st', hEq, hinv', hext', hb', hj', hc', hu', hcontent⟩ :=
      ih a (⟨stg.indexMap, appendElemH stg.heap a w⟩ : DSt)
        (fun j hj2 => hrl j (List.mem_cons_of_mem _ hj2))
        (by show a < (appendElemH stg.heap a w).length
            rw [appendElemH_length]
            exact hag)
        (DInv_heap hinvg _) hb1 (fun i1 i2 a' h1 h2 => hjg i1 i2 a' h1 h2) hc1
        (Xmem_mono hextg.1 hXm) howng hug
    refine ⟨st', ?_, hinv', ?_, hb', hj', hc', hu', ?_⟩
    · simp only [getElems, hgc, dbind]
      exact hEq
    · refine DExtAt_trans (DExt_to_at a hextg) (DExtAt_trans ?_ hext')
      exact ⟨⟨[], by simp⟩, le_of_eq (appendElemH_length _ _ _).symm,
        fun b hb2 hba => appendElemH_get_ne _ _ hba⟩
    · intro acc hacc
      have haccg : stg.heap.get? a = some (.arr acc) := by
        rw [hextg.2.2 a ha]
        exact hacc
      have hacc1 : (appendElemH stg.heap a w).get? a =
          some (.arr (acc ++ [w])) := appendElemH_at_arr w haccg
      obtain ⟨vs, hvs, hlen, hpt⟩ := hcontent (acc ++ [w]) hacc1
      refine ⟨w :: vs, by simpa [List.append_assoc] using hvs, by simp [hlen], ?_⟩
      intro n j hj2
      match n with
      | 0 =>
        have hj0 : r = j := by simpa using hj2
        refine ⟨w, rfl, ?_⟩
        obtain ⟨ext, he⟩ := hext'.1
        rw [he]
        show findElem (stg.indexMap ++ ext) j = some w
        rw [← hj0]
        exact findElem_append_some hfw
      | n+1 =>
        simp only [List.get?] at hj2
        obtain ⟨u, hu, hlk⟩ := hpt n j hj2
        exact ⟨u, by simpa using hu, hlk⟩

/-- The `refs` loop of `deserializeProperties` over plain data: total,
local to the object cell, coherence-preserving, and with distinct fresh
keys the installed property list carries, per position, the key and the
value the final memo reports for the property's index. -/
theorem assignProps_coh {data : List (Option Record)} {getC : GetC} {U0 : Nat}
    {X : List Nat} (hg : CSpecD data getC U0 X) :
    ∀ (refs : List (String × Nat)) (a : Nat) (st : DSt),
    (∀ kj ∈ refs, kj.2 < data.length) → a < st.heap.length →
    DInv data st → MemoRefBound st → MemoRefInj st → MemoCoh X data st →
    (∀ x ∈ X, ∃ w, findElem st.indexMap x = some w) →
    (∃ iA, iA ∈ X ∧ findElem st.indexMap iA = some (.ref a)) →
    unmemoCount data st ≤ U0 →
    ∃ st', assignProps getC refs a st = some (.ok st') ∧ DInv data st' ∧
      DExtAt a st st' ∧ MemoRefBound st' ∧ MemoRefInj st' ∧
      MemoCoh X data st' ∧ unmemoCount data st' ≤ U0 ∧
      ((refs.map Prod.fst).Nodup →
        ∀ pv props0, st.heap.get? a = some (.obj pv props0) →
        (∀ k ∈ refs.map Prod.fst, lookupProp props0 k = none) →
        ∃ ws, st'.heap.get? a = some (.obj pv (props0 ++ ws)) ∧
          ws.length = refs.length ∧
          ∀ n k j, refs.get? n = some (k, j) →
            ∃ u, ws.get? n = some (k, PropDesc.data u true true true) ∧
              findElem st'.indexMap j = some u) := by
  intro refs
  induction refs with
  | nil =>
    intro a st _ _ hinv hb hj hc _ _ hu
    refine ⟨st, rfl, hinv, DExtAt_refl a st, hb, hj, hc, hu, ?_⟩
    intro _ pv props0 hacc _
    exact ⟨[], by simpa using hacc, rfl, fun n k j hj2 => nomatch hj2⟩
  | cons kr rest ih =>
    obtain ⟨k, r⟩ := kr
    intro a st hrl ha hinv hb hj hc hXm hown hu
    obtain ⟨w, stg, hgc, hinvg, hextg, hbg, hjg, hcg, hug, hfw⟩ :=
      hg.2 st r (hrl (k, r) (List.mem_cons_self _ _)) hinv hb hj hc hXm hu
    have hag : a < stg.heap.length := lt_of_lt_of_le ha hextg.2.1
    have howng : ∃ iA, iA ∈ X ∧ findElem stg.indexMap iA = some (.ref a) := by
      obtain ⟨iA, hiA, hfA⟩ := hown
      obtain ⟨ext, he⟩ := hextg.1
      exact ⟨iA, hiA, by rw [he]; exact findElem_append_some hfA⟩
    have hb1 : MemoRefBound
        (⟨stg.indexMap, setPropH stg.heap a k (.data w true true true)⟩ : DSt) := by
      intro i' a' hf
      show a' < (setPropH stg.heap a k (.data w true true true)).length
      rw [setPropH_length]
      exact hbg i' a' hf
    have hc1 : MemoCoh X data
        (⟨stg.indexMap, setPropH stg.heap a k (.data w true true true)⟩ : DSt) :=
      coh_mutate_at (setPropH stg.heap a k (.data w true true true))
        (fun b _ hba => setPropH_get_ne _ _ _ hba) howng hjg hcg
    obtain ⟨st', hEq, hinv', hext', hb', hj', hc', hu', hcontent⟩ :=
      ih a (⟨stg.indexMap, setPropH stg.heap a k (.data w true true true)⟩ : DSt)
        (fun kj hkj => hrl kj (List.mem_cons_of_mem _ hkj))
        (by show a < (setPropH stg.heap a k (.data w true true true)).length
            rw [setPropH_length]
            exact hag)
        (DInv_heap hinvg _) hb1 (fun i1 i2 a' h1 h2 => hjg i1 i2 a' h1 h2) hc1
        (Xmem_mono hextg.1 hXm) howng hug
    refine ⟨st', ?_, hinv', ?_, hb', hj', hc', hu', ?_⟩
    · simp only [assignProps, hgc, dbind]
      exact hEq
    · refine DExtAt_trans (DExt_to_at a hextg) (DExtAt_trans ?_ hext')
      exact ⟨⟨[], by simp⟩, le_of_eq (setPropH_length _ _ _ _).symm,
        fun b hb2 hba => setPropH_get_ne _ _ _ hba⟩
    · intro hnd pv props0 hacc hfresh
      have hndrest : (rest.map Prod.fst).Nodup := by
        rw [List.map_cons, List.nodup_cons] at hnd
        exact hnd.2
      have hknotin : k ∉ rest.map Prod.fst := by
        rw [List.map_cons, List.nodup_cons] at hnd
        exact hnd.1
      have haccg : stg.heap.get? a = some (.obj pv props0) := by
        rw [hextg.2.2 a ha]
        exact hacc
      have hlk : lookupProp props0 k = none := hfresh k (by simp)
      have hacc1 : (setPropH stg.heap a k (.data w true true true)).get? a =
          some (.obj pv (props0 ++ [(k, .data w true true true)])) := by
        rw [setPropH_at k (.data w true true true) haccg]
        simp only [settableCell, withProps, ownPropsOf, if_true]
        rw [assocSet_fresh _ hlk]
      have hfresh1 : ∀ k' ∈ rest.map Prod.fst,
          lookupProp (props0 ++ [(k, PropDesc.data w true true true)]) k' =
            none := by
        intro k' hk'
        have hne : k ≠ k' := fun hcon => hknotin (hcon ▸ hk')
        rw [lookupProp_append_right (hfresh k' (List.mem_cons_of_mem _ hk'))]
        simp [lookupProp, if_neg hne]
      obtain ⟨ws', hws', hlen', hpt'⟩ :=
        hcontent hndrest pv (props0 ++ [(k, .data w true true true)])
          hacc1 hfresh1
      refine ⟨(k, .data w true true true) :: ws',
        by simpa [List.append_assoc] using hws', by simp [hlen'], ?_⟩
      intro n k' j hj2
      match n with
      | 0 =>
        have hj0 : k = k' ∧ r = j := by
          simpa [Prod.ext_iff] using hj2
        obtain ⟨hk0, hr0⟩ := hj0
        refine ⟨w, by rw [← hk0]; rfl, ?_⟩
        obtain ⟨ext, he⟩ := hext'.1
        rw [he]
        show findElem (stg.indexMap ++ ext) j = some w
        rw [← hr0]
        exact findElem_append_some hfw
      | n+1 =>
        simp only [List.get?] at hj2
        obtain ⟨u, hu, hlk2⟩ := hpt' n k' j hj2
        exact ⟨u, by simpa using hu, hlk2⟩

/-- Decoding plain-shaped data: `get` with fuel covering the decode
measure succeeds, registers the decoded value, and preserves the full
coherence invariant — each array or description-free object index is
memoized at a reference to a cell mirroring its record through the
memo. -/
theorem getRec_plain {data : List (Option Record)} {rnk : Nat → Nat} {R : Nat}
    (hwf : DataWF [] data rnk R) (hps : PlainSlots data) :
    ∀ (fuel : Nat) (X : List Nat) (st : DSt) (i : Nat), i < data.length →
    DInv data st → MemoRefBound st → MemoRefInj st → MemoCoh X data st →
    (∀ x ∈ X, ∃ w, findElem st.indexMap x = some w) →
    unmemoCount data st * (R + 1) + rnk i + 1 ≤ fuel →
    ∃ v st', getRec [] data fuel st i = some (.ok (v, st')) ∧
      DInv data st' ∧ DExt st st' ∧ MemoRefBound st' ∧ MemoRefInj st' ∧
      MemoCoh X data st' ∧ findElem st'.indexMap i = some v := by
  intro fuel
  induction fuel with
  | zero =>
    intro X st i hi hinv hb hj hc hXm hm
    omega
  | succ fuel ih =>
    intro X st i hi hinv hb hj hc hXm hm
    cases hfind : findElem st.indexMap i with
    | some w =>
      refine ⟨w, st, ?_, hinv, DExt_refl st, hb, hj, hc, hfind⟩
      unfold getRec
      rw [hfind]
    | none =>
      obtain ⟨r, hslot⟩ := hwf.slotsFilled i hi
      have hUpos : 1 ≤ unmemoCount data st := unmemo_pos hi hfind
      have hfuel1 : unmemoCount data st * (R + 1) ≤ fuel := by
        have hr := hwf.rankBound i
        omega
      have hiX : i ∉ X := by
        intro hx
        obtain ⟨w, hw⟩ := hXm i hx
        rw [hfind] at hw
        cases hw
      rcases hps i r hslot with ⟨p, rfl⟩ | ⟨is, rfl, hrl⟩ |
        ⟨pj, refs, rfl, hpj, hrl, hnd, pp, hpp⟩
      · -- a primitive slot
        obtain ⟨hb', hj', hc'⟩ := coh_push_prim hslot hb hj hc
        refine ⟨.prim p, pushD st (.prim p) i, ?_, ?_, DExt_push st _ i,
          hb', hj', hc', findElem_push_self _ hfind⟩
        · unfold getRec
          rw [hfind, hslot]
        · refine DInv_push hinv hi ?_
          intro p' hp'
          rw [hslot] at hp'
          simp only [Option.some.injEq, Record.primitive.injEq] at hp'
          rw [hp']
      · -- an array slot
        have hnotprim : ∀ p', data.get? i = some (some (.primitive p')) →
            Value.ref st.heap.length = .prim p' := by
          intro p' hp'
          rw [hslot] at hp'
          simp at hp'
        have hinv1 : DInv data
            (pushD (allocD st (.arr [])) (.ref st.heap.length) i) :=
          DInv_push (DInv_heap hinv _) hi hnotprim
        have hcX : MemoCoh (i :: X) data st :=
          fun i' w hf hn => hc i' w hf (fun hx => hn (List.mem_cons_of_mem _ hx))
        obtain ⟨hb1, hj1, hc1⟩ :=
          coh_push_fresh (X := i :: X) (.arr []) (List.mem_cons_self i X)
            hb hj hcX
        have hU1 : unmemoCount data
            (pushD (allocD st (.arr [])) (.ref st.heap.length) i) + 1 ≤
            unmemoCount data st :=
          unmemo_lt_of_push hi hfind
        have hfu : (unmemoCount data
            (pushD (allocD st (.arr [])) (.ref st.heap.length) i) + 1) *
            (R + 1) ≤ fuel :=
          le_trans (Nat.mul_le_mul_right _ hU1) hfuel1
        have hg := cspec_of_ih hwf fuel (i :: X) (ih (i :: X)) _ hfu
        have ha1 : st.heap.length <
            (pushD (allocD st (.arr [])) (.ref st.heap.length) i).heap.length := by
          show st.heap.length < (st.heap ++ [HObj.arr []]).length
          simp
        have hfself : findElem
            (pushD (allocD st (.arr [])) (.ref st.heap.length) i).indexMap i =
            some (.ref st.heap.length) := findElem_push_self _ hfind
        have hXm1 : ∀ x ∈ i :: X, ∃ w, findElem
            (pushD (allocD st (.arr [])) (.ref st.heap.length) i).indexMap x =
            some w := by
          intro x hx
          rcases List.mem_cons.mp hx with rfl | hx'
          · exact ⟨.ref st.heap.length, hfself⟩
          · exact Xmem_mono ⟨[((.ref st.heap.length : Value), i)], rfl⟩ hXm x hx'
        obtain ⟨st2, hEqE, hinv2, hext2, hb2, hj2, hc2, hu2, hcontent⟩ :=
          getElems_coh hg is st.heap.length
            (pushD (allocD st (.arr [])) (.ref st.heap.length) i)
            hrl ha1 hinv1 hb1 hj1 hc1 hXm1
            ⟨i, List.mem_cons_self i X, hfself⟩ (le_refl _)
        obtain ⟨vs, hvs, hvslen, hvpt⟩ := hcontent []
          (by
            show (st.heap ++ [HObj.arr []]).get? st.heap.length =
              some (HObj.arr [])
            exact List.get?_concat_length st.heap (HObj.arr []))
        rw [List.nil_append] at hvs
        have hfst2 : findElem st2.indexMap i = some (.ref st.heap.length) := by
          obtain ⟨ext, he⟩ := hext2.1
          rw [he]
          exact findElem_append_some hfself
        have e1 : getRec [] data (fuel+1) st i =
            dbind (getElems (getRec [] data fuel) is st.heap.length
              (pushD (allocD st (.arr [])) (.ref st.heap.length) i))
              (fun st2 => some (.ok (.ref st.heap.length, st2))) := by
          unfold getRec
          rw [hfind, hslot]
        rw [hEqE, dbind_ok] at e1
        refine ⟨.ref st.heap.length, st2, e1, hinv2, ?_, hb2, hj2, ?_, hfst2⟩
        · exact DExt_comp_at
            (DExt_trans (DExt_alloc st _) (DExt_push _ _ i)) (le_refl _) hext2
        · intro i' w hf hni'
          by_cases hii : i' = i
          · rw [hii] at hf
            have hw : w = .ref st.heap.length := by
              rw [hf] at hfst2
              exact Option.some.inj hfst2
            rw [hii, hw]
            constructor
            · intro is' hslot'
              rw [hslot] at hslot'
              have hise : is' = is := by
                have h2 : is = is' := by simpa using hslot'
                exact h2.symm
              rw [hise]
              exact ⟨st.heap.length, vs, rfl, hvs, hvslen, hvpt⟩
            · intro pj' refs' hslot'
              rw [hslot] at hslot'
              simp at hslot'
          · have hni2 : i' ∉ i :: X := by
              intro hmem
              rcases List.mem_cons.mp hmem with he | he
              · exact hii he
              · exact hni' he
            exact hc2 i' w hf hni2
      · -- a description-free object slot with a primitive prototype
        obtain ⟨f', rfl⟩ : ∃ k, fuel = k + 1 := ⟨fuel - 1, by
          have : 1 * (R + 1) ≤ unmemoCount data st * (R + 1) :=
            Nat.mul_le_mul_right _ hUpos
          omega⟩
        have hipj : i ≠ pj := by
          intro he
          rw [he, hpp] at hslot
          simp at hslot
        have hproto : ∃ stp, getRec [] data (f'+1) st pj =
            some (.ok (.prim pp, stp)) ∧ DInv data stp ∧ DExt st stp ∧
            MemoRefBound stp ∧ MemoRefInj stp ∧ MemoCoh X data stp ∧
            (∀ x ∈ X, ∃ w, findElem stp.indexMap x = some w) ∧
            findElem stp.indexMap i = none ∧
            unmemoCount data stp ≤ unmemoCount data st := by
          cases hfp : findElem st.indexMap pj with
          | some wp =>
            have hwp : wp = .prim pp := hinv.memoPrim _ (findElem_mem hfp) pp hpp
            refine ⟨st, ?_, hinv, DExt_refl st, hb, hj, hc, hXm, hfind,
              le_refl _⟩
            unfold getRec
            rw [hfp, hwp]
          | none =>
            obtain ⟨hbp, hjp, hcp⟩ := coh_push_prim hpp hb hj hc
            refine ⟨pushD st (.prim pp) pj, ?_, ?_, DExt_push st _ pj,
              hbp, hjp, hcp,
              Xmem_mono ⟨[((.prim pp : Value), pj)], rfl⟩ hXm, ?_,
              le_of_lt (unmemo_lt_of_push hpj hfp)⟩
            · unfold getRec
              rw [hfp, hpp]
            · refine DInv_push hinv hpj ?_
              intro p' hp'
              rw [hpp] at hp'
              simp only [Option.some.injEq, Record.primitive.injEq] at hp'
              rw [hp']
            · rw [findElem_eq_none]
              intro e he
              rcases List.mem_append.mp he with h1 | h1
              · exact (findElem_eq_none.mp hfind) e h1
              · have he2 : e = ((.prim pp : Value), pj) := by simpa using h1
                rw [he2]
                intro hcon
                exact hipj hcon.symm
        obtain ⟨stp, hgetp, hinvp, hextp, hbp, hjp, hcp, hXmp, hfpi, hup⟩ :=
          hproto
        have hnotprim : ∀ p', data.get? i = some (some (.primitive p')) →
            Value.ref stp.heap.length = .prim p' := by
          intro p' hp'
          rw [hslot] at hp'
          simp at hp'
        have hinv2 : DInv data
            (pushD (allocD stp (.obj (.prim pp) []))
              (.ref stp.heap.length) i) :=
          DInv_push (DInv_heap hinvp _) hi hnotprim
        have hcXp : MemoCoh (i :: X) data stp :=
          fun i' w hf hn => hcp i' w hf (fun hx => hn (List.mem_cons_of_mem _ hx))
        obtain ⟨hb2, hj2, hc2o⟩ :=
          coh_push_fresh (X := i :: X) (.obj (.prim pp) [])
            (List.mem_cons_self i X) hbp hjp hcXp
        have hU2 : unmemoCount data
            (pushD (allocD stp (.obj (.prim pp) []))
              (.ref stp.heap.length) i) + 1 ≤ unmemoCount data st := by
          have h1 := @unmemo_lt_of_push data (allocD stp (.obj (.prim pp) []))
            (.ref stp.heap.length) i hi hfpi
          have h2 : unmemoCount data (allocD stp (.obj (.prim pp) [])) =
              unmemoCount data stp := rfl
          omega
        have hfu : (unmemoCount data
            (pushD (allocD stp (.obj (.prim pp) []))
              (.ref stp.heap.length) i) + 1) * (R + 1) ≤ f'+1 :=
          le_trans (Nat.mul_le_mul_right _ hU2) hfuel1
        have hg := cspec_of_ih hwf (f'+1) (i :: X) (ih (i :: X)) _ hfu
        have ha2 : stp.heap.length <
            (pushD (allocD stp (.obj (.prim pp) []))
              (.ref stp.heap.length) i).heap.length := by
          show stp.heap.length < (stp.heap ++ [HObj.obj (.prim pp) []]).length
          simp
        have hfself : findElem
            (pushD (allocD stp (.obj (.prim pp) []))
              (.ref stp.heap.length) i).indexMap i =
            some (.ref stp.heap.length) := findElem_push_self _ hfpi
        have hXm2 : ∀ x ∈ i :: X, ∃ w, findElem
            (pushD (allocD stp (.obj (.prim pp) []))
              (.ref stp.heap.length) i).indexMap x = some w := by
          intro x hx
          rcases List.mem_cons.mp hx with rfl | hx'
          · exact ⟨.ref stp.heap.length, hfself⟩
          · exact Xmem_mono ⟨[((.ref stp.heap.length : Value), i)], rfl⟩
              hXmp x hx'
        obtain ⟨st3, hEqA, hinv3, hext3, hb3, hj3, hc3, hu3, hexact3⟩ :=
          assignProps_coh hg refs stp.heap.length
            (pushD (allocD stp (.obj (.prim pp) []))
              (.ref stp.heap.length) i)
            hrl ha2 hinv2 hb2 hj2 hc2o hXm2
            ⟨i, List.mem_cons_self i X, hfself⟩ (le_refl _)
        obtain ⟨ws, hws, hwslen, hwpt⟩ := hexact3 hnd (.prim pp) []
          (by
            show (stp.heap ++ [HObj.obj (.prim pp) []]).get? stp.heap.length =
              some (HObj.obj (.prim pp) [])
            exact List.get?_concat_length stp.heap (HObj.obj (.prim pp) []))
          (fun k _ => rfl)
        rw [List.nil_append] at hws
        have hfst3 : findElem st3.indexMap i = some (.ref stp.heap.length) := by
          obtain ⟨ext, he⟩ := hext3.1
          rw [he]
          exact findElem_append_some hfself
        have e1 : getRec [] data ((f'+1)+1) st i =
            dbind (getRec [] data (f'+1) st pj) (fun p =>
              dbind (assignProps (getRec [] data (f'+1)) refs p.2.heap.length
                  (pushD (allocD p.2 (.obj p.1 [])) (.ref p.2.heap.length) i))
                (fun st3 =>
                  dbind (defineProps (getRec [] data (f'+1)) []
                      p.2.heap.length st3)
                    (fun st4 => some (.ok (.ref p.2.heap.length, st4))))) := by
          conv_lhs => rw [getRec]
          rw [hfind, hslot]
        simp only [hgetp, dbind] at e1
        simp only [hEqA, dbind] at e1
        simp only [defineProps, dbind] at e1
        refine ⟨.ref stp.heap.length, st3, e1, hinv3, ?_, hb3, hj3, ?_, hfst3⟩
        · exact DExt_comp_at
            (DExt_trans hextp (DExt_trans (DExt_alloc stp _) (DExt_push _ _ i)))
            hextp.2.1 hext3
        · intro i' w hf hni'
          by_cases hii : i' = i
          · rw [hii] at hf
            have hw : w = .ref stp.heap.length := by
              rw [hf] at hfst3
              exact Option.some.inj hfst3
            rw [hii, hw]
            constructor
            · intro is' hslot'
              rw [hslot] at hslot'
              simp at hslot'
            · intro pj' refs' hslot'
              rw [hslot] at hslot'
              have hoe : pj = pj' ∧ refs = refs' := by
                simpa using hslot'
              refine ⟨stp.heap.length, .prim pp, ws, rfl, hws, ?_, ?_⟩
              · rw [← hoe.2]
                exact hwslen
              · intro n k j hj2
                rw [← hoe.2] at hj2
                exact hwpt n k j hj2
          · have hni2 : i' ∉ i :: X := by
              intro hmem
              rcases List.mem_cons.mp hmem with he | he
              · exact hii he
              · exact hni' he
            exact hc3 i' w hf hni2

/-- C1 (amended).  For every JSON-representable value built from
primitives and acyclic nestings of arrays and plain objects none of
whose keys is the transform's reserved `__closure`, decoding the graph
produced by serializing the value — through the `toJSON`/`fromJSON`
wire boundary, into a fresh store — yields a value deep-equal to the
original: both represent the same plain data `d`.  (With a `__closure`
key the encoder drops the attribute; see the counterexample.) -/
theorem c1_plain_roundtrip_amended (h0 : List HObj) (v0 : Value)
    (d : PlainData) (hwf : WFHeap h0) (hplain : PlainHeap h0)
    (hrepr : ReprVal h0 v0 d) (hv0 : ∀ b, v0 = .ref b → b < h0.length) :
    ∃ g h1, serializeTop [] (.prim .null) (encodeFuel h0) h0 v0 =
        some (g, h1) ∧
      ∀ fuel, 2 * g.data.length + 2 ≤ fuel →
        ∃ v' stF, wireDecode [] fuel g [] = some (.ok (v', stF)) ∧
          ReprVal stF.heap v' d := by
  obtain ⟨g, h1, stf, henc, hdata, hfind, hlt, hfilled, hhext, hheq, hidxlt,
    hprimslot, hfilledD, hpsD⟩ := c1_encode_facts h0 v0 hwf hplain hv0
  refine ⟨g, h1, henc, ?_⟩
  intro fuel hfuel
  have hwfD := plainSlots_dataWF hfilledD hpsD
  have hrr : RecRepr g.data d g.rootIndex := by
    have h2 := encRepr hfilled hhext d v0 g.rootIndex hrepr hfind
    rw [hdata]
    exact h2
  have hrank1 : slotRank g.data g.rootIndex ≤ 1 := by
    unfold slotRank
    split <;> omega
  have hmeasure : unmemoCount g.data (⟨[], []⟩ : DSt) * (1 + 1) +
      slotRank g.data g.rootIndex + 1 ≤ fuel := by
    have h2 := unmemo_le g.data (⟨[], []⟩ : DSt)
    omega
  obtain ⟨v', stF, hget, hinvF, hextF, hbF, hjF, hcF, hfvF⟩ :=
    getRec_plain hwfD hpsD fuel [] (⟨[], []⟩ : DSt) g.rootIndex hlt
      ⟨fun e he => absurd he (by simp), fun e he => absurd he (by simp)⟩
      (fun i a hf => by cases hf) (fun i1 i2 a hf1 hf2 => by cases hf1)
      (fun i w hf hn => by cases hf)
      (fun x hx => absurd hx (List.not_mem_nil x)) hmeasure
  refine ⟨v', stF, ?_, ?_⟩
  · show getRec [] g.data fuel (⟨[], []⟩ : DSt) g.rootIndex = _
    exact hget
  · exact memoCoh_repr hinvF hcF d g.rootIndex v' hrr hfvF

/-- C1 (amended, witness): the plain value `\x7ba: 1, b: [2, "s"]\x7d`
round-trips through the wire boundary into a fresh store; the decoded
root represents the same plain data deeply. -/
theorem c1_plain_roundtrip_amended_witness :
    ∃ v' stF, wireDecode [] 14
        (⟨0, [some (.object 1 [("a", 2), ("b", 3)] []),
              some (.primitive .null), some (.primitive (.num 1)),
              some (.array [4, 5]), some (.primitive (.num 2)),
              some (.primitive (.str "s"))],
          [(.ref 0, 0), (.prim .null, 1), (.prim (.num 1), 2), (.ref 1, 3),
           (.prim (.num 2), 4), (.prim (.str "s"), 5)]⟩ : Graph) [] =
        some (.ok (v', stF)) ∧
      ReprVal stF.heap v'
        (.obj [("a", .prim (.num 1)),
               ("b", .arr [.prim (.num 2), .prim (.str "s")])]) := by
  obtain ⟨g, h1, henc, hdec⟩ := c1_plain_roundtrip_amended
    [.obj (.prim .null) [("a", .data (.prim (.num 1)) true true true),
                         ("b", .data (.ref 1) true true true)],
     .arr [.prim (.num 2), .prim (.str "s")]]
    (.ref 0)
    (.obj [("a", .prim (.num 1)),
           ("b", .arr [.prim (.num 2), .prim (.str "s")])])
    (wfHeapB_sound (by decide))
    (by
      intro a c ha
      match a, ha with
      | 0, ha =>
        injection (show some (HObj.obj (.prim .null)
            [("a", .data (.prim (.num 1)) true true true),
             ("b", .data (.ref 1) true true true)]) = some c from ha) with h
        rw [← h]
        refine Or.inr ⟨.null,
          [("a", .data (.prim (.num 1)) true true true),
           ("b", .data (.ref 1) true true true)], rfl, by decide, by decide, ?_⟩
        intro kv hkv
        have hkv2 : kv = ("a", PropDesc.data (.prim (.num 1)) true true true) ∨
            kv = ("b", PropDesc.data (.ref 1) true true true) := by
          simpa using hkv
        rcases hkv2 with rfl | rfl
        · exact ⟨.prim (.num 1), rfl⟩
        · exact ⟨.ref 1, rfl⟩
      | 1, ha =>
        injection (show some (HObj.arr [.prim (.num 2), .prim (.str "s")]) =
          some c from ha) with h
        rw [← h]
        exact Or.inl ⟨[.prim (.num 2), .prim (.str "s")], rfl⟩
      | n+2, ha => exact absurd ha (by simp)
    )
    (by
      rw [ReprVal]
      refine ⟨0, .prim .null,
        [("a", .data (.prim (.num 1)) true true true),
         ("b", .data (.ref 1) true true true)], rfl, rfl, rfl,
        by decide, by decide, ?_⟩
      intro n kd hkd
      match n, hkd with
      | 0, hkd =>
        have h := Option.some.inj hkd
        rw [← h]
        refine ⟨.prim (.num 1), rfl, ?_⟩
        rw [ReprVal]
      | 1, hkd =>
        have h := Option.some.inj hkd
        rw [← h]
        refine ⟨.ref 1, rfl, ?_⟩
        rw [ReprVal]
        refine ⟨1, [.prim (.num 2), .prim (.str "s")], rfl, rfl, rfl, ?_⟩
        intro m w dd hw hd
        match m, hw, hd with
        | 0, hw, hd =>
          rw [← Option.some.inj hw, ← Option.some.inj hd]
          rw [ReprVal]
        | 1, hw, hd =>
          rw [← Option.some.inj hw, ← Option.some.inj hd]
          rw [ReprVal]
        | m+2, hw, hd => exact absurd hw (by simp)
    )
    (by
      intro b hb
      injection hb with h2
      rw [← h2]
      decide)
  have hc : serializeTop [] (.prim .null)
      (encodeFuel [.obj (.prim .null)
          [("a", .data (.prim (.num 1)) true true true),
           ("b", .data (.ref 1) true true true)],
        .arr [.prim (.num 2), .prim (.str "s")]])
      [.obj (.prim .null) [("a", .data (.prim (.num 1)) true true true),
                           ("b", .data (.ref 1) true true true)],
       .arr [.prim (.num 2), .prim (.str "s")]] (.ref 0) =
      some ((⟨0, [some (.object 1 [("a", 2), ("b", 3)] []),
              some (.primitive .null), some (.primitive (.num 1)),
              some (.array [4, 5]), some (.primitive (.num 2)),
              some (.primitive (.str "s"))],
          [(.ref 0, 0), (.prim .null, 1), (.prim (.num 1), 2), (.ref 1, 3),
           (.prim (.num 2), 4), (.prim (.str "s"), 5)]⟩ : Graph),
        [.obj (.prim .null) [("a", .data (.prim (.num 1)) true true true),
                             ("b", .data (.ref 1) true true true)],
         .arr [.prim (.num 2), .prim (.str "s")]]) := by decide
  rw [hc] at henc
  injection henc with hpair
  have hg : (⟨0, [some (.object 1 [("a", 2), ("b", 3)] []),
      some (.primitive .null), some (.primitive (.num 1)),
      some (.array [4, 5]), some (.primitive (.num 2)),
      some (.primitive (.str "s"))],
      [(.ref 0, 0), (.prim .null, 1), (.prim (.num 1), 2), (.ref 1, 3),
       (.prim (.num 2), 4), (.prim (.str "s"), 5)]⟩ : Graph) = g :=
    congrArg Prod.fst hpair
  rw [← hg] at hdec
  exact hdec 14 (by decide)

end TsSC
